import Mathlib

set_option maxRecDepth 100000

/-!
Shallow embedding of the nom-based JSON parser in `src/main.rs` (crate: nom 7,
serde_json).  Inputs are lists of characters; each nom parser becomes a Lean
function from the remaining input to a `PResult`.  The nom combinators used by
the source (`value`, `map`, `alt`, `tag`, `char`, `none_of`, `multispace0`,
`delimited`, `separated_pair`, `many0`, `separated_list0`,
`recognize_float`, `cut`, `opt`, `digit1`) are modelled one by one, and the
seven grammar rules (`parse_null`, `parse_bool`, `parse_number`,
`parse_escaped_char`, `parse_string`, `parse_array`, `parse_object`,
`parse_primary`) are translated directly from the source.
-/

/-- A parser input: the remaining unconsumed characters (a suffix of the
original text). -/
abbrev Input := List Char

/-- Result of running a nom-style parser.  `ok rest val` is nom's
`Ok((rest, val))`; `err` is nom's recoverable `Err::Error`; `fail` is nom's
unrecoverable `Err::Failure` (produced by `cut`, which `alt` and `opt` do not
catch); `panic` models a Rust panic (process abort) escaping from parser code.
The position/kind payloads of nom error values are not observed by any
property proved in this file and are omitted. -/
inductive PResult (α : Type) where
  | ok (rest : Input) (val : α)
  | err
  | fail
  | panic

/-- A nom parser over string slices. -/
abbrev Parser (α : Type) := Input → PResult α

/-- nom `combinator::map`. -/
def pmap (p : Parser α) (f : α → β) : Parser β := fun i =>
  match p i with
  | .ok r v => .ok r (f v)
  | .err => .err
  | .fail => .fail
  | .panic => .panic

/-- nom `combinator::value`. -/
def pvalue (v : β) (p : Parser α) : Parser β :=
  pmap p (fun _ => v)

/-- Sequencing, the semantics underlying nom tuples and `delimited`,
`separated_pair` and friends. -/
def pbind (p : Parser α) (f : α → Parser β) : Parser β := fun i =>
  match p i with
  | .ok r v => f v r
  | .err => .err
  | .fail => .fail
  | .panic => .panic

/-- nom `combinator::opt`: recoverable errors yield `none`, hard failures
(`cut`) still propagate. -/
def popt (p : Parser α) : Parser (Option α) := fun i =>
  match p i with
  | .ok r v => .ok r (some v)
  | .err => .ok i none
  | .fail => .fail
  | .panic => .panic

/-- nom `combinator::cut`: turns a recoverable error into an unrecoverable
failure. -/
def pcut (p : Parser α) : Parser α := fun i =>
  match p i with
  | .ok r v => .ok r v
  | .err => .fail
  | .fail => .fail
  | .panic => .panic

/-- nom `branch::alt` over a list of alternatives: try each parser on the same
input, moving on only after a recoverable error; a hard failure or a panic
stops the whole alternation.  An exhausted alternation reports an error. -/
def altList (ps : List (Parser α)) : Parser α := fun i =>
  match ps with
  | [] => .err
  | p :: rest =>
    match p i with
    | .ok r v => .ok r v
    | .err => altList rest i
    | .fail => .fail
    | .panic => .panic

/-- nom `character::complete::char` (aliased `charP` in the source). -/
def charP (c : Char) : Parser Char := fun i =>
  match i with
  | [] => .err
  | c' :: r => if c' = c then .ok r c' else .err

/-- nom `character::complete::none_of`: any single character not in the given
set. -/
def none_of (cs : List Char) : Parser Char := fun i =>
  match i with
  | [] => .err
  | c :: r => if c ∈ cs then .err else .ok r c

/-- Strip a literal prefix: `strip t i = some r` iff `i = t ++ r`. -/
def strip : List Char → Input → Option Input
  | [], i => some i
  | _ :: _, [] => none
  | c :: t, d :: i => if d = c then strip t i else none

/-- nom `bytes::complete::tag`. -/
def tag (t : List Char) : Parser (List Char) := fun i =>
  match strip t i with
  | some r => .ok r t
  | none => .err

/-- The characters accepted by nom `multispace0`: space, tab, line feed,
carriage return. -/
def isWhitespaceChar (c : Char) : Bool :=
  c = ' ' || c = '\t' || c = '\n' || c = '\r'

/-- The input with its leading whitespace removed. -/
def dropWS (i : Input) : Input := i.dropWhile isWhitespaceChar

/-- nom `character::complete::multispace0`: consumes zero or more whitespace
characters, never failing. -/
def multispace0 : Parser (List Char) := fun i =>
  .ok (dropWS i) (i.takeWhile isWhitespaceChar)

/-- nom `sequence::delimited`. -/
def delimited (a : Parser α) (b : Parser β) (c : Parser γ) : Parser β :=
  pbind a (fun _ => pbind b (fun v => pmap c (fun _ => v)))

/-- nom `sequence::separated_pair`. -/
def separated_pair (a : Parser α) (s : Parser γ) (b : Parser β) : Parser (α × β) :=
  pbind a (fun x => pbind s (fun _ => pmap b (fun y => (x, y))))

/-- nom `character::complete::digit1`: one or more ASCII decimal digits. -/
def digit1 : Parser (List Char) := fun i =>
  match i with
  | [] => .err
  | c :: _ =>
    if c.isDigit then .ok (i.dropWhile Char.isDigit) (i.takeWhile Char.isDigit)
    else .err

/-- nom `combinator::recognize`: run a parser and return the consumed slice. -/
def recognize (p : Parser α) : Parser (List Char) := fun i =>
  match p i with
  | .ok r _ => .ok r (i.take (i.length - r.length))
  | .err => .err
  | .fail => .fail
  | .panic => .panic

/-- nom `multi::many0`, with an explicit fuel argument so that the definition
is structurally recursive and kernel-computable.  nom's `many0` errors out if
the inner parser succeeds without consuming input, so each iteration consumes
at least one character; the wrapper `many0` below supplies fuel
`input length + 1`, which therefore can never run out (fuel exhaustion
defensively reports an error). -/
def many0F (p : Parser α) : Nat → Input → PResult (List α)
  | 0, _ => .err
  | fuel + 1, i =>
    match p i with
    | .err => .ok i []
    | .fail => .fail
    | .panic => .panic
    | .ok i1 o =>
      if i1.length = i.length then .err
      else
        match many0F p fuel i1 with
        | .ok r rest => .ok r (o :: rest)
        | .err => .err
        | .fail => .fail
        | .panic => .panic

/-- nom `multi::many0`. -/
def many0 (p : Parser α) : Parser (List α) := fun i =>
  many0F p (i.length + 1) i

/-- The loop of nom `multi::separated_list0` after the first element, with
explicit fuel (see `many0F`): parse a separator and then an element, rewinding
to before the separator if either recoverably fails.  nom's zero-consumption
check on the separator makes each iteration consume input, so the fuel
supplied by `separated_list0` can never run out. -/
def sepLoopF (sep : Parser β) (p : Parser α) : Nat → Input → PResult (List α)
  | 0, _ => .err
  | fuel + 1, i =>
    match sep i with
    | .err => .ok i []
    | .fail => .fail
    | .panic => .panic
    | .ok i1 _ =>
      if i1.length = i.length then .err
      else
        match p i1 with
        | .err => .ok i []
        | .fail => .fail
        | .panic => .panic
        | .ok i2 o =>
          match sepLoopF sep p fuel i2 with
          | .ok r rest => .ok r (o :: rest)
          | .err => .err
          | .fail => .fail
          | .panic => .panic

/-- nom `multi::separated_list0`: a possibly empty list of `p` separated by
`sep`.  A recoverable failure of the first element yields the empty list; a
recoverable failure after a separator rewinds to before that separator; hard
failures and panics propagate. -/
def separated_list0 (sep : Parser β) (p : Parser α) : Parser (List α) := fun i =>
  match p i with
  | .err => .ok i []
  | .fail => .fail
  | .panic => .panic
  | .ok i1 o =>
    match sepLoopF sep p (i1.length + 1) i1 with
    | .ok r rest => .ok r (o :: rest)
    | .err => .err
    | .fail => .fail
    | .panic => .panic

/-- serde_json's `Value`, the parse tree.  The `number` payload holds the exact
rational value of the numeric literal (see `parse_number`: the literals
compared by the properties in this file are all exactly representable as
doubles, and finiteness of the double — the one observable conversion
failure — is modelled separately).  `object` entries form an association list
in first-insertion order; entry order is not observed by any property proved
here. -/
inductive Value where
  | null
  | bool (b : Bool)
  | number (q : ℚ)
  | string (s : List Char)
  | array (elems : List Value)
  | object (entries : List (List Char × Value))

/-- `fn parse_null`: `value(Value::Null, delimited(multispace0, tag("null"),
multispace0))`. -/
def parse_null : Parser Value :=
  pvalue Value.null (delimited multispace0 (tag ("null".toList)) multispace0)

/-- `fn parse_bool`: `alt((value(Bool(true), …tag("true")…), value(Bool(false),
…tag("false")…)))`. -/
def parse_bool : Parser Value :=
  altList
    [pvalue (Value.bool true) (delimited multispace0 (tag ("true".toList)) multispace0),
     pvalue (Value.bool false) (delimited multispace0 (tag ("false".toList)) multispace0)]

/-- The grammar of nom 7's `number::complete::recognize_float`:
optional sign, then either `digit1` followed by an optional `.` and optional
`digit1`, or `.` followed by `digit1`, then an optional exponent
`e|E`, optional sign, and a `cut` mandatory `digit1`. -/
def floatSyntax : Parser Unit :=
  pbind (popt (altList [charP '+', charP '-'])) (fun _ =>
  pbind (altList
      [pmap (pbind digit1 (fun _ =>
          popt (pbind (charP '.') (fun _ => popt digit1)))) (fun _ => ()),
       pmap (pbind (charP '.') (fun _ => digit1)) (fun _ => ())]) (fun _ =>
  pmap (popt (pbind (altList [charP 'e', charP 'E']) (fun _ =>
      pbind (popt (altList [charP '+', charP '-'])) (fun _ =>
      pcut digit1))))
    (fun _ => ())))

/-- nom `number::complete::recognize_float`. -/
def recognize_float : Parser (List Char) := recognize floatSyntax

/-- The numeric value of a digit character. -/
def digitVal (c : Char) : Nat := c.toNat - '0'.toNat

/-- The number denoted by a string of decimal digits. -/
def digitsVal (ds : List Char) : Nat :=
  ds.foldl (fun a c => 10 * a + digitVal c) 0

/-- Binary exponentiation with explicit fuel (the fuel only needs to exceed
`log2 e`, so `binPow b e e` always computes `b ^ e`); this keeps kernel and
elaborator reduction shallow for the large powers of ten and two appearing in
numeric conversion. -/
def binPow (b : ℕ) : Nat → Nat → ℕ
  | 0, _ => 1
  | fuel + 1, e =>
    if e = 0 then 1
    else (binPow b fuel (e / 2)) ^ 2 * (if e % 2 = 1 then b else 1)

/-- `b ^ e`, computed by binary exponentiation (see `powNat_eq`). -/
def powNat (b e : ℕ) : ℕ := binPow b e e

/-- The signed value of an exponent suffix (the part after `e`/`E`). -/
def expVal (t : List Char) : ℤ :=
  match t with
  | '-' :: u => -(digitsVal (u.takeWhile Char.isDigit) : ℤ)
  | '+' :: u => (digitsVal (u.takeWhile Char.isDigit) : ℤ)
  | _ => (digitsVal (t.takeWhile Char.isDigit) : ℤ)

/-- The exact rational value denoted by a numeric literal recognized by
`recognize_float` (optional sign, integer digits, optional fraction, optional
exponent): `sign * (intPart + fracPart / 10^fracLen) * 10^exponent`, built
directly as a normalized fraction with `mkRat`.  This is the value computed by
Rust's `str::parse::<f64>` on such a literal, kept exact instead of rounded to
the nearest double: every literal whose value is compared by a property in
this file is exactly representable, and the only observable conversion
failure — a value outside the finite double range — is checked by
`isFiniteDouble` in `parse_number`. -/
def ratOfLit (s : List Char) : ℚ :=
  let sgnRest : ℤ × List Char :=
    match s with
    | '-' :: t => (-1, t)
    | '+' :: t => (1, t)
    | _ => (1, s)
  let s1 := sgnRest.2
  let ip := s1.takeWhile Char.isDigit
  let s2 := s1.dropWhile Char.isDigit
  let fpRest : List Char × List Char :=
    match s2 with
    | '.' :: t => (t.takeWhile Char.isDigit, t.dropWhile Char.isDigit)
    | _ => ([], s2)
  let fp := fpRest.1
  let ex : ℤ :=
    match fpRest.2 with
    | 'e' :: t => expVal t
    | 'E' :: t => expVal t
    | _ => 0
  let mant : ℤ := sgnRest.1 * (digitsVal ip * powNat 10 fp.length + digitsVal fp)
  match ex with
  | .ofNat e => mkRat (mant * (powNat 10 e : ℕ)) (powNat 10 fp.length)
  | .negSucc e => mkRat mant (powNat 10 fp.length * powNat 10 (e + 1))

/-- The tail of `ratOfLit` after the sign has been resolved (`sg`) and the
integer digits split off (`ip`, with `s2` the remainder): a reduction helper
whose matches mirror `ratOfLit`, used to evaluate `ratOfLit` on symbolic
serialized literals (see `ratOfLit_ser`). -/
def ratOfLitStep2 (sg : ℤ) (ip s2 : List Char) : ℚ :=
  let fpRest : List Char × List Char :=
    match s2 with
    | '.' :: t => (t.takeWhile Char.isDigit, t.dropWhile Char.isDigit)
    | _ => ([], s2)
  let fp := fpRest.1
  let ex : ℤ :=
    match fpRest.2 with
    | 'e' :: t => expVal t
    | 'E' :: t => expVal t
    | _ => 0
  let mant : ℤ := sg * (digitsVal ip * powNat 10 fp.length + digitsVal fp)
  match ex with
  | .ofNat e => mkRat (mant * (powNat 10 e : ℕ)) (powNat 10 fp.length)
  | .negSucc e => mkRat mant (powNat 10 fp.length * powNat 10 (e + 1))

/-- The tail of `ratOfLit` for a fraction-free literal whose exponent value is
`ex` (see `ratOfLitStep2`). -/
def ratOfLitStep3 (sg : ℤ) (ip : List Char) (ex : ℤ) : ℚ :=
  match ex with
  | .ofNat e =>
    mkRat ((sg * (digitsVal ip * powNat 10 0 + digitsVal [])) * (powNat 10 e : ℕ))
      (powNat 10 0)
  | .negSucc e =>
    mkRat (sg * (digitsVal ip * powNat 10 0 + digitsVal []))
      (powNat 10 0 * powNat 10 (e + 1))

/-- Magnitudes at or above this bound round (to nearest, ties to even) past the
largest finite IEEE-754 double `2^1024 - 2^971`, so Rust's `f64` parsing yields
an infinity and `serde_json::Number::from_f64` yields `None`.  (The bound is
the rounding boundary `2^1024 - 2^970`, the midpoint between the largest
finite double and `2^1024`.) -/
def overflowThresholdNat : ℕ := powNat 2 1024 - powNat 2 970

/-- Whether a rational is (strictly) below the double rounding-overflow
boundary in magnitude, i.e. `|q| < overflowThresholdNat`, phrased over the
numerator and denominator so that it evaluates by integer arithmetic. -/
def isFiniteDouble (q : ℚ) : Bool :=
  q.num.natAbs < overflowThresholdNat * q.den

/-- `fn parse_number`: `map(delimited(multispace0, recognize_float,
multispace0), |s| { let num = s.parse::<f64>().unwrap();
Value::Number(serde_json::Number::from_f64(num).unwrap()) })`.

The first `unwrap` never panics: every slice recognized by `recognize_float`
is accepted by Rust's `f64` parser (overflow silently yields an infinity).
The second `unwrap` panics exactly when `from_f64` returns `None`, i.e. when
the parsed double is not finite — a recognized literal is never NaN, so this
happens exactly when the literal's magnitude reaches the rounding-overflow
boundary checked by `isFiniteDouble`. -/
def parse_number : Parser Value := fun i =>
  match delimited multispace0 recognize_float multispace0 i with
  | .ok r s =>
    if isFiniteDouble (ratOfLit s) then .ok r (Value.number (ratOfLit s))
    else .panic
  | .err => .err
  | .fail => .fail
  | .panic => .panic

/-- `fn parse_escaped_char`: match `\` and then one of the eight recognized
escape characters, producing the decoded character. -/
def parse_escaped_char : Parser Char := fun input =>
  match charP '\\' input with
  | .ok input1 _ =>
    altList
      [pvalue '"' (charP '"'),
       pvalue '\\' (charP '\\'),
       pvalue '/' (charP '/'),
       pvalue '\n' (charP 'n'),
       pvalue '\r' (charP 'r'),
       pvalue '\t' (charP 't'),
       pvalue '\x08' (charP 'b'),
       pvalue '\x0c' (charP 'f')] input1
  | .err => .err
  | .fail => .fail
  | .panic => .panic

/-- One character of a string body, as in `fn parse_string`:
`alt((map(parse_escaped_char, |c| c), none_of("\"\\")))`. -/
def stringBodyChar : Parser Char :=
  altList [pmap parse_escaped_char id, none_of ['"', '\\']]

/-- `fn parse_string`: `delimited(char('"'), map(many0(alt((map(
parse_escaped_char, |c| c), none_of("\"\\")))), |chars| Value::String(…)),
char('"'))`. -/
def parse_string : Parser Value :=
  delimited (charP '"')
    (pmap (many0 stringBodyChar) Value.string)
    (charP '"')

/-- `serde_json::Map::insert` on the association-list model: replace the value
at an existing key, otherwise add a new entry.  (serde_json's default map is a
`BTreeMap` ordered by key; entry order is not observed by any property proved
in this file, so the model keeps first-insertion order.) -/
def insertEntry (m : List (List Char × Value)) (k : List Char) (v : Value) :
    List (List Char × Value) :=
  match m with
  | [] => [(k, v)]
  | (k', v') :: rest => if k' = k then (k, v) :: rest else (k', v') :: insertEntry rest k v

/-- The fold in `fn parse_object`'s closure: `for (key, value) in pairs {
if let Value::String(k) = key { map.insert(k, value); } }` starting from the
empty map. -/
def objectEntriesFold (pairs : List (Value × Value)) : List (List Char × Value) :=
  pairs.foldl
    (fun m kv =>
      match kv with
      | (Value.string k, v) => insertEntry m k v
      | _ => m)
    []

/-- The closure in `fn parse_object` that turns the parsed key/value pairs into
a JSON object. -/
def buildObjectMap (pairs : List (Value × Value)) : Value :=
  Value.object (objectEntriesFold pairs)

/-- First-match association lookup on the object-entry model. -/
def lookupEntry : List (List Char × Value) → List Char → Option Value
  | [], _ => none
  | (k', v) :: rest, k => if k' = k then some v else lookupEntry rest k

/-- The value of the last key/value pair among `pairs` whose key is the string
`k` (later pairs take precedence), ignoring non-string keys — the "last
occurrence wins" reading of the duplicate-key policy. -/
def lastStringValue : List (Value × Value) → List Char → Option Value
  | [], _ => none
  | (key, v) :: rest, k =>
    match lastStringValue rest k with
    | some w => some w
    | none =>
      match key with
      | Value.string k' => if k' = k then some v else none
      | _ => none

/-- The body of `fn parse_array`, abstracted over the element parser (the
source calls `parse_primary` recursively; the recursion is tied in
`parsePrimaryF`). -/
def arrayRule (elem : Parser Value) : Parser Value :=
  delimited (delimited multispace0 (charP '[') multispace0)
    (pmap
      (separated_list0 (delimited multispace0 (charP ',') multispace0) elem)
      Value.array)
    (delimited multispace0 (charP ']') multispace0)

/-- The body of `fn parse_object`, abstracted over the value parser (the
source calls `parse_primary` recursively; the recursion is tied in
`parsePrimaryF`). -/
def objectRule (elem : Parser Value) : Parser Value :=
  delimited (delimited multispace0 (charP '\x7b') multispace0)
    (pmap
      (separated_list0 (delimited multispace0 (charP ',') multispace0)
        (separated_pair (delimited multispace0 parse_string multispace0)
          (charP ':') elem))
      buildObjectMap)
    (delimited multispace0 (charP '\x7d') multispace0)

/-- `fn parse_primary`, with an explicit fuel bounding the depth of the mutual
recursion `parse_primary → parse_array/parse_object → parse_primary` so that
the definition is structural and kernel-computable.  Every recursive call
happens on a strictly shorter input (a bracket has been consumed), so the fuel
`input length + 1` supplied by the wrapper `parse_primary` can never run out
(exhausted fuel defensively reports an error; see `parsePrimaryF_fuel`). -/
def parsePrimaryF : Nat → Parser Value
  | 0 => fun _ => .err
  | n + 1 =>
    delimited multispace0
      (altList
        [parse_null, parse_bool, parse_number, parse_string,
         arrayRule (fun i => parsePrimaryF n i),
         objectRule (fun i => parsePrimaryF n i)])
      multispace0

/-- `fn parse_array` (the element parser is `parse_primary`, supplied with
adequate fuel). -/
def parseArrayF (n : Nat) : Parser Value :=
  arrayRule (fun i => parsePrimaryF n i)

/-- `fn parse_object` (the value parser is `parse_primary`, supplied with
adequate fuel). -/
def parseObjectF (n : Nat) : Parser Value :=
  objectRule (fun i => parsePrimaryF n i)

/-- `fn parse_primary`, the entry point: dispatch over the six value kinds
wrapped in whitespace trimming. -/
def parse_primary (i : Input) : PResult Value :=
  parsePrimaryF (i.length + 1) i

/-- `fn parse_array` at its canonical fuel. -/
def parse_array (i : Input) : PResult Value :=
  parseArrayF i.length i

/-- `fn parse_object` at its canonical fuel. -/
def parse_object (i : Input) : PResult Value :=
  parseObjectF i.length i

/-- The dispatch semantics the spec states for the Value rule: attempt the
given rules in order on the same input, return the first success, and fail
when every rule fails (a panic escaping a rule aborts the dispatch). -/
def tryRulesSpec : List (Parser α) → Parser α
  | [] => fun _ => .err
  | p :: ps => fun i =>
    match p i with
    | .ok r v => .ok r v
    | .panic => .panic
    | .err => tryRulesSpec ps i
    | .fail => tryRulesSpec ps i

/-- The six kind-rules in the fixed dispatch order of `parse_primary`:
Null, Boolean, Number, String, Array, Object. -/
def sixKindRules : List (Parser Value) :=
  [parse_null, parse_bool, parse_number, parse_string, parse_array, parse_object]

/-- Modelled from the spec: the decimal digit string of a natural number
(most significant digit first), with explicit fuel keeping the recursion
structural.  The spec's round-trip property (§8) re-serializes a parsed tree;
the source repository contains no serializer (serialization is a §1 non-goal),
so the canonical one used by the round-trip property is defined here. -/
def natDigitsF : Nat → Nat → List Char
  | 0, _ => []
  | fuel + 1, n =>
    if n = 0 then [] else natDigitsF fuel (n / 10) ++ [Char.ofNat (48 + n % 10)]

/-- Modelled from the spec: the decimal digits of `n` (`"0"` for zero). -/
def natDigits (n : Nat) : List Char :=
  if n = 0 then ['0'] else natDigitsF n n

/-- Modelled from the spec: a parsed number re-serialized as an exact decimal
literal `M` `e` `-k`, where `k` is the denominator of the reduced rational
payload and `M = num * (10^k / k)`.  For parser-produced numbers the
denominator divides `10^k` (see `ratOfLit_den_dvd`), so the literal denotes
exactly the payload. -/
def serializeNumber (q : ℚ) : List Char :=
  let M : ℤ := q.num * ((powNat 10 q.den / q.den : ℕ) : ℤ)
  (if M < 0 then '-' :: natDigits M.natAbs else natDigits M.natAbs) ++
    'e' :: '-' :: natDigits q.den

/-- Modelled from the spec: serialize one string-body character, escaping the
quote and the backslash (the two characters the parser's string body cannot
contain raw; every other character, control characters included, is accepted
verbatim by `none_of`). -/
def escapeChar (c : Char) : List Char :=
  if c = '"' then ['\\', '"'] else if c = '\\' then ['\\', '\\'] else [c]

/-- Modelled from the spec: the serialized body of a string literal. -/
def escBody (s : List Char) : List Char :=
  s.foldr (fun c acc => escapeChar c ++ acc) []

/-- Modelled from the spec: a serialized string literal. -/
def serializeString (s : List Char) : List Char :=
  '"' :: (escBody s ++ ['"'])

mutual

/-- Modelled from the spec: the canonical re-serialization of a parse tree
used by the spec's round-trip property (§8). -/
def serialize : Value → List Char
  | .null => "null".toList
  | .bool true => "true".toList
  | .bool false => "false".toList
  | .number q => serializeNumber q
  | .string s => serializeString s
  | .array vs => '[' :: (serializeElems vs ++ [']'])
  | .object ps => '\x7b' :: (serializeEntries ps ++ ['\x7d'])

/-- Modelled from the spec: comma-joined serializations of array elements. -/
def serializeElems : List Value → List Char
  | [] => []
  | [v] => serialize v
  | v :: w :: vs => serialize v ++ ',' :: serializeElems (w :: vs)

/-- Modelled from the spec: comma-joined serializations of object entries. -/
def serializeEntries : List (List Char × Value) → List Char
  | [] => []
  | [(k, v)] => serializeString k ++ ':' :: serialize v
  | (k, v) :: p :: ps =>
    serializeString k ++ ':' :: serialize v ++ ',' :: serializeEntries (p :: ps)

end

/-- Comma-join a list of serialized fragments — the common shape of
`serializeElems` and `serializeEntries`, abstracted over the per-element
serializer for the shared separator-loop lemmas. -/
def joinSer (f : α → List Char) : List α → List Char
  | [] => []
  | [x] => f x
  | x :: y :: l => f x ++ ',' :: joinSer f (y :: l)

/-- The serialization of a parsed object entry (a pair whose first component
is the parsed key): the shape of elements handled by the object rule's
separated list. -/
def serializeParsedEntry (x : Value × Value) : List Char :=
  match x.1 with
  | Value.string k => serializeString k ++ ':' :: serialize x.2
  | _ => []

/-- The input seen by the separator loop of `separated_list0` while the
elements of `l`, the closing character and `rest` remain to be consumed. -/
def loopInG (f : α → List Char) (close : Char) : List α → Input → Input
  | [], rest => close :: rest
  | l@(_ :: _), rest => ',' :: (joinSer f l ++ close :: rest)

/-- The first unconsumed character (if any) is not a decimal digit, so the
remaining input cannot extend a preceding numeric literal. -/
def numBoundary : Input → Prop
  | [] => True
  | c :: _ => c.isDigit = false

/-- The invariant of parser-produced values: numeric payloads are decimal
rationals (denominator dividing a power of ten) inside the finite-double
range, and object entries carry pairwise distinct keys.  Every successful
parse satisfies it (`parsePrimaryF_good`), and such values round-trip through
the serializer (`serialize_reparse`). -/
inductive Good : Value → Prop where
  | null : Good Value.null
  | bool (b : Bool) : Good (Value.bool b)
  | number (q : ℚ) (hden : q.den ∣ 10 ^ q.den) (hfin : isFiniteDouble q = true) :
      Good (Value.number q)
  | string (s : List Char) : Good (Value.string s)
  | array (vs : List Value) (h : ∀ v ∈ vs, Good v) : Good (Value.array vs)
  | object (ps : List (List Char × Value)) (hv : ∀ p ∈ ps, Good p.2)
      (hk : (ps.map Prod.fst).Nodup) : Good (Value.object ps)

/-- Modelled from the spec: the RFC 8259 number grammar (`-?int frac? exp?`
with `int = 0 | [1-9][0-9]*`, `frac = . [0-9]+`, `exp = (e|E)(+|-)?[0-9]+`),
which the spec contrasts with the source's lenient recognizer ("JSON forbids
leading zeros and bare decimal points (e.g. \".5\" or \"01\")").  The source
contains no such recognizer; this definition exists only as the comparison
point for the leniency claim.  Accepts iff the whole input is one conforming
number. -/
def rfc8259NumberAccepts (s : List Char) : Bool :=
  let s1 := match s with | '-' :: t => t | _ => s
  let intRes : Option (List Char) :=
    match s1 with
    | '0' :: t => some t
    | c :: t => if c.isDigit then some (t.dropWhile Char.isDigit) else none
    | [] => none
  match intRes with
  | none => false
  | some s2 =>
    let fracRes : Option (List Char) :=
      match s2 with
      | '.' :: t =>
        match t with
        | c :: _ => if c.isDigit then some (t.dropWhile Char.isDigit) else none
        | [] => none
      | _ => some s2
    match fracRes with
    | none => false
    | some s3 =>
      let expRes : Option (List Char) :=
        match s3 with
        | 'e' :: t =>
          let t1 := match t with | '+' :: u => u | '-' :: u => u | _ => t
          (match t1 with
           | c :: _ => if c.isDigit then some (t1.dropWhile Char.isDigit) else none
           | [] => none)
        | 'E' :: t =>
          let t1 := match t with | '+' :: u => u | '-' :: u => u | _ => t
          (match t1 with
           | c :: _ => if c.isDigit then some (t1.dropWhile Char.isDigit) else none
           | [] => none)
        | _ => some s3
      match expRes with
      | none => false
      | some s4 => s4.isEmpty

example : parse_primary ("null".toList) = .ok [] Value.null := rfl
example : parse_primary ("  true  ".toList) = .ok [] (Value.bool true) := rfl
example : parse_primary ("nul".toList) = .err := rfl
example : parse_primary ("123.45".toList) = .ok [] (Value.number (mkRat 12345 100)) := rfl
example : parse_primary (".5".toList) = .ok [] (Value.number (mkRat 1 2)) := rfl
example : parse_primary ("[]".toList) = .ok [] (Value.array []) := rfl
example : parse_primary ("[1, 2, 3]".toList) =
    .ok [] (Value.array [Value.number 1, Value.number 2, Value.number 3]) := rfl
example : parse_primary ("[1, 2,]".toList) = .err := rfl
example : parse_primary ("\"a\\nb\"".toList) = .ok [] (Value.string ['a', '\n', 'b']) := rfl
example : parse_primary ("\"\\q\"".toList) = .err := rfl
example : parse_primary ("\x7b\"a\": 1, \"a\": 2\x7d".toList) =
    .ok [] (Value.object [("a".toList, Value.number 2)]) := rfl
example : parse_primary ("1e999".toList) = .panic := rfl
example : parse_primary ("nullx".toList) = .ok ['x'] Value.null := rfl
example : parse_primary ("falsetto".toList) = .ok ("tto".toList) (Value.bool false) := rfl

theorem dropWS_idem (i : Input) : dropWS (dropWS i) = dropWS i := by
  induction i with
  | nil => rfl
  | cons c t ih =>
    by_cases h : isWhitespaceChar c = true
    · simpa [dropWS, List.dropWhile, h] using ih
    · have h' : isWhitespaceChar c = false := by simpa using h
      simp [dropWS, List.dropWhile, h']

theorem dropWS_cons_of_not_ws {c : Char} (h : isWhitespaceChar c = false)
    (t : Input) : dropWS (c :: t) = c :: t := by
  simp [dropWS, List.dropWhile, h]

/-- Unfolding lemma for `many0F` at positive fuel. -/
theorem many0F_succ (p : Parser α) (fuel : Nat) (i : Input) :
    many0F p (fuel + 1) i =
      match p i with
      | .err => .ok i []
      | .fail => .fail
      | .panic => .panic
      | .ok i1 o =>
        if i1.length = i.length then .err
        else
          match many0F p fuel i1 with
          | .ok r rest => .ok r (o :: rest)
          | .err => .err
          | .fail => .fail
          | .panic => .panic := rfl

/-- C1: the claim states that for every input the parse entry point terminates
without panicking, reporting a numeric literal that exceeds the finite double
range (such as "1e999") as a `NumericConversionFailure` error.  The code
violates this: on "1e999" Rust's `f64` parsing yields infinity,
`serde_json::Number::from_f64` yields `None`, and the `.unwrap()` in
`parse_number`'s conversion closure panics.  This theorem evaluates the
embedded parser at that failing input: the result is the panic outcome, not a
reported error. -/
theorem C1_number_overflow_panics :
    parse_primary ("1e999".toList) = PResult.panic := rfl

/-- C8: the Number rule's recognizer is lenient beyond the RFC 8259 grammar:
it accepts a numeric literal with no digit before the decimal point, so
parsing ".5" succeeds with the value 1/2 (= 0.5), while the RFC 8259 number
grammar (modelled from the spec) rejects ".5". -/
theorem C8_lenient_number_grammar :
    parse_primary (".5".toList) = .ok [] (Value.number (mkRat 1 2)) ∧
    rfc8259NumberAccepts (".5".toList) = false :=
  ⟨rfl, rfl⟩

/-- C9 (counterexample): the claim as stated — every input consisting of a
keyword literal immediately followed by arbitrary extra characters parses to
the fixed value and leaves the extra characters, in full, as the unconsumed
remaining input — is false: for the extra characters " x" after "null", the
keyword rule's trailing-whitespace skip consumes the leading space, so the
remaining input is "x", not " x". -/
theorem C9_counterexample :
    ¬ (∀ extra : List Char,
        parse_primary ('n' :: 'u' :: 'l' :: 'l' :: extra) = .ok extra Value.null) := by
  intro h
  have h1 := h [' ', 'x']
  have h2 : parse_primary ('n' :: 'u' :: 'l' :: 'l' :: [' ', 'x']) =
      .ok ['x'] Value.null := rfl
  rw [h2] at h1
  cases h1

/-- C9 (amended): for every input consisting of "null", "true" or "false"
immediately followed by arbitrary extra characters, the parse entry point
succeeds, returns the corresponding fixed value, and leaves the extra
characters — less any leading whitespace among them, which the keyword rules'
trailing-whitespace skip consumes — as the unconsumed remaining input; in
particular extras beginning with a non-whitespace character, as in "nullx" or
"falsetto", remain unconsumed in full. -/
theorem C9_keyword_prefix_amended :
    (∀ extra : List Char,
      parse_primary ('n' :: 'u' :: 'l' :: 'l' :: extra) = .ok (dropWS extra) Value.null ∧
      parse_primary ('t' :: 'r' :: 'u' :: 'e' :: extra) = .ok (dropWS extra) (Value.bool true) ∧
      parse_primary ('f' :: 'a' :: 'l' :: 's' :: 'e' :: extra) =
        .ok (dropWS extra) (Value.bool false)) ∧
    parse_primary ("nullx".toList) = .ok ['x'] Value.null ∧
    parse_primary ("falsetto".toList) = .ok ("tto".toList) (Value.bool false) := by
  refine ⟨fun extra => ⟨?_, ?_, ?_⟩, rfl, rfl⟩
  · have h : parse_primary ('n' :: 'u' :: 'l' :: 'l' :: extra) =
        .ok (dropWS (dropWS extra)) Value.null := rfl
    rwa [dropWS_idem] at h
  · have h : parse_primary ('t' :: 'r' :: 'u' :: 'e' :: extra) =
        .ok (dropWS (dropWS extra)) (Value.bool true) := rfl
    rwa [dropWS_idem] at h
  · have h : parse_primary ('f' :: 'a' :: 'l' :: 's' :: 'e' :: extra) =
        .ok (dropWS (dropWS extra)) (Value.bool false) := rfl
    rwa [dropWS_idem] at h

/-- C10: the String rule accepts any character other than a double quote and a
backslash as a literal string-body character — including raw (unescaped)
control characters such as a literal newline or tab between the quotes — and
preserves it verbatim in the resulting String value. -/
theorem C10_raw_control_chars_preserved :
    (∀ c : Char, c ≠ '"' → c ≠ '\\' → ∀ rest : Input,
      parse_string ('"' :: c :: '"' :: rest) = .ok rest (Value.string [c])) ∧
    parse_primary ("\"a\nb\"".toList) = .ok [] (Value.string ['a', '\n', 'b']) ∧
    parse_primary ("\"a\tb\"".toList) = .ok [] (Value.string ['a', '\t', 'b']) := by
  refine ⟨fun c h1 h2 rest => ?_, rfl, rfl⟩
  have hesc : parse_escaped_char (c :: '"' :: rest) = .err := by
    simp [parse_escaped_char, charP, h2]
  have hbody : stringBodyChar (c :: '"' :: rest) = .ok ('"' :: rest) c := by
    simp [stringBodyChar, altList, pmap, hesc, none_of, h1, h2]
  have hbody2 : stringBodyChar ('"' :: rest) = .err := by
    simp [stringBodyChar, altList, pmap, parse_escaped_char, charP, none_of]
  have hm : many0 stringBodyChar (c :: '"' :: rest) = .ok ('"' :: rest) [c] := by
    show many0F stringBodyChar ((c :: '"' :: rest).length + 1) (c :: '"' :: rest) = _
    rw [many0F_succ, hbody]
    simp only [List.length_cons]
    rw [if_neg (by omega), many0F_succ, hbody2]
  simp [parse_string, delimited, pbind, pmap, charP, hm]

/-- Witness for C10 at the concrete raw control character: a literal newline
between the quotes is accepted and preserved. -/
theorem C10_raw_control_chars_preserved_witness :
    parse_string ('"' :: '\n' :: '"' :: []) = .ok [] (Value.string ['\n']) :=
  C10_raw_control_chars_preserved.1 '\n' (by decide) (by decide) []

theorem lookupEntry_insertEntry (m : List (List Char × Value)) (k' k : List Char)
    (v : Value) :
    lookupEntry (insertEntry m k' v) k =
      if k' = k then some v else lookupEntry m k := by
  induction m with
  | nil => simp [insertEntry, lookupEntry]
  | cons hd rest ih =>
    obtain ⟨k0, v0⟩ := hd
    by_cases h0 : k0 = k'
    · subst h0
      by_cases hk : k0 = k
      · subst hk
        simp [insertEntry, lookupEntry]
      · simp [insertEntry, lookupEntry, hk]
    · by_cases hk : k0 = k
      · subst hk
        have hne : ¬ k' = k0 := fun h => h0 h.symm
        simp [insertEntry, lookupEntry, h0, hne]
      · simp [insertEntry, lookupEntry, h0, hk, ih]

theorem lookupEntry_objectFold_aux (pairs : List (Value × Value))
    (acc : List (List Char × Value)) (k : List Char) :
    lookupEntry
      (pairs.foldl
        (fun m kv =>
          match kv with
          | (Value.string k', v) => insertEntry m k' v
          | _ => m)
        acc) k =
      match lastStringValue pairs k with
      | some w => some w
      | none => lookupEntry acc k := by
  induction pairs generalizing acc with
  | nil => simp [lastStringValue]
  | cons kv pairs ih =>
    obtain ⟨key, v⟩ := kv
    rw [List.foldl_cons, ih]
    cases hrest : lastStringValue pairs k with
    | some w => simp [lastStringValue, hrest]
    | none =>
      cases key with
      | string k' =>
        by_cases hk : k' = k
        · subst hk
          simp [lastStringValue, hrest, lookupEntry_insertEntry]
        · simp [lastStringValue, hrest, hk, lookupEntry_insertEntry]
      | null => simp [lastStringValue, hrest]
      | bool b => simp [lastStringValue, hrest]
      | number q => simp [lastStringValue, hrest]
      | array es => simp [lastStringValue, hrest]
      | object es => simp [lastStringValue, hrest]

theorem strip_some_iff (t : List Char) : ∀ (i r : Input),
    strip t i = some r ↔ i = t ++ r := by
  induction t with
  | nil =>
    intro i r
    simp [strip, eq_comm]
  | cons c t ih =>
    intro i r
    cases i with
    | nil => simp [strip]
    | cons d i' =>
      by_cases h : d = c
      · subst h
        simp [strip, ih]
      · simp [strip, h]

theorem parse_null_iff (i r : Input) (v : Value) :
    parse_null i = .ok r v ↔
      v = Value.null ∧ ∃ t, dropWS i = ['n', 'u', 'l', 'l'] ++ t ∧ r = dropWS t := by
  cases h : strip ['n', 'u', 'l', 'l'] (dropWS i) with
  | some t =>
    have hlhs : parse_null i = .ok (dropWS t) Value.null := by
      simp [parse_null, pvalue, pmap, pbind, delimited, multispace0, tag, h]
    rw [hlhs]
    constructor
    · intro heq
      injection heq with h1 h2
      exact ⟨h2.symm, t, (strip_some_iff _ _ _).mp h, h1.symm⟩
    · rintro ⟨hv, t', ht', hr⟩
      have hit : dropWS i = ['n', 'u', 'l', 'l'] ++ t := (strip_some_iff _ _ _).mp h
      have htt : t = t' := List.append_cancel_left (hit.symm.trans ht')
      rw [hv, hr, htt]
  | none =>
    have hlhs : parse_null i = .err := by
      simp [parse_null, pvalue, pmap, pbind, delimited, multispace0, tag, h]
    rw [hlhs]
    constructor
    · intro heq
      cases heq
    · rintro ⟨hv, t', ht', hr⟩
      have : strip ['n', 'u', 'l', 'l'] (dropWS i) = some t' := (strip_some_iff _ _ _).mpr ht'
      rw [h] at this
      cases this

theorem parse_bool_iff (i r : Input) (v : Value) :
    parse_bool i = .ok r v ↔
      ((v = Value.bool true ∧ ∃ t, dropWS i = ['t', 'r', 'u', 'e'] ++ t ∧ r = dropWS t) ∨
       (v = Value.bool false ∧ ∃ t, dropWS i = ['f', 'a', 'l', 's', 'e'] ++ t ∧ r = dropWS t)) := by
  cases hT : strip ['t', 'r', 'u', 'e'] (dropWS i) with
  | some t =>
    have hlhs : parse_bool i = .ok (dropWS t) (Value.bool true) := by
      simp [parse_bool, altList, pvalue, pmap, pbind, delimited, multispace0, tag, hT]
    rw [hlhs]
    constructor
    · intro heq
      injection heq with h1 h2
      exact Or.inl ⟨h2.symm, t, (strip_some_iff _ _ _).mp hT, h1.symm⟩
    · rintro (⟨hv, t', ht', hr⟩ | ⟨hv, t', ht', hr⟩)
      · have hit : dropWS i = ['t', 'r', 'u', 'e'] ++ t := (strip_some_iff _ _ _).mp hT
        have htt : t = t' := List.append_cancel_left (hit.symm.trans ht')
        rw [hv, hr, htt]
      · have hit : dropWS i = ['t', 'r', 'u', 'e'] ++ t := (strip_some_iff _ _ _).mp hT
        rw [hit] at ht'
        simp at ht'
  | none =>
    cases hF : strip ['f', 'a', 'l', 's', 'e'] (dropWS i) with
    | some t =>
      have hlhs : parse_bool i = .ok (dropWS t) (Value.bool false) := by
        simp [parse_bool, altList, pvalue, pmap, pbind, delimited, multispace0, tag, hT, hF]
      rw [hlhs]
      constructor
      · intro heq
        injection heq with h1 h2
        exact Or.inr ⟨h2.symm, t, (strip_some_iff _ _ _).mp hF, h1.symm⟩
      · rintro (⟨hv, t', ht', hr⟩ | ⟨hv, t', ht', hr⟩)
        · have hit : dropWS i = ['f', 'a', 'l', 's', 'e'] ++ t := (strip_some_iff _ _ _).mp hF
          rw [hit] at ht'
          simp at ht'
        · have hit : dropWS i = ['f', 'a', 'l', 's', 'e'] ++ t := (strip_some_iff _ _ _).mp hF
          have htt : t = t' := List.append_cancel_left (hit.symm.trans ht')
          rw [hv, hr, htt]
    | none =>
      have hlhs : parse_bool i = .err := by
        simp [parse_bool, altList, pvalue, pmap, pbind, delimited, multispace0, tag, hT, hF]
      rw [hlhs]
      constructor
      · intro heq
        cases heq
      · rintro (⟨hv, t', ht', hr⟩ | ⟨hv, t', ht', hr⟩)
        · have : strip ['t', 'r', 'u', 'e'] (dropWS i) = some t' := (strip_some_iff _ _ _).mpr ht'
          rw [hT] at this
          cases this
        · have : strip ['f', 'a', 'l', 's', 'e'] (dropWS i) = some t' := (strip_some_iff _ _ _).mpr ht'
          rw [hF] at this
          cases this

/-- C6: the Null and Boolean rules match the exact keywords "null", "true",
"false" surrounded by optional whitespace, case-sensitively: they succeed
exactly when the whitespace-stripped input literally begins with the keyword
(so any truncation such as "nul" and any uppercase or mixed-case variant such
as "NULL" or "True" fails), and parse("null") yields Null while
parse("  true  ") yields Boolean(true). -/
theorem C6_keyword_literals :
    parse_primary ("null".toList) = .ok [] Value.null ∧
    parse_primary ("  true  ".toList) = .ok [] (Value.bool true) ∧
    parse_primary ("nul".toList) = .err ∧
    parse_primary ("NULL".toList) = .err ∧
    parse_primary ("True".toList) = .err ∧
    (∀ (i r : Input) (v : Value), parse_null i = .ok r v ↔
      v = Value.null ∧ ∃ t, dropWS i = ['n', 'u', 'l', 'l'] ++ t ∧ r = dropWS t) ∧
    (∀ (i r : Input) (v : Value), parse_bool i = .ok r v ↔
      ((v = Value.bool true ∧ ∃ t, dropWS i = ['t', 'r', 'u', 'e'] ++ t ∧ r = dropWS t) ∨
       (v = Value.bool false ∧ ∃ t, dropWS i = ['f', 'a', 'l', 's', 'e'] ++ t ∧ r = dropWS t))) :=
  ⟨rfl, rfl, rfl, rfl, rfl, parse_null_iff, parse_bool_iff⟩

/-- C2: duplicate object keys are permitted and the last occurrence of each
key wins in the resulting mapping: the map built by the Object rule's
insertion fold answers every key lookup with the value of the last pair
carrying that key (earlier entries are overwritten), and in particular
parsing an object literal with a duplicated key "a" mapped first to 1 and
then to 2 yields the object mapping "a" to 2. -/
theorem C2_duplicate_keys_last_wins :
    (∀ (pairs : List (Value × Value)) (k : List Char),
      lookupEntry (objectEntriesFold pairs) k = lastStringValue pairs k) ∧
    parse_primary ("\x7b\"a\": 1, \"a\": 2\x7d".toList) =
      .ok [] (Value.object [("a".toList, Value.number 2)]) := by
  refine ⟨fun pairs k => ?_, rfl⟩
  rw [objectEntriesFold, lookupEntry_objectFold_aux]
  cases lastStringValue pairs k <;> simp [lookupEntry]

theorem many0F_stops_at_bad_escape (c : Char)
    (hc : c ∉ (['"', '\\', '/', 'n', 'r', 't', 'b', 'f'] : List Char)) (rest : Input) :
    ∀ (pre : Input) (fuel : Nat), (∀ d ∈ pre, d ≠ '"' ∧ d ≠ '\\') → pre.length < fuel →
      many0F stringBodyChar fuel (pre ++ '\\' :: c :: rest) = .ok ('\\' :: c :: rest) pre := by
  intro pre
  induction pre with
  | nil =>
    intro fuel _ hfuel
    obtain ⟨f, rfl⟩ : ∃ f, fuel = f + 1 := ⟨fuel - 1, by omega⟩
    have hesc : parse_escaped_char ('\\' :: c :: rest) = .err := by
      simp only [List.mem_cons, List.mem_singleton, List.not_mem_nil] at hc
      push_neg at hc
      obtain ⟨h1, h2, h3, h4, h5, h6, h7, h8⟩ := hc
      simp [parse_escaped_char, charP, altList, pvalue, pmap,
        h1, h2, h3, h4, h5, h6, h7, h8]
    have hbody : stringBodyChar ('\\' :: c :: rest) = .err := by
      simp [stringBodyChar, altList, pmap, hesc, none_of]
    rw [many0F_succ]
    simp [hbody]
  | cons d pre ih =>
    intro fuel hpre hfuel
    obtain ⟨f, rfl⟩ : ∃ f, fuel = f + 1 := ⟨fuel - 1, by omega⟩
    obtain ⟨hd1, hd2⟩ := hpre d (by simp)
    have hesc : parse_escaped_char (d :: (pre ++ '\\' :: c :: rest)) = .err := by
      simp [parse_escaped_char, charP, hd2]
    have hbody : stringBodyChar (d :: (pre ++ '\\' :: c :: rest)) =
        .ok (pre ++ '\\' :: c :: rest) d := by
      simp [stringBodyChar, altList, pmap, hesc, none_of, hd1, hd2]
    simp only [List.cons_append]
    rw [many0F_succ, hbody]
    have hlen : (pre ++ '\\' :: c :: rest).length ≠
        (d :: (pre ++ '\\' :: c :: rest)).length := by simp
    have hrec := ih f (fun e he => hpre e (by simp [he]))
      (by simp only [List.length_cons] at hfuel; omega)
    simp [hlen, hrec]

/-- C4: inside a string literal, a backslash followed by one of the eight
recognized escape characters (quote, backslash, slash, n, r, t, b, f) decodes
to the corresponding single character, and a backslash followed by any other
character (including 'u') makes the escape rule — and therefore the whole
string parse — fail; in particular parsing "\"a\\nb\"" yields the string
a‑newline‑b, and parsing "\"\\q\"" fails. -/
theorem C4_escape_decoding :
    (∀ rest : Input,
      parse_escaped_char ('\\' :: '"' :: rest) = .ok rest '"' ∧
      parse_escaped_char ('\\' :: '\\' :: rest) = .ok rest '\\' ∧
      parse_escaped_char ('\\' :: '/' :: rest) = .ok rest '/' ∧
      parse_escaped_char ('\\' :: 'n' :: rest) = .ok rest '\n' ∧
      parse_escaped_char ('\\' :: 'r' :: rest) = .ok rest '\r' ∧
      parse_escaped_char ('\\' :: 't' :: rest) = .ok rest '\t' ∧
      parse_escaped_char ('\\' :: 'b' :: rest) = .ok rest '\x08' ∧
      parse_escaped_char ('\\' :: 'f' :: rest) = .ok rest '\x0c') ∧
    (∀ c : Char, c ∉ (['"', '\\', '/', 'n', 'r', 't', 'b', 'f'] : List Char) →
      ∀ rest : Input, parse_escaped_char ('\\' :: c :: rest) = .err) ∧
    (∀ c : Char, c ∉ (['"', '\\', '/', 'n', 'r', 't', 'b', 'f'] : List Char) →
      ∀ (pre rest : Input), (∀ d ∈ pre, d ≠ '"' ∧ d ≠ '\\') →
      parse_string ('"' :: (pre ++ '\\' :: c :: rest)) = .err) ∧
    parse_primary ("\"a\\nb\"".toList) = .ok [] (Value.string ['a', '\n', 'b']) ∧
    parse_primary ("\"\\q\"".toList) = .err := by
  refine ⟨fun rest => ⟨rfl, rfl, rfl, rfl, rfl, rfl, rfl, rfl⟩, ?_, ?_, rfl, rfl⟩
  · intro c hc rest
    simp only [List.mem_cons, List.mem_singleton, List.not_mem_nil] at hc
    push_neg at hc
    obtain ⟨h1, h2, h3, h4, h5, h6, h7, h8⟩ := hc
    simp [parse_escaped_char, charP, altList, pvalue, pmap,
      h1, h2, h3, h4, h5, h6, h7, h8]
  · intro c hc pre rest hpre
    have hm : many0 stringBodyChar (pre ++ '\\' :: c :: rest) =
        .ok ('\\' :: c :: rest) pre := by
      show many0F stringBodyChar ((pre ++ '\\' :: c :: rest).length + 1) _ = _
      exact many0F_stops_at_bad_escape c hc rest pre _ hpre (by simp; omega)
    simp [parse_string, delimited, pbind, pmap, charP, hm]

/-- Witness for C4 at the concrete unrecognized escape character 'q': the
escape rule rejects it, and a string containing it fails to parse. -/
theorem C4_escape_decoding_witness :
    parse_escaped_char ('\\' :: 'q' :: []) = .err ∧
    parse_string ('"' :: (['a'] ++ '\\' :: 'q' :: ['"'])) = .err :=
  ⟨C4_escape_decoding.2.1 'q' (by decide) [],
   C4_escape_decoding.2.2.1 'q' (by decide) ['a'] ['"'] (by decide)⟩

/-- Unfolding lemma for `sepLoopF` at positive fuel. -/
theorem sepLoopF_succ (sep : Parser β) (p : Parser α) (fuel : Nat) (i : Input) :
    sepLoopF sep p (fuel + 1) i =
      match sep i with
      | .err => .ok i []
      | .fail => .fail
      | .panic => .panic
      | .ok i1 _ =>
        if i1.length = i.length then .err
        else
          match p i1 with
          | .err => .ok i []
          | .fail => .fail
          | .panic => .panic
          | .ok i2 o =>
            match sepLoopF sep p fuel i2 with
            | .ok r rest => .ok r (o :: rest)
            | .err => .err
            | .fail => .fail
            | .panic => .panic := rfl

/-- Inversion for `pmap` on a successful result. -/
theorem pmap_ok_inv {p : Parser α} {f : α → β} {i r : Input} {v : β}
    (h : pmap p f i = .ok r v) : ∃ w, p i = .ok r w ∧ v = f w := by
  unfold pmap at h
  cases hp : p i with
  | err => simp only [hp] at h; exact PResult.noConfusion h
  | fail => simp only [hp] at h; exact PResult.noConfusion h
  | panic => simp only [hp] at h; exact PResult.noConfusion h
  | ok r0 w =>
    simp only [hp] at h
    injection h with h1 h2
    subst h1
    exact ⟨w, rfl, h2.symm⟩

/-- Inversion for `delimited` on a successful result. -/
theorem delimited_ok_inv {a : Parser α} {b : Parser β} {c : Parser γ}
    {i r : Input} {v : β} (h : delimited a b c i = .ok r v) :
    ∃ i1 x, a i = .ok i1 x ∧ ∃ i2, b i1 = .ok i2 v ∧ ∃ y, c i2 = .ok r y := by
  unfold delimited pbind pmap at h
  cases ha : a i with
  | err => simp only [ha] at h; exact PResult.noConfusion h
  | fail => simp only [ha] at h; exact PResult.noConfusion h
  | panic => simp only [ha] at h; exact PResult.noConfusion h
  | ok i1 x =>
    simp only [ha] at h
    cases hb : b i1 with
    | err => simp only [hb] at h; exact PResult.noConfusion h
    | fail => simp only [hb] at h; exact PResult.noConfusion h
    | panic => simp only [hb] at h; exact PResult.noConfusion h
    | ok i2 w =>
      simp only [hb] at h
      cases hc : c i2 with
      | err => simp only [hc] at h; exact PResult.noConfusion h
      | fail => simp only [hc] at h; exact PResult.noConfusion h
      | panic => simp only [hc] at h; exact PResult.noConfusion h
      | ok r0 y =>
        simp only [hc] at h
        injection h with h1 h2
        subst h1
        subst h2
        exact ⟨i1, x, rfl, i2, hb, y, hc⟩

/-- Every element produced by the separator loop comes from a successful run
of the element parser. -/
theorem sepLoopF_sound (sep : Parser β) (p : Parser α) :
    ∀ (fuel : Nat) (i r : Input) (os : List α),
      sepLoopF sep p fuel i = .ok r os →
      ∀ x ∈ os, ∃ k k', p k = .ok k' x := by
  intro fuel
  induction fuel with
  | zero =>
    intro i r os h
    have h0 : sepLoopF sep p 0 i = PResult.err := rfl
    rw [h0] at h
    exact PResult.noConfusion h
  | succ f ih =>
    intro i r os h
    rw [sepLoopF_succ] at h
    cases hsep : sep i with
    | err =>
      simp only [hsep] at h
      injection h with h1 h2
      subst h1
      subst h2
      intro x hx
      simp at hx
    | fail => simp only [hsep] at h; exact PResult.noConfusion h
    | panic => simp only [hsep] at h; exact PResult.noConfusion h
    | ok i1 b =>
      simp only [hsep] at h
      by_cases hlen : i1.length = i.length
      · rw [if_pos hlen] at h
        exact PResult.noConfusion h
      · rw [if_neg hlen] at h
        cases hp : p i1 with
        | err =>
          simp only [hp] at h
          injection h with h1 h2
          subst h1
          subst h2
          intro x hx
          simp at hx
        | fail => simp only [hp] at h; exact PResult.noConfusion h
        | panic => simp only [hp] at h; exact PResult.noConfusion h
        | ok i2 o =>
          simp only [hp] at h
          cases hrec : sepLoopF sep p f i2 with
          | err => simp only [hrec] at h; exact PResult.noConfusion h
          | fail => simp only [hrec] at h; exact PResult.noConfusion h
          | panic => simp only [hrec] at h; exact PResult.noConfusion h
          | ok r' os' =>
            simp only [hrec] at h
            injection h with h1 h2
            subst h1
            subst h2
            intro x hx
            rcases List.mem_cons.mp hx with hx | hx
            · exact ⟨i1, i2, by rw [hp, hx]⟩
            · exact ih i2 r' os' hrec x hx

/-- Every element produced by `separated_list0` comes from a successful run of
the element parser. -/
theorem separated_list0_sound (sep : Parser β) (p : Parser α)
    (i r : Input) (os : List α)
    (h : separated_list0 sep p i = .ok r os) :
    ∀ x ∈ os, ∃ k k', p k = .ok k' x := by
  unfold separated_list0 at h
  cases hp : p i with
  | err =>
    simp only [hp] at h
    injection h with h1 h2
    subst h1
    subst h2
    intro x hx
    simp at hx
  | fail => simp only [hp] at h; exact PResult.noConfusion h
  | panic => simp only [hp] at h; exact PResult.noConfusion h
  | ok i1 o =>
    simp only [hp] at h
    cases hrec : sepLoopF sep p (i1.length + 1) i1 with
    | err => simp only [hrec] at h; exact PResult.noConfusion h
    | fail => simp only [hrec] at h; exact PResult.noConfusion h
    | panic => simp only [hrec] at h; exact PResult.noConfusion h
    | ok r' os' =>
      simp only [hrec] at h
      injection h with h1 h2
      subst h1
      subst h2
      intro x hx
      rcases List.mem_cons.mp hx with hx | hx
      · exact ⟨i, i1, by rw [hp, hx]⟩
      · exact sepLoopF_sound sep p _ i1 r' os' hrec x hx

/-- A successful run of the array rule yields an Array value each of whose
elements was produced by a successful run of the element parser — the
"no partial-array recovery" property. -/
theorem arrayRule_sound (elem : Parser Value) (i r : Input) (v : Value)
    (h : arrayRule elem i = .ok r v) :
    ∃ vs, v = Value.array vs ∧ ∀ x ∈ vs, ∃ j j', elem j = .ok j' x := by
  unfold arrayRule at h
  obtain ⟨i1, x, hA, i2, hB, y, hC⟩ := delimited_ok_inv h
  obtain ⟨vs, hS, hv⟩ := pmap_ok_inv hB
  exact ⟨vs, hv, separated_list0_sound _ _ _ _ _ hS⟩

/-- C5: the Array rule accepts a bracket, a comma-separated list of zero or
more values, and a closing bracket, each surrounded by optional whitespace:
parsing "[]" yields the empty sequence, parsing "[1, 2, 3]" yields the
three-element array, parsing "[1, 2,]" fails (trailing comma rejected), and
there is no partial-array recovery: every element of a successfully parsed
array was produced by a successful run of the element parser, so an element
failure can never contribute to a successful array parse. -/
theorem C5_array_rule :
    parse_primary ("[]".toList) = .ok [] (Value.array []) ∧
    parse_primary ("[1, 2, 3]".toList) =
      .ok [] (Value.array [Value.number 1, Value.number 2, Value.number 3]) ∧
    parse_primary ("[1, 2,]".toList) = .err ∧
    (∀ (elem : Parser Value) (i r : Input) (v : Value),
      arrayRule elem i = .ok r v →
      ∃ vs, v = Value.array vs ∧ ∀ x ∈ vs, ∃ j j', elem j = .ok j' x) :=
  ⟨rfl, rfl, rfl, arrayRule_sound⟩

/-- Witness for C5's no-partial-recovery clause at a concrete array parse. -/
theorem C5_array_rule_witness :
    ∃ vs, Value.array [Value.null] = Value.array vs ∧
      ∀ x ∈ vs, ∃ j j', parse_null j = .ok j' x :=
  C5_array_rule.2.2.2 parse_null ("[null]".toList) [] (Value.array [Value.null]) rfl

/-- A parser only ever returns a remaining input no longer than its input
(all nom parsers return suffixes of their input). -/
def Shrinks (p : Parser α) : Prop :=
  ∀ i r v, p i = .ok r v → r.length ≤ i.length

/-- Unfolding lemma for `altList` on a non-empty list. -/
theorem altList_cons (p : Parser α) (ps : List (Parser α)) (i : Input) :
    altList (p :: ps) i =
      match p i with
      | .ok r v => .ok r v
      | .err => altList ps i
      | .fail => .fail
      | .panic => .panic := rfl

theorem length_dropWhile_le (q : Char → Bool) (l : List Char) :
    (l.dropWhile q).length ≤ l.length := by
  induction l with
  | nil => simp [List.dropWhile]
  | cons c t ih =>
    by_cases h : q c = true
    · simp only [List.dropWhile, h]
      exact le_trans ih (by simp)
    · have h' : q c = false := by simpa using h
      simp [List.dropWhile, h']

theorem dropWS_length_le (i : Input) : (dropWS i).length ≤ i.length :=
  length_dropWhile_le isWhitespaceChar i

theorem shrinks_pmap {p : Parser α} (h : Shrinks p) (f : α → β) :
    Shrinks (pmap p f) := by
  intro i r v hm
  obtain ⟨w, hw, _⟩ := pmap_ok_inv hm
  exact h i r w hw

theorem shrinks_pvalue {p : Parser α} (v : β) (h : Shrinks p) :
    Shrinks (pvalue v p) :=
  shrinks_pmap h _

theorem shrinks_pbind {p : Parser α} {f : α → Parser β} (hp : Shrinks p)
    (hf : ∀ a, Shrinks (f a)) : Shrinks (pbind p f) := by
  intro i r v h
  unfold pbind at h
  cases hpi : p i with
  | err => simp only [hpi] at h; exact PResult.noConfusion h
  | fail => simp only [hpi] at h; exact PResult.noConfusion h
  | panic => simp only [hpi] at h; exact PResult.noConfusion h
  | ok i1 a =>
    simp only [hpi] at h
    exact le_trans (hf a i1 r v h) (hp i i1 a hpi)

theorem shrinks_popt {p : Parser α} (h : Shrinks p) : Shrinks (popt p) := by
  intro i r v hm
  unfold popt at hm
  cases hpi : p i with
  | err =>
    simp only [hpi] at hm
    injection hm with h1 _
    exact h1 ▸ le_refl _
  | fail => simp only [hpi] at hm; exact PResult.noConfusion hm
  | panic => simp only [hpi] at hm; exact PResult.noConfusion hm
  | ok r0 w =>
    simp only [hpi] at hm
    injection hm with h1 _
    exact h1 ▸ h i r0 w hpi

theorem shrinks_pcut {p : Parser α} (h : Shrinks p) : Shrinks (pcut p) := by
  intro i r v hm
  unfold pcut at hm
  cases hpi : p i with
  | err => simp only [hpi] at hm; exact PResult.noConfusion hm
  | fail => simp only [hpi] at hm; exact PResult.noConfusion hm
  | panic => simp only [hpi] at hm; exact PResult.noConfusion hm
  | ok r0 w =>
    simp only [hpi] at hm
    injection hm with h1 _
    exact h1 ▸ h i r0 w hpi

theorem shrinks_recognize {p : Parser α} (h : Shrinks p) :
    Shrinks (recognize p) := by
  intro i r v hm
  unfold recognize at hm
  cases hpi : p i with
  | err => simp only [hpi] at hm; exact PResult.noConfusion hm
  | fail => simp only [hpi] at hm; exact PResult.noConfusion hm
  | panic => simp only [hpi] at hm; exact PResult.noConfusion hm
  | ok r0 w =>
    simp only [hpi] at hm
    injection hm with h1 _
    exact h1 ▸ h i r0 w hpi

theorem shrinks_altList : ∀ {ps : List (Parser α)},
    (∀ p ∈ ps, Shrinks p) → Shrinks (altList ps) := by
  intro ps
  induction ps with
  | nil =>
    intro _ i r v h
    exact PResult.noConfusion ((rfl : altList [] i = PResult.err) ▸ h)
  | cons p ps ih =>
    intro hall i r v h
    rw [altList_cons] at h
    cases hpi : p i with
    | err =>
      simp only [hpi] at h
      exact ih (fun q hq => hall q (List.mem_cons_of_mem p hq)) i r v h
    | fail => simp only [hpi] at h; exact PResult.noConfusion h
    | panic => simp only [hpi] at h; exact PResult.noConfusion h
    | ok r0 w =>
      simp only [hpi] at h
      injection h with h1 _
      exact h1 ▸ hall p (List.mem_cons_self p ps) i r0 w hpi

theorem shrinks_charP (c : Char) : Shrinks (charP c) := by
  intro i r v h
  cases i with
  | nil => exact PResult.noConfusion h
  | cons c' t =>
    rw [show charP c (c' :: t) =
      if c' = c then PResult.ok t c' else PResult.err from rfl] at h
    by_cases hc : c' = c
    · rw [if_pos hc] at h
      injection h with h1 _
      rw [← h1]
      simp
    · rw [if_neg hc] at h
      exact PResult.noConfusion h

theorem shrinks_none_of (cs : List Char) : Shrinks (none_of cs) := by
  intro i r v h
  cases i with
  | nil => exact PResult.noConfusion h
  | cons c' t =>
    rw [show none_of cs (c' :: t) =
      if c' ∈ cs then PResult.err else PResult.ok t c' from rfl] at h
    by_cases hc : c' ∈ cs
    · rw [if_pos hc] at h
      exact PResult.noConfusion h
    · rw [if_neg hc] at h
      injection h with h1 _
      rw [← h1]
      simp

theorem shrinks_tag (t : List Char) : Shrinks (tag t) := by
  intro i r v h
  unfold tag at h
  cases hs : strip t i with
  | none => simp only [hs] at h; exact PResult.noConfusion h
  | some r0 =>
    simp only [hs] at h
    injection h with h1 _
    have := (strip_some_iff t i r0).mp hs
    rw [← h1, this]
    simp

theorem shrinks_multispace0 : Shrinks multispace0 := by
  intro i r v h
  unfold multispace0 at h
  injection h with h1 _
  exact h1 ▸ dropWS_length_le i

theorem shrinks_digit1 : Shrinks digit1 := by
  intro i r v h
  cases i with
  | nil => exact PResult.noConfusion h
  | cons c t =>
    rw [show digit1 (c :: t) =
      if c.isDigit then
        PResult.ok ((c :: t).dropWhile Char.isDigit) ((c :: t).takeWhile Char.isDigit)
      else PResult.err from rfl] at h
    by_cases hc : c.isDigit = true
    · rw [if_pos hc] at h
      injection h with h1 _
      exact h1 ▸ length_dropWhile_le Char.isDigit (c :: t)
    · rw [if_neg hc] at h
      exact PResult.noConfusion h

theorem shrinks_delimited {a : Parser α} {b : Parser β} {c : Parser γ}
    (ha : Shrinks a) (hb : Shrinks b) (hc : Shrinks c) :
    Shrinks (delimited a b c) :=
  shrinks_pbind ha (fun _ => shrinks_pbind hb (fun v => shrinks_pmap hc _))

theorem shrinks_separated_pair {a : Parser α} {s : Parser γ} {b : Parser β}
    (ha : Shrinks a) (hs : Shrinks s) (hb : Shrinks b) :
    Shrinks (separated_pair a s b) :=
  shrinks_pbind ha (fun x => shrinks_pbind hs (fun _ => shrinks_pmap hb _))

theorem shrinks_sign : Shrinks (altList [charP '+', charP '-']) := by
  apply shrinks_altList
  intro p hp
  simp only [List.mem_cons, List.mem_singleton, List.not_mem_nil, or_false] at hp
  rcases hp with rfl | rfl
  · exact shrinks_charP _
  · exact shrinks_charP _

theorem shrinks_floatSyntax : Shrinks floatSyntax := by
  unfold floatSyntax
  apply shrinks_pbind (shrinks_popt shrinks_sign)
  intro _
  apply shrinks_pbind
  · apply shrinks_altList
    intro p hp
    simp only [List.mem_cons, List.mem_singleton, List.not_mem_nil, or_false] at hp
    rcases hp with rfl | rfl
    · exact shrinks_pmap (shrinks_pbind shrinks_digit1 (fun _ =>
        shrinks_popt (shrinks_pbind (shrinks_charP '.') (fun _ =>
          shrinks_popt shrinks_digit1)))) _
    · exact shrinks_pmap (shrinks_pbind (shrinks_charP '.')
        (fun _ => shrinks_digit1)) _
  · intro _
    apply shrinks_pmap
    apply shrinks_popt
    apply shrinks_pbind
    · apply shrinks_altList
      intro p hp
      simp only [List.mem_cons, List.mem_singleton, List.not_mem_nil, or_false] at hp
      rcases hp with rfl | rfl
      · exact shrinks_charP _
      · exact shrinks_charP _
    · intro _
      exact shrinks_pbind (shrinks_popt shrinks_sign)
        (fun _ => shrinks_pcut shrinks_digit1)

theorem shrinks_recognize_float : Shrinks recognize_float :=
  shrinks_recognize shrinks_floatSyntax

theorem shrinks_parse_number : Shrinks parse_number := by
  intro i r v h
  unfold parse_number at h
  cases hd : delimited multispace0 recognize_float multispace0 i with
  | err => simp only [hd] at h; exact PResult.noConfusion h
  | fail => simp only [hd] at h; exact PResult.noConfusion h
  | panic => simp only [hd] at h; exact PResult.noConfusion h
  | ok r0 s =>
    simp only [hd] at h
    by_cases hf : isFiniteDouble (ratOfLit s) = true
    · rw [if_pos hf] at h
      injection h with h1 _
      exact h1 ▸ shrinks_delimited shrinks_multispace0 shrinks_recognize_float
        shrinks_multispace0 i r0 s hd
    · rw [if_neg hf] at h
      exact PResult.noConfusion h

theorem shrinks_parse_null : Shrinks parse_null :=
  shrinks_pvalue _ (shrinks_delimited shrinks_multispace0 (shrinks_tag _)
    shrinks_multispace0)

theorem shrinks_parse_bool : Shrinks parse_bool := by
  apply shrinks_altList
  intro p hp
  simp only [List.mem_cons, List.mem_singleton, List.not_mem_nil, or_false] at hp
  rcases hp with rfl | rfl
  · exact shrinks_pvalue _ (shrinks_delimited shrinks_multispace0 (shrinks_tag _)
      shrinks_multispace0)
  · exact shrinks_pvalue _ (shrinks_delimited shrinks_multispace0 (shrinks_tag _)
      shrinks_multispace0)

theorem shrinks_parse_escaped_char : Shrinks parse_escaped_char := by
  intro i r v h
  unfold parse_escaped_char at h
  cases hc : charP '\\' i with
  | err => simp only [hc] at h; exact PResult.noConfusion h
  | fail => simp only [hc] at h; exact PResult.noConfusion h
  | panic => simp only [hc] at h; exact PResult.noConfusion h
  | ok i1 w =>
    simp only [hc] at h
    have halt : Shrinks (altList
        [pvalue '"' (charP '"'), pvalue '\\' (charP '\\'),
         pvalue '/' (charP '/'), pvalue '\n' (charP 'n'),
         pvalue '\r' (charP 'r'), pvalue '\t' (charP 't'),
         pvalue '\x08' (charP 'b'), pvalue '\x0c' (charP 'f')]) := by
      apply shrinks_altList
      intro p hp
      simp only [List.mem_cons, List.mem_singleton, List.not_mem_nil, or_false] at hp
      rcases hp with rfl | rfl | rfl | rfl | rfl | rfl | rfl | rfl <;>
        exact shrinks_pvalue _ (shrinks_charP _)
    exact le_trans (halt i1 r v h) (shrinks_charP '\\' i i1 w hc)

theorem shrinks_stringBodyChar : Shrinks stringBodyChar := by
  apply shrinks_altList
  intro p hp
  simp only [stringBodyChar, List.mem_cons, List.mem_singleton,
    List.not_mem_nil, or_false] at hp
  rcases hp with rfl | rfl
  · exact shrinks_pmap shrinks_parse_escaped_char _
  · exact shrinks_none_of _

theorem shrinks_many0F {p : Parser α} (hp : Shrinks p) :
    ∀ fuel, Shrinks (many0F p fuel) := by
  intro fuel
  induction fuel with
  | zero =>
    intro i r v h
    exact PResult.noConfusion ((rfl : many0F p 0 i = PResult.err) ▸ h)
  | succ f ih =>
    intro i r v h
    rw [many0F_succ] at h
    cases hpi : p i with
    | err =>
      simp only [hpi] at h
      injection h with h1 _
      exact h1 ▸ le_refl _
    | fail => simp only [hpi] at h; exact PResult.noConfusion h
    | panic => simp only [hpi] at h; exact PResult.noConfusion h
    | ok i1 o =>
      simp only [hpi] at h
      by_cases hlen : i1.length = i.length
      · rw [if_pos hlen] at h
        exact PResult.noConfusion h
      · rw [if_neg hlen] at h
        cases hrec : many0F p f i1 with
        | err => simp only [hrec] at h; exact PResult.noConfusion h
        | fail => simp only [hrec] at h; exact PResult.noConfusion h
        | panic => simp only [hrec] at h; exact PResult.noConfusion h
        | ok r0 os =>
          simp only [hrec] at h
          injection h with h1 _
          exact h1 ▸ le_trans (ih i1 r0 os hrec) (hp i i1 o hpi)

theorem shrinks_many0 {p : Parser α} (hp : Shrinks p) : Shrinks (many0 p) := by
  intro i r v h
  exact shrinks_many0F hp (i.length + 1) i r v h

theorem shrinks_parse_string : Shrinks parse_string :=
  shrinks_delimited (shrinks_charP '"')
    (shrinks_pmap (shrinks_many0 shrinks_stringBodyChar) _)
    (shrinks_charP '"')

theorem shrinks_sepLoopF {sep : Parser β} {p : Parser α}
    (hsep : Shrinks sep) (hp : Shrinks p) : ∀ fuel, Shrinks (sepLoopF sep p fuel) := by
  intro fuel
  induction fuel with
  | zero =>
    intro i r v h
    exact PResult.noConfusion ((rfl : sepLoopF sep p 0 i = PResult.err) ▸ h)
  | succ f ih =>
    intro i r v h
    rw [sepLoopF_succ] at h
    cases hs : sep i with
    | err =>
      simp only [hs] at h
      injection h with h1 _
      exact h1 ▸ le_refl _
    | fail => simp only [hs] at h; exact PResult.noConfusion h
    | panic => simp only [hs] at h; exact PResult.noConfusion h
    | ok i1 b =>
      simp only [hs] at h
      by_cases hlen : i1.length = i.length
      · rw [if_pos hlen] at h
        exact PResult.noConfusion h
      · rw [if_neg hlen] at h
        cases hpi : p i1 with
        | err =>
          simp only [hpi] at h
          injection h with h1 _
          exact h1 ▸ le_refl _
        | fail => simp only [hpi] at h; exact PResult.noConfusion h
        | panic => simp only [hpi] at h; exact PResult.noConfusion h
        | ok i2 o =>
          simp only [hpi] at h
          cases hrec : sepLoopF sep p f i2 with
          | err => simp only [hrec] at h; exact PResult.noConfusion h
          | fail => simp only [hrec] at h; exact PResult.noConfusion h
          | panic => simp only [hrec] at h; exact PResult.noConfusion h
          | ok r0 os =>
            simp only [hrec] at h
            injection h with h1 _
            have h2 : i2.length ≤ i1.length := hp i1 i2 o hpi
            have h3 : i1.length ≤ i.length := hsep i i1 b hs
            exact h1 ▸ le_trans (ih i2 r0 os hrec) (by omega)

theorem shrinks_separated_list0 {sep : Parser β} {p : Parser α}
    (hsep : Shrinks sep) (hp : Shrinks p) : Shrinks (separated_list0 sep p) := by
  intro i r v h
  unfold separated_list0 at h
  cases hpi : p i with
  | err =>
    simp only [hpi] at h
    injection h with h1 _
    exact h1 ▸ le_refl _
  | fail => simp only [hpi] at h; exact PResult.noConfusion h
  | panic => simp only [hpi] at h; exact PResult.noConfusion h
  | ok i1 o =>
    simp only [hpi] at h
    cases hrec : sepLoopF sep p (i1.length + 1) i1 with
    | err => simp only [hrec] at h; exact PResult.noConfusion h
    | fail => simp only [hrec] at h; exact PResult.noConfusion h
    | panic => simp only [hrec] at h; exact PResult.noConfusion h
    | ok r0 os =>
      simp only [hrec] at h
      injection h with h1 _
      exact h1 ▸ le_trans (shrinks_sepLoopF hsep hp _ i1 r0 os hrec) (hp i i1 o hpi)

theorem shrinks_arrayRule {elem : Parser Value} (he : Shrinks elem) :
    Shrinks (arrayRule elem) :=
  shrinks_delimited
    (shrinks_delimited shrinks_multispace0 (shrinks_charP '[')
      shrinks_multispace0)
    (shrinks_pmap (shrinks_separated_list0
      (shrinks_delimited shrinks_multispace0 (shrinks_charP ',')
        shrinks_multispace0) he) _)
    (shrinks_delimited shrinks_multispace0 (shrinks_charP ']')
      shrinks_multispace0)

theorem shrinks_objectRule {elem : Parser Value} (he : Shrinks elem) :
    Shrinks (objectRule elem) :=
  shrinks_delimited
    (shrinks_delimited shrinks_multispace0 (shrinks_charP '\x7b')
      shrinks_multispace0)
    (shrinks_pmap (shrinks_separated_list0
      (shrinks_delimited shrinks_multispace0 (shrinks_charP ',')
        shrinks_multispace0)
      (shrinks_separated_pair
        (shrinks_delimited shrinks_multispace0 shrinks_parse_string
          shrinks_multispace0)
        (shrinks_charP ':') he)) _)
    (shrinks_delimited shrinks_multispace0 (shrinks_charP '\x7d')
      shrinks_multispace0)

/-- Unfolding lemma for `parsePrimaryF` at positive fuel. -/
theorem parsePrimaryF_succ (n : Nat) :
    parsePrimaryF (n + 1) =
      delimited multispace0
        (altList
          [parse_null, parse_bool, parse_number, parse_string,
           arrayRule (fun i => parsePrimaryF n i),
           objectRule (fun i => parsePrimaryF n i)])
        multispace0 := rfl

theorem shrinks_parsePrimaryF : ∀ n, Shrinks (parsePrimaryF n) := by
  intro n
  induction n with
  | zero =>
    intro i r v h
    exact PResult.noConfusion ((rfl : parsePrimaryF 0 i = PResult.err) ▸ h)
  | succ n ih =>
    intro i r v h
    rw [parsePrimaryF_succ] at h
    refine shrinks_delimited shrinks_multispace0 (shrinks_altList ?_)
      shrinks_multispace0 i r v h
    intro p hp
    simp only [List.mem_cons, List.mem_singleton, List.not_mem_nil, or_false] at hp
    rcases hp with rfl | rfl | rfl | rfl | rfl | rfl
    · exact shrinks_parse_null
    · exact shrinks_parse_bool
    · exact shrinks_parse_number
    · exact shrinks_parse_string
    · exact shrinks_arrayRule ih
    · exact shrinks_objectRule ih

/-- Inversion for `charP` on a successful result. -/
theorem charP_ok_inv {c : Char} {i r : Input} {v : Char}
    (h : charP c i = .ok r v) : i = c :: r ∧ v = c := by
  cases i with
  | nil => exact PResult.noConfusion h
  | cons c' t =>
    rw [show charP c (c' :: t) =
      if c' = c then PResult.ok t c' else PResult.err from rfl] at h
    by_cases hc : c' = c
    · rw [if_pos hc] at h
      injection h with h1 h2
      subst hc
      subst h1
      exact ⟨rfl, h2.symm⟩
    · rw [if_neg hc] at h
      exact PResult.noConfusion h

/-- Inversion for `multispace0` (it always succeeds, leaving the input with
its leading whitespace removed). -/
theorem multispace0_ok_inv {i r : Input} {v : List Char}
    (h : multispace0 i = .ok r v) : r = dropWS i := by
  have h0 : multispace0 i = .ok (dropWS i) (i.takeWhile isWhitespaceChar) := rfl
  rw [h0] at h
  injection h with h1 _
  exact h1.symm

/-- A whitespace-wrapped single-character parser consumes at least that
character: the remaining input is strictly shorter, and the stripped input
begins with the character. -/
theorem wsCharWs_consumes {c : Char} {s r : Input} {x : Char}
    (h : delimited multispace0 (charP c) multispace0 s = .ok r x) :
    r.length < s.length ∧ ∃ t, dropWS s = c :: t := by
  obtain ⟨i1, y, hws1, i2, hch, z, hws2⟩ := delimited_ok_inv h
  have h1 : i1 = dropWS s := multispace0_ok_inv hws1
  obtain ⟨h2, _⟩ := charP_ok_inv hch
  have h3 : r = dropWS i2 := multispace0_ok_inv hws2
  constructor
  · have l1 : r.length ≤ i2.length := h3 ▸ dropWS_length_le i2
    have l2 : i1.length = i2.length + 1 := by rw [h2]; simp
    have l3 : i1.length ≤ s.length := h1 ▸ dropWS_length_le s
    omega
  · exact ⟨i2, by rw [← h1, h2]⟩

/-- `delimited` only looks at its middle parser on the remaining input its
first parser produced. -/
theorem delimited_congr {a : Parser α} {b b' : Parser β} {c : Parser γ}
    {i : Input} (h : ∀ i1, (∃ x, a i = .ok i1 x) → b i1 = b' i1) :
    delimited a b c i = delimited a b' c i := by
  unfold delimited pbind pmap
  cases ha : a i with
  | err => rfl
  | fail => rfl
  | panic => rfl
  | ok i1 x =>
    dsimp only
    rw [h i1 ⟨x, ha⟩]

theorem sepLoopF_congr {sep : Parser β} {p p' : Parser α}
    (hsep : Shrinks sep) (hp : Shrinks p) {N : Nat}
    (hagree : ∀ k : Input, k.length ≤ N → p k = p' k) :
    ∀ (fuel : Nat) (j : Input), j.length ≤ N →
      sepLoopF sep p fuel j = sepLoopF sep p' fuel j := by
  intro fuel
  induction fuel with
  | zero => intro j _; rfl
  | succ f ih =>
    intro j hj
    rw [sepLoopF_succ, sepLoopF_succ]
    cases hs : sep j with
    | err => rfl
    | fail => rfl
    | panic => rfl
    | ok i1 b =>
      dsimp only
      by_cases hlen : i1.length = j.length
      · rw [if_pos hlen, if_pos hlen]
      · rw [if_neg hlen, if_neg hlen]
        have hi1 : i1.length ≤ N := le_trans (hsep j i1 b hs) hj
        rw [← hagree i1 hi1]
        cases hpi : p i1 with
        | err => rfl
        | fail => rfl
        | panic => rfl
        | ok i2 o =>
          dsimp only
          rw [ih i2 (le_trans (hp i1 i2 o hpi) hi1)]

theorem separated_list0_congr {sep : Parser β} {p p' : Parser α}
    (hsep : Shrinks sep) (hp : Shrinks p) {N : Nat}
    (hagree : ∀ k : Input, k.length ≤ N → p k = p' k) :
    ∀ j : Input, j.length ≤ N →
      separated_list0 sep p j = separated_list0 sep p' j := by
  intro j hj
  unfold separated_list0
  rw [← hagree j hj]
  cases hpj : p j with
  | err => rfl
  | fail => rfl
  | panic => rfl
  | ok i1 o =>
    dsimp only
    rw [sepLoopF_congr hsep hp hagree (i1.length + 1) i1
      (le_trans (hp j i1 o hpj) hj)]

theorem separated_pair_congr {a : Parser α} {s : Parser γ} {b b' : Parser β}
    (ha : Shrinks a) (hs : Shrinks s) {N : Nat}
    (hagree : ∀ k : Input, k.length ≤ N → b k = b' k) :
    ∀ j : Input, j.length ≤ N →
      separated_pair a s b j = separated_pair a s b' j := by
  intro j hj
  unfold separated_pair pbind pmap
  cases haj : a j with
  | err => rfl
  | fail => rfl
  | panic => rfl
  | ok j1 x =>
    dsimp only
    cases hsj : s j1 with
    | err => rfl
    | fail => rfl
    | panic => rfl
    | ok j2 y =>
      dsimp only
      rw [hagree j2 (le_trans (hs j1 j2 y hsj) (le_trans (ha j j1 x haj) hj))]

theorem arrayRule_congr {e e' : Parser Value} (he : Shrinks e) {N : Nat}
    (hagree : ∀ k : Input, k.length < N → e k = e' k) :
    ∀ s : Input, s.length ≤ N → arrayRule e s = arrayRule e' s := by
  intro s hs
  unfold arrayRule
  apply delimited_congr
  intro s2 hex
  obtain ⟨x, hB⟩ := hex
  have hlen : s2.length < s.length := (wsCharWs_consumes hB).1
  unfold pmap
  rw [separated_list0_congr
    (shrinks_delimited shrinks_multispace0 (shrinks_charP ',')
      shrinks_multispace0)
    he (fun k hk => hagree k (by omega)) s2 (le_refl _)]

theorem objectRule_congr {e e' : Parser Value} (he : Shrinks e) {N : Nat}
    (hagree : ∀ k : Input, k.length < N → e k = e' k) :
    ∀ s : Input, s.length ≤ N → objectRule e s = objectRule e' s := by
  intro s hs
  unfold objectRule
  apply delimited_congr
  intro s2 hex
  obtain ⟨x, hB⟩ := hex
  have hlen : s2.length < s.length := (wsCharWs_consumes hB).1
  unfold pmap
  rw [separated_list0_congr
    (shrinks_delimited shrinks_multispace0 (shrinks_charP ',')
      shrinks_multispace0)
    (shrinks_separated_pair
      (shrinks_delimited shrinks_multispace0 shrinks_parse_string
        shrinks_multispace0)
      (shrinks_charP ':') he)
    (fun k hk => separated_pair_congr
      (shrinks_delimited shrinks_multispace0 shrinks_parse_string
        shrinks_multispace0)
      (shrinks_charP ':')
      (fun k' hk' => hagree k' (by omega)) k hk) s2 (le_refl _)]

/-- The fuel supplied to `parsePrimaryF` is irrelevant as long as it exceeds
the input length: the recursion only ever descends into strictly shorter
inputs (a bracket is consumed before each recursive call). -/
theorem parsePrimaryF_irrel : ∀ (L : Nat) (i : Input), i.length ≤ L →
    ∀ n m, i.length < n → i.length < m →
      parsePrimaryF n i = parsePrimaryF m i := by
  intro L
  induction L using Nat.strong_induction_on with
  | _ L IH =>
    intro i hiL n m hn hm
    obtain ⟨n', rfl⟩ : ∃ n', n = n' + 1 := ⟨n - 1, by omega⟩
    obtain ⟨m', rfl⟩ : ∃ m', m = m' + 1 := ⟨m - 1, by omega⟩
    rw [parsePrimaryF_succ, parsePrimaryF_succ]
    have hagree : ∀ k : Input, k.length < i.length →
        parsePrimaryF n' k = parsePrimaryF m' k := by
      intro k hk
      exact IH k.length (by omega) k (le_refl _) n' m' (by omega) (by omega)
    have hA : arrayRule (fun k => parsePrimaryF n' k) (dropWS i) =
        arrayRule (fun k => parsePrimaryF m' k) (dropWS i) :=
      arrayRule_congr (shrinks_parsePrimaryF n') hagree (dropWS i)
        (dropWS_length_le i)
    have hO : objectRule (fun k => parsePrimaryF n' k) (dropWS i) =
        objectRule (fun k => parsePrimaryF m' k) (dropWS i) :=
      objectRule_congr (shrinks_parsePrimaryF n') hagree (dropWS i)
        (dropWS_length_le i)
    apply delimited_congr
    intro i1 hex
    obtain ⟨x, hws⟩ := hex
    have h1 : i1 = dropWS i := multispace0_ok_inv hws
    subst h1
    simp only [altList_cons]
    rw [hA, hO]

/-- Fuel irrelevance for the array rule. -/
theorem parseArrayF_irrel (s : Input) (n m : Nat) (hn : s.length ≤ n)
    (hm : s.length ≤ m) : parseArrayF n s = parseArrayF m s := by
  unfold parseArrayF
  exact arrayRule_congr (shrinks_parsePrimaryF n)
    (fun k hk => parsePrimaryF_irrel k.length k (le_refl _) n m (by omega) (by omega))
    s (le_refl _)

/-- Fuel irrelevance for the object rule. -/
theorem parseObjectF_irrel (s : Input) (n m : Nat) (hn : s.length ≤ n)
    (hm : s.length ≤ m) : parseObjectF n s = parseObjectF m s := by
  unfold parseObjectF
  exact objectRule_congr (shrinks_parsePrimaryF n)
    (fun k hk => parsePrimaryF_irrel k.length k (le_refl _) n m (by omega) (by omega))
    s (le_refl _)

/-- Unfolding lemmas for `tryRulesSpec` and `altList` on the empty list. -/
theorem tryRulesSpec_nil (i : Input) : tryRulesSpec ([] : List (Parser α)) i = .err := rfl

theorem tryRulesSpec_cons (p : Parser α) (ps : List (Parser α)) (i : Input) :
    tryRulesSpec (p :: ps) i =
      match p i with
      | .ok r v => .ok r v
      | .panic => .panic
      | .err => tryRulesSpec ps i
      | .fail => tryRulesSpec ps i := rfl

theorem altList_nil (i : Input) : altList ([] : List (Parser α)) i = .err := rfl

/-- A parser that can only succeed or report a recoverable error (it never
hard-fails and never panics). -/
def NoHard (p : Parser α) : Prop :=
  ∀ s, (∃ r v, p s = .ok r v) ∨ p s = .err

theorem nohard_multispace0 : NoHard multispace0 := fun s =>
  Or.inl ⟨dropWS s, s.takeWhile isWhitespaceChar, rfl⟩

theorem nohard_charP (c : Char) : NoHard (charP c) := by
  intro s
  cases s with
  | nil => exact Or.inr rfl
  | cons c' t =>
    rw [show charP c (c' :: t) =
      if c' = c then PResult.ok t c' else PResult.err from rfl]
    by_cases hc : c' = c
    · exact Or.inl ⟨t, c', by rw [if_pos hc]⟩
    · exact Or.inr (by rw [if_neg hc])

theorem nohard_none_of (cs : List Char) : NoHard (none_of cs) := by
  intro s
  cases s with
  | nil => exact Or.inr rfl
  | cons c' t =>
    rw [show none_of cs (c' :: t) =
      if c' ∈ cs then PResult.err else PResult.ok t c' from rfl]
    by_cases hc : c' ∈ cs
    · exact Or.inr (by rw [if_pos hc])
    · exact Or.inl ⟨t, c', by rw [if_neg hc]⟩

theorem nohard_tag (t : List Char) : NoHard (tag t) := by
  intro s
  unfold tag
  cases hs : strip t s with
  | some r => exact Or.inl ⟨r, t, rfl⟩
  | none => exact Or.inr rfl

theorem nohard_pmap {p : Parser α} (hp : NoHard p) (f : α → β) :
    NoHard (pmap p f) := by
  intro s
  unfold pmap
  rcases hp s with ⟨r, v, hok⟩ | herr
  · rw [hok]; exact Or.inl ⟨r, f v, rfl⟩
  · rw [herr]; exact Or.inr rfl

theorem nohard_pvalue {p : Parser α} (v : β) (hp : NoHard p) :
    NoHard (pvalue v p) :=
  nohard_pmap hp _

theorem nohard_pbind {p : Parser α} {f : α → Parser β} (hp : NoHard p)
    (hf : ∀ a, NoHard (f a)) : NoHard (pbind p f) := by
  intro s
  unfold pbind
  rcases hp s with ⟨r, v, hok⟩ | herr
  · rw [hok]
    rcases hf v r with ⟨r2, v2, hok2⟩ | herr2
    · exact Or.inl ⟨r2, v2, hok2⟩
    · exact Or.inr herr2
  · rw [herr]; exact Or.inr rfl

theorem nohard_delimited {a : Parser α} {b : Parser β} {c : Parser γ}
    (ha : NoHard a) (hb : NoHard b) (hc : NoHard c) :
    NoHard (delimited a b c) :=
  nohard_pbind ha (fun _ => nohard_pbind hb (fun v => nohard_pmap hc _))

theorem nohard_altList : ∀ {ps : List (Parser α)},
    (∀ p ∈ ps, NoHard p) → NoHard (altList ps) := by
  intro ps
  induction ps with
  | nil => intro _ s; exact Or.inr rfl
  | cons p ps ih =>
    intro hall s
    rw [altList_cons]
    rcases hall p (List.mem_cons_self p ps) s with ⟨r, v, hok⟩ | herr
    · rw [hok]; exact Or.inl ⟨r, v, rfl⟩
    · rw [herr]
      exact ih (fun q hq => hall q (List.mem_cons_of_mem p hq)) s

theorem nohard_parse_escaped_char : NoHard parse_escaped_char := by
  intro s
  unfold parse_escaped_char
  rcases nohard_charP '\\' s with ⟨r, v, hok⟩ | herr
  · rw [hok]
    refine (nohard_altList ?_) r
    intro p hp
    simp only [List.mem_cons, List.mem_singleton, List.not_mem_nil, or_false] at hp
    rcases hp with rfl | rfl | rfl | rfl | rfl | rfl | rfl | rfl <;>
      exact nohard_pvalue _ (nohard_charP _)
  · rw [herr]; exact Or.inr rfl

theorem nohard_stringBodyChar : NoHard stringBodyChar := by
  apply nohard_altList
  intro p hp
  simp only [stringBodyChar, List.mem_cons, List.mem_singleton,
    List.not_mem_nil, or_false] at hp
  rcases hp with rfl | rfl
  · exact nohard_pmap nohard_parse_escaped_char _
  · exact nohard_none_of _

theorem nohard_many0F {p : Parser α} (hp : NoHard p) :
    ∀ fuel, NoHard (many0F p fuel) := by
  intro fuel
  induction fuel with
  | zero => intro s; exact Or.inr rfl
  | succ f ih =>
    intro s
    rw [many0F_succ]
    rcases hp s with ⟨r, v, hok⟩ | herr
    · rw [hok]
      dsimp only
      by_cases hlen : r.length = s.length
      · rw [if_pos hlen]; exact Or.inr rfl
      · rw [if_neg hlen]
        rcases ih r with ⟨r2, os, hok2⟩ | herr2
        · rw [hok2]; exact Or.inl ⟨r2, v :: os, rfl⟩
        · rw [herr2]; exact Or.inr rfl
    · rw [herr]; exact Or.inl ⟨s, [], rfl⟩

theorem nohard_many0 {p : Parser α} (hp : NoHard p) : NoHard (many0 p) :=
  fun s => nohard_many0F hp (s.length + 1) s

theorem nohard_parse_string : NoHard parse_string :=
  nohard_delimited (nohard_charP '"')
    (nohard_pmap (nohard_many0 nohard_stringBodyChar) _)
    (nohard_charP '"')

theorem nohard_parse_null : NoHard parse_null :=
  nohard_pvalue _ (nohard_delimited nohard_multispace0 (nohard_tag _)
    nohard_multispace0)

theorem nohard_parse_bool : NoHard parse_bool := by
  apply nohard_altList
  intro p hp
  simp only [List.mem_cons, List.mem_singleton, List.not_mem_nil, or_false] at hp
  rcases hp with rfl | rfl <;>
    exact nohard_pvalue _ (nohard_delimited nohard_multispace0 (nohard_tag _)
      nohard_multispace0)

theorem nohard_wsCharWs (c : Char) :
    NoHard (delimited multispace0 (charP c) multispace0) :=
  nohard_delimited nohard_multispace0 (nohard_charP c) nohard_multispace0

/-- Inversion for `delimited` on a hard failure. -/
theorem delimited_fail_inv {a : Parser α} {b : Parser β} {c : Parser γ}
    {i : Input} (h : delimited a b c i = .fail) :
    a i = .fail ∨ ∃ i1 x, a i = .ok i1 x ∧
      (b i1 = .fail ∨ ∃ i2 y, b i1 = .ok i2 y ∧ c i2 = .fail) := by
  unfold delimited pbind pmap at h
  cases ha : a i with
  | err => simp only [ha] at h; exact PResult.noConfusion h
  | panic => simp only [ha] at h; exact PResult.noConfusion h
  | fail => exact Or.inl rfl
  | ok i1 x =>
    simp only [ha] at h
    refine Or.inr ⟨i1, x, rfl, ?_⟩
    cases hb : b i1 with
    | err => simp only [hb] at h; exact PResult.noConfusion h
    | panic => simp only [hb] at h; exact PResult.noConfusion h
    | fail => exact Or.inl rfl
    | ok i2 y =>
      simp only [hb] at h
      refine Or.inr ⟨i2, y, rfl, ?_⟩
      cases hc : c i2 with
      | err => simp only [hc] at h; exact PResult.noConfusion h
      | panic => simp only [hc] at h; exact PResult.noConfusion h
      | fail => rfl
      | ok r0 z => simp only [hc] at h; exact PResult.noConfusion h

/-- If the array rule hard-fails, the (whitespace-stripped) input must have
begun with an opening bracket (the hard failure comes from inside the list,
after the bracket was consumed). -/
theorem arrayRule_fail_bracket {e : Parser Value} {s : Input}
    (h : arrayRule e s = .fail) : ∃ t, dropWS s = '[' :: t := by
  unfold arrayRule at h
  rcases delimited_fail_inv h with hA | ⟨i1, x, hA, _⟩
  · rcases nohard_wsCharWs '[' s with ⟨r, v, hok⟩ | herr
    · rw [hok] at hA; exact PResult.noConfusion hA
    · rw [herr] at hA; exact PResult.noConfusion hA
  · exact (wsCharWs_consumes hA).2

/-- If the object rule hard-fails, the (whitespace-stripped) input must have
begun with an opening brace. -/
theorem objectRule_fail_bracket {e : Parser Value} {s : Input}
    (h : objectRule e s = .fail) : ∃ t, dropWS s = '\x7b' :: t := by
  unfold objectRule at h
  rcases delimited_fail_inv h with hA | ⟨i1, x, hA, _⟩
  · rcases nohard_wsCharWs '\x7b' s with ⟨r, v, hok⟩ | herr
    · rw [hok] at hA; exact PResult.noConfusion hA
    · rw [herr] at hA; exact PResult.noConfusion hA
  · exact (wsCharWs_consumes hA).2

/-- If `floatSyntax` hard-fails (via the `cut` after an exponent marker), the
input began with a sign, a dot, or a digit. -/
theorem floatSyntax_fail_head {j : Input} (h : floatSyntax j = .fail) :
    ∃ c t, j = c :: t ∧ (c = '+' ∨ c = '-' ∨ c = '.' ∨ c.isDigit = true) := by
  cases j with
  | nil => exact PResult.noConfusion ((show floatSyntax [] = PResult.err from rfl) ▸ h)
  | cons c t =>
    by_cases h1 : c = '+'
    · exact ⟨c, t, rfl, Or.inl h1⟩
    by_cases h2 : c = '-'
    · exact ⟨c, t, rfl, Or.inr (Or.inl h2)⟩
    by_cases h3 : c = '.'
    · exact ⟨c, t, rfl, Or.inr (Or.inr (Or.inl h3))⟩
    by_cases h4 : c.isDigit = true
    · exact ⟨c, t, rfl, Or.inr (Or.inr (Or.inr h4))⟩
    exfalso
    have herr : floatSyntax (c :: t) = .err := by
      unfold floatSyntax
      simp [pbind, popt, pcut, pmap, altList, charP, digit1, h1, h2, h3, h4]
    rw [herr] at h
    exact PResult.noConfusion h

/-- If `parse_number` hard-fails, the whitespace-stripped input began with a
sign, a dot, or a digit. -/
theorem parse_number_fail_head {s : Input} (h : parse_number s = .fail) :
    ∃ c t, dropWS s = c :: t ∧ (c = '+' ∨ c = '-' ∨ c = '.' ∨ c.isDigit = true) := by
  unfold parse_number at h
  cases hd : delimited multispace0 recognize_float multispace0 s with
  | err => simp only [hd] at h; exact PResult.noConfusion h
  | panic => simp only [hd] at h; exact PResult.noConfusion h
  | ok r0 s0 =>
    simp only [hd] at h
    by_cases hf : isFiniteDouble (ratOfLit s0) = true
    · rw [if_pos hf] at h; exact PResult.noConfusion h
    · rw [if_neg hf] at h; exact PResult.noConfusion h
  | fail =>
    have hrf : recognize_float (dropWS s) = .fail := by
      rcases delimited_fail_inv hd with hA | ⟨i1, x, hA, hB⟩
      · exact absurd hA (by rw [show multispace0 s = .ok (dropWS s)
          (s.takeWhile isWhitespaceChar) from rfl]; exact fun hh => PResult.noConfusion hh)
      · have h1 : i1 = dropWS s := multispace0_ok_inv hA
        subst h1
        rcases hB with hB | ⟨i2, y, hB, hC⟩
        · exact hB
        · exact absurd hC (by rw [show multispace0 i2 = .ok (dropWS i2)
            (i2.takeWhile isWhitespaceChar) from rfl]; exact fun hh => PResult.noConfusion hh)
    have hfs : floatSyntax (dropWS s) = .fail := by
      unfold recognize_float recognize at hrf
      cases hf : floatSyntax (dropWS s) with
      | fail => rfl
      | ok a b => rw [hf] at hrf; exact PResult.noConfusion hrf
      | err => rw [hf] at hrf; exact PResult.noConfusion hrf
      | panic => rw [hf] at hrf; exact PResult.noConfusion hrf
    exact floatSyntax_fail_head hfs

/-- The String rule errs whenever the input does not begin with a quote. -/
theorem parse_string_err_head {c : Char} {t : Input} (hc : c ≠ '"') :
    parse_string (c :: t) = .err := by
  unfold parse_string delimited pbind pmap
  rw [show charP '"' (c :: t) =
    if c = '"' then PResult.ok t c else PResult.err from rfl, if_neg hc]

/-- The Array rule errs whenever the whitespace-stripped input does not begin
with an opening bracket. -/
theorem parse_array_err_head {s : Input} {c : Char} {t : Input}
    (hdrop : dropWS s = c :: t) (hc : c ≠ '[') : parse_array s = .err := by
  show parseArrayF s.length s = .err
  unfold parseArrayF arrayRule delimited pbind pmap
  rw [show multispace0 s = .ok (dropWS s) (s.takeWhile isWhitespaceChar) from rfl]
  dsimp only
  rw [hdrop]
  rw [show charP '[' (c :: t) =
    if c = '[' then PResult.ok t c else PResult.err from rfl, if_neg hc]

/-- The Object rule errs whenever the whitespace-stripped input does not begin
with an opening brace. -/
theorem parse_object_err_head {s : Input} {c : Char} {t : Input}
    (hdrop : dropWS s = c :: t) (hc : c ≠ '\x7b') : parse_object s = .err := by
  show parseObjectF s.length s = .err
  unfold parseObjectF objectRule delimited pbind pmap
  rw [show multispace0 s = .ok (dropWS s) (s.takeWhile isWhitespaceChar) from rfl]
  dsimp only
  rw [hdrop]
  rw [show charP '\x7b' (c :: t) =
    if c = '\x7b' then PResult.ok t c else PResult.err from rfl, if_neg hc]

/-- Whitespace-wrapped dispatch: `delimited multispace0 X multispace0`
strips whitespace, runs `X`, and strips trailing whitespace from the result. -/
theorem delimited_ws_eq (X : Parser α) (i : Input) :
    delimited multispace0 X multispace0 i =
      match X (dropWS i) with
      | .ok r v => .ok (dropWS r) v
      | .err => .err
      | .fail => .fail
      | .panic => .panic := by
  unfold delimited pbind pmap
  rw [show multispace0 i = .ok (dropWS i) (i.takeWhile isWhitespaceChar) from rfl]
  dsimp only
  cases hX : X (dropWS i) with
  | ok r v =>
    dsimp only
    rw [show multispace0 r = .ok (dropWS r) (r.takeWhile isWhitespaceChar) from rfl]
  | err => rfl
  | fail => rfl
  | panic => rfl

/-- `parse_primary` is exactly the six-rule alternation at the
whitespace-stripped input, with trailing whitespace stripped from a successful
result. -/
theorem parse_primary_eq (i : Input) :
    parse_primary i =
      match altList sixKindRules (dropWS i) with
      | .ok r v => .ok (dropWS r) v
      | .err => .err
      | .fail => .fail
      | .panic => .panic := by
  show parsePrimaryF (i.length + 1) i = _
  rw [parsePrimaryF_succ, delimited_ws_eq]
  have hA : arrayRule (fun k => parsePrimaryF i.length k) (dropWS i) =
      parse_array (dropWS i) :=
    parseArrayF_irrel (dropWS i) i.length (dropWS i).length
      (dropWS_length_le i) (le_refl _)
  have hO : objectRule (fun k => parsePrimaryF i.length k) (dropWS i) =
      parse_object (dropWS i) :=
    parseObjectF_irrel (dropWS i) i.length (dropWS i).length
      (dropWS_length_le i) (le_refl _)
  have halt : altList
      [parse_null, parse_bool, parse_number, parse_string,
       arrayRule (fun k => parsePrimaryF i.length k),
       objectRule (fun k => parsePrimaryF i.length k)] (dropWS i) =
      altList sixKindRules (dropWS i) := by
    simp only [sixKindRules, altList_cons, altList_nil]
    rw [hA, hO]
  rw [halt]
  cases altList sixKindRules (dropWS i) <;> rfl

/-- On whitespace-stripped input, the nom alternation over the six kind-rules
agrees with the spec's first-success dispatch: successes coincide, and the
alternation reports a parse failure exactly when every kind-rule does.  (A
hard failure from `cut` aborts the nom alternation early, but any rule the
alternation skipped would have failed anyway: a hard failure pins down the
first character of the input, which rules out the later rules.) -/
theorem six_alt_try (s : Input) (hs : dropWS s = s) :
    (∀ (r : Input) (v : Value), altList sixKindRules s = .ok r v ↔
      tryRulesSpec sixKindRules s = .ok r v) ∧
    ((altList sixKindRules s = .err ∨ altList sixKindRules s = .fail) ↔
      ∀ p ∈ sixKindRules, (p s = .err ∨ p s = .fail)) := by
  rcases nohard_parse_null s with ⟨r1, v1, h1⟩ | h1
  · have hAlt : altList sixKindRules s = .ok r1 v1 := by
      simp only [sixKindRules, altList_cons, h1]
    have hTry : tryRulesSpec sixKindRules s = .ok r1 v1 := by
      simp only [sixKindRules, tryRulesSpec_cons, h1]
    refine ⟨fun r v => by rw [hAlt, hTry], ?_⟩
    rw [hAlt]
    constructor
    · rintro (hh | hh) <;> exact PResult.noConfusion hh
    · intro hall
      rcases hall parse_null (by simp [sixKindRules]) with hh | hh <;>
        (rw [h1] at hh; exact PResult.noConfusion hh)
  rcases nohard_parse_bool s with ⟨r2, v2, h2⟩ | h2
  · have hAlt : altList sixKindRules s = .ok r2 v2 := by
      simp only [sixKindRules, altList_cons, h1, h2]
    have hTry : tryRulesSpec sixKindRules s = .ok r2 v2 := by
      simp only [sixKindRules, tryRulesSpec_cons, h1, h2]
    refine ⟨fun r v => by rw [hAlt, hTry], ?_⟩
    rw [hAlt]
    constructor
    · rintro (hh | hh) <;> exact PResult.noConfusion hh
    · intro hall
      rcases hall parse_bool (by simp [sixKindRules]) with hh | hh <;>
        (rw [h2] at hh; exact PResult.noConfusion hh)
  cases h3 : parse_number s with
  | ok r3 v3 =>
    have hAlt : altList sixKindRules s = .ok r3 v3 := by
      simp only [sixKindRules, altList_cons, h1, h2, h3]
    have hTry : tryRulesSpec sixKindRules s = .ok r3 v3 := by
      simp only [sixKindRules, tryRulesSpec_cons, h1, h2, h3]
    refine ⟨fun r v => by rw [hAlt, hTry], ?_⟩
    rw [hAlt]
    constructor
    · rintro (hh | hh) <;> exact PResult.noConfusion hh
    · intro hall
      rcases hall parse_number (by simp [sixKindRules]) with hh | hh <;>
        (rw [h3] at hh; exact PResult.noConfusion hh)
  | panic =>
    have hAlt : altList sixKindRules s = .panic := by
      simp only [sixKindRules, altList_cons, h1, h2, h3]
    have hTry : tryRulesSpec sixKindRules s = .panic := by
      simp only [sixKindRules, tryRulesSpec_cons, h1, h2, h3]
    refine ⟨fun r v => by rw [hAlt, hTry], ?_⟩
    rw [hAlt]
    constructor
    · rintro (hh | hh) <;> exact PResult.noConfusion hh
    · intro hall
      rcases hall parse_number (by simp [sixKindRules]) with hh | hh <;>
        (rw [h3] at hh; exact PResult.noConfusion hh)
  | fail =>
    obtain ⟨c, t, hct0, hcprop⟩ := parse_number_fail_head h3
    have hct : s = c :: t := hs ▸ hct0
    have hq : c ≠ '"' := by
      rcases hcprop with rfl | rfl | rfl | hd
      · decide
      · decide
      · decide
      · intro he; rw [he] at hd; exact absurd hd (by decide)
    have hlb : c ≠ '[' := by
      rcases hcprop with rfl | rfl | rfl | hd
      · decide
      · decide
      · decide
      · intro he; rw [he] at hd; exact absurd hd (by decide)
    have hob : c ≠ '\x7b' := by
      rcases hcprop with rfl | rfl | rfl | hd
      · decide
      · decide
      · decide
      · intro he; rw [he] at hd; exact absurd hd (by decide)
    have hstr : parse_string s = .err := by rw [hct]; exact parse_string_err_head hq
    have harr : parse_array s = .err := parse_array_err_head (hs.trans hct) hlb
    have hobj : parse_object s = .err := parse_object_err_head (hs.trans hct) hob
    have hAlt : altList sixKindRules s = .fail := by
      simp only [sixKindRules, altList_cons, h1, h2, h3]
    have hTry : tryRulesSpec sixKindRules s = .err := by
      simp only [sixKindRules, tryRulesSpec_cons, tryRulesSpec_nil,
        h1, h2, h3, hstr, harr, hobj]
    refine ⟨fun r v => by rw [hAlt, hTry]; simp, ?_⟩
    rw [hAlt]
    constructor
    · intro _
      simp [sixKindRules, h1, h2, h3, hstr, harr, hobj]
    · intro _
      exact Or.inr rfl
  | err =>
  rcases nohard_parse_string s with ⟨r4, v4, h4⟩ | h4
  · have hAlt : altList sixKindRules s = .ok r4 v4 := by
      simp only [sixKindRules, altList_cons, h1, h2, h3, h4]
    have hTry : tryRulesSpec sixKindRules s = .ok r4 v4 := by
      simp only [sixKindRules, tryRulesSpec_cons, h1, h2, h3, h4]
    refine ⟨fun r v => by rw [hAlt, hTry], ?_⟩
    rw [hAlt]
    constructor
    · rintro (hh | hh) <;> exact PResult.noConfusion hh
    · intro hall
      rcases hall parse_string (by simp [sixKindRules]) with hh | hh <;>
        (rw [h4] at hh; exact PResult.noConfusion hh)
  cases h5 : parse_array s with
  | ok r5 v5 =>
    have hAlt : altList sixKindRules s = .ok r5 v5 := by
      simp only [sixKindRules, altList_cons, h1, h2, h3, h4, h5]
    have hTry : tryRulesSpec sixKindRules s = .ok r5 v5 := by
      simp only [sixKindRules, tryRulesSpec_cons, h1, h2, h3, h4, h5]
    refine ⟨fun r v => by rw [hAlt, hTry], ?_⟩
    rw [hAlt]
    constructor
    · rintro (hh | hh) <;> exact PResult.noConfusion hh
    · intro hall
      rcases hall parse_array (by simp [sixKindRules]) with hh | hh <;>
        (rw [h5] at hh; exact PResult.noConfusion hh)
  | panic =>
    have hAlt : altList sixKindRules s = .panic := by
      simp only [sixKindRules, altList_cons, h1, h2, h3, h4, h5]
    have hTry : tryRulesSpec sixKindRules s = .panic := by
      simp only [sixKindRules, tryRulesSpec_cons, h1, h2, h3, h4, h5]
    refine ⟨fun r v => by rw [hAlt, hTry], ?_⟩
    rw [hAlt]
    constructor
    · rintro (hh | hh) <;> exact PResult.noConfusion hh
    · intro hall
      rcases hall parse_array (by simp [sixKindRules]) with hh | hh <;>
        (rw [h5] at hh; exact PResult.noConfusion hh)
  | fail =>
    have h5' : arrayRule (fun k => parsePrimaryF s.length k) s = .fail := h5
    obtain ⟨t, hct⟩ := arrayRule_fail_bracket h5'
    have hobj : parse_object s = .err := parse_object_err_head hct (by decide)
    have hAlt : altList sixKindRules s = .fail := by
      simp only [sixKindRules, altList_cons, h1, h2, h3, h4, h5]
    have hTry : tryRulesSpec sixKindRules s = .err := by
      simp only [sixKindRules, tryRulesSpec_cons, tryRulesSpec_nil,
        h1, h2, h3, h4, h5, hobj]
    refine ⟨fun r v => by rw [hAlt, hTry]; simp, ?_⟩
    rw [hAlt]
    constructor
    · intro _
      simp [sixKindRules, h1, h2, h3, h4, h5, hobj]
    · intro _
      exact Or.inr rfl
  | err =>
  cases h6 : parse_object s with
  | ok r6 v6 =>
    have hAlt : altList sixKindRules s = .ok r6 v6 := by
      simp only [sixKindRules, altList_cons, h1, h2, h3, h4, h5, h6]
    have hTry : tryRulesSpec sixKindRules s = .ok r6 v6 := by
      simp only [sixKindRules, tryRulesSpec_cons, h1, h2, h3, h4, h5, h6]
    refine ⟨fun r v => by rw [hAlt, hTry], ?_⟩
    rw [hAlt]
    constructor
    · rintro (hh | hh) <;> exact PResult.noConfusion hh
    · intro hall
      rcases hall parse_object (by simp [sixKindRules]) with hh | hh <;>
        (rw [h6] at hh; exact PResult.noConfusion hh)
  | panic =>
    have hAlt : altList sixKindRules s = .panic := by
      simp only [sixKindRules, altList_cons, h1, h2, h3, h4, h5, h6]
    have hTry : tryRulesSpec sixKindRules s = .panic := by
      simp only [sixKindRules, tryRulesSpec_cons, h1, h2, h3, h4, h5, h6]
    refine ⟨fun r v => by rw [hAlt, hTry], ?_⟩
    rw [hAlt]
    constructor
    · rintro (hh | hh) <;> exact PResult.noConfusion hh
    · intro hall
      rcases hall parse_object (by simp [sixKindRules]) with hh | hh <;>
        (rw [h6] at hh; exact PResult.noConfusion hh)
  | fail =>
    have hAlt : altList sixKindRules s = .fail := by
      simp only [sixKindRules, altList_cons, h1, h2, h3, h4, h5, h6]
    have hTry : tryRulesSpec sixKindRules s = .err := by
      simp only [sixKindRules, tryRulesSpec_cons, tryRulesSpec_nil,
        h1, h2, h3, h4, h5, h6]
    refine ⟨fun r v => by rw [hAlt, hTry]; simp, ?_⟩
    rw [hAlt]
    constructor
    · intro _
      simp [sixKindRules, h1, h2, h3, h4, h5, h6]
    · intro _
      exact Or.inr rfl
  | err =>
    have hAlt : altList sixKindRules s = .err := by
      simp only [sixKindRules, altList_cons, altList_nil, h1, h2, h3, h4, h5, h6]
    have hTry : tryRulesSpec sixKindRules s = .err := by
      simp only [sixKindRules, tryRulesSpec_cons, tryRulesSpec_nil,
        h1, h2, h3, h4, h5, h6]
    refine ⟨fun r v => by rw [hAlt, hTry], ?_⟩
    rw [hAlt]
    constructor
    · intro _
      simp [sixKindRules, h1, h2, h3, h4, h5, h6]
    · intro _
      exact Or.inl rfl

/-- C3: the Value dispatch rule skips leading whitespace, attempts the six
kind-rules in the fixed order Null, Boolean, Number, String, Array, Object at
the same (stripped) starting position, returns the first success with
trailing whitespace skipped from the remaining slice, and reports a parse
failure exactly when all six kind-rules fail at that position. -/
theorem C3_value_dispatch :
    (∀ (i r : Input) (v : Value),
      parse_primary i = .ok r v ↔
        ∃ r0, tryRulesSpec sixKindRules (dropWS i) = .ok r0 v ∧ r = dropWS r0) ∧
    (∀ i : Input,
      (parse_primary i = .err ∨ parse_primary i = .fail) ↔
        ∀ p ∈ sixKindRules, (p (dropWS i) = .err ∨ p (dropWS i) = .fail)) := by
  constructor
  · intro i r v
    obtain ⟨ha, _⟩ := six_alt_try (dropWS i) (dropWS_idem i)
    rw [parse_primary_eq]
    cases hAlt : altList sixKindRules (dropWS i) with
    | ok r0 v0 =>
      dsimp only
      have hTry : tryRulesSpec sixKindRules (dropWS i) = .ok r0 v0 :=
        (ha r0 v0).mp hAlt
      constructor
      · intro heq
        injection heq with e1 e2
        exact ⟨r0, by rw [hTry, e2], e1.symm⟩
      · rintro ⟨r0', htry', hr⟩
        rw [hTry] at htry'
        injection htry' with f1 f2
        rw [hr, ← f1, f2]
    | err =>
      dsimp only
      constructor
      · intro heq; exact PResult.noConfusion heq
      · rintro ⟨r0, htry, hr⟩
        have := (ha r0 v).mpr htry
        rw [hAlt] at this
        exact PResult.noConfusion this
    | fail =>
      dsimp only
      constructor
      · intro heq; exact PResult.noConfusion heq
      · rintro ⟨r0, htry, hr⟩
        have := (ha r0 v).mpr htry
        rw [hAlt] at this
        exact PResult.noConfusion this
    | panic =>
      dsimp only
      constructor
      · intro heq; exact PResult.noConfusion heq
      · rintro ⟨r0, htry, hr⟩
        have := (ha r0 v).mpr htry
        rw [hAlt] at this
        exact PResult.noConfusion this
  · intro i
    obtain ⟨_, hb⟩ := six_alt_try (dropWS i) (dropWS_idem i)
    rw [parse_primary_eq]
    cases hAlt : altList sixKindRules (dropWS i) with
    | ok r0 v0 =>
      dsimp only
      constructor
      · rintro (hh | hh) <;> exact PResult.noConfusion hh
      · intro hall
        have := hb.mpr hall
        rw [hAlt] at this
        rcases this with hh | hh <;> exact PResult.noConfusion hh
    | err =>
      dsimp only
      exact ⟨fun _ => hb.mp (Or.inl hAlt), fun _ => Or.inl rfl⟩
    | fail =>
      dsimp only
      exact ⟨fun _ => hb.mp (Or.inr hAlt), fun _ => Or.inr rfl⟩
    | panic =>
      dsimp only
      constructor
      · rintro (hh | hh) <;> exact PResult.noConfusion hh
      · intro hall
        have := hb.mpr hall
        rw [hAlt] at this
        rcases this with hh | hh <;> exact PResult.noConfusion hh

/-- `binPow` computes powers once the fuel exceeds the exponent's bit length. -/
theorem binPow_eq (b : ℕ) : ∀ (fuel e : ℕ), e < 2 ^ fuel → binPow b fuel e = b ^ e := by
  intro fuel
  induction fuel with
  | zero =>
    intro e he
    have he0 : e = 0 := by simpa using Nat.lt_one_iff.mp (by simpa using he)
    subst he0
    rfl
  | succ f ih =>
    intro e he
    by_cases h0 : e = 0
    · subst h0
      simp [binPow]
    · have hstep : binPow b (f + 1) e =
        (binPow b f (e / 2)) ^ 2 * (if e % 2 = 1 then b else 1) := by
        rw [binPow, if_neg h0]
      have h2f : 2 ^ (f + 1) = 2 ^ f * 2 := by rw [Nat.pow_succ]
      have he2 : e / 2 < 2 ^ f := by omega
      rw [hstep, ih (e / 2) he2, ← pow_mul]
      rcases Nat.mod_two_eq_zero_or_one e with h | h
      · rw [h, if_neg (by omega), mul_one]
        have : e / 2 * 2 = e := by omega
        rw [this]
      · rw [h, if_pos rfl]
        have : e = e / 2 * 2 + 1 := by omega
        conv_rhs => rw [this]
        rw [pow_succ]

/-- `powNat` is exponentiation. -/
theorem powNat_eq (b e : ℕ) : powNat b e = b ^ e :=
  binPow_eq b e e (Nat.lt_two_pow e)

theorem digitsVal_append_singleton (ds : List Char) (c : Char) :
    digitsVal (ds ++ [c]) = 10 * digitsVal ds + digitVal c := by
  unfold digitsVal
  rw [List.foldl_append]
  rfl

/-- The digit character of a remainder below ten. -/
theorem digitChar_spec (r : Nat) (hr : r < 10) :
    (Char.ofNat (48 + r)).isDigit = true ∧ digitVal (Char.ofNat (48 + r)) = r ∧
      Char.ofNat (48 + r) ≠ 'e' := by
  interval_cases r <;> exact ⟨by decide, by decide, by decide⟩

/-- The fueled digit printer is correct below its fuel: the printed digits
evaluate back to the number and are all decimal digits. -/
theorem natDigitsF_spec : ∀ (fuel n : Nat), n ≤ fuel →
    digitsVal (natDigitsF fuel n) = n ∧
      ∀ c ∈ natDigitsF fuel n, c.isDigit = true := by
  intro fuel
  induction fuel with
  | zero =>
    intro n hn
    have h0 : n = 0 := by omega
    subst h0
    exact ⟨rfl, by intro c hc; simp [natDigitsF] at hc⟩
  | succ f ih =>
    intro n hn
    by_cases h0 : n = 0
    · subst h0
      exact ⟨rfl, by intro c hc; simp [natDigitsF] at hc⟩
    · have hstep : natDigitsF (f + 1) n =
        natDigitsF f (n / 10) ++ [Char.ofNat (48 + n % 10)] := by
        rw [natDigitsF, if_neg h0]
      have hrec := ih (n / 10) (by omega)
      obtain ⟨hdig, hval, _⟩ := digitChar_spec (n % 10) (by omega)
      constructor
      · rw [hstep, digitsVal_append_singleton, hrec.1, hval]
        omega
      · intro c hc
        rw [hstep] at hc
        rcases List.mem_append.mp hc with hc | hc
        · exact hrec.2 c hc
        · rw [List.mem_singleton.mp hc]
          exact hdig

/-- The digit string of a natural number: nonempty, all digits, and it
evaluates back to the number. -/
theorem natDigits_spec (n : Nat) :
    digitsVal (natDigits n) = n ∧ natDigits n ≠ [] ∧
      ∀ c ∈ natDigits n, c.isDigit = true := by
  by_cases h0 : n = 0
  · subst h0
    exact ⟨rfl, by decide, by intro c hc; rw [natDigits] at hc; simp at hc; rw [hc]; decide⟩
  · have hd : natDigits n = natDigitsF n n := by rw [natDigits, if_neg h0]
    have hs := natDigitsF_spec n n (le_refl n)
    refine ⟨by rw [hd]; exact hs.1, ?_, by rw [hd]; exact hs.2⟩
    rw [hd]
    cases n with
    | zero => exact absurd rfl h0
    | succ m =>
      rw [show natDigitsF (m + 1) (m + 1) =
        natDigitsF m ((m + 1) / 10) ++ [Char.ofNat (48 + (m + 1) % 10)] from by
          rw [natDigitsF, if_neg (by omega)]]
      simp

/-- A divisor of a power of ten divides the power of ten with its own value as
exponent (its prime factors are 2 and 5, with multiplicities below itself). -/
theorem dvd_ten_pow_self {d n : ℕ} (hd : d ≠ 0) (h : d ∣ 10 ^ n) : d ∣ 10 ^ d := by
  rcases Nat.eq_zero_or_pos n with rfl | hn
  · rw [pow_zero] at h
    rw [Nat.dvd_one.mp h]
    exact one_dvd _
  · have h10 : (10 : ℕ) ^ n ≠ 0 := by positivity
    have h10d : (10 : ℕ) ^ d ≠ 0 := by positivity
    rw [← Nat.factorization_le_iff_dvd hd h10] at h
    rw [← Nat.factorization_le_iff_dvd hd h10d]
    rw [Finsupp.le_def] at h ⊢
    intro p
    have hp := h p
    rw [Nat.factorization_pow] at hp ⊢
    simp only [Finsupp.smul_apply, smul_eq_mul] at hp ⊢
    by_cases hz : Nat.factorization 10 p = 0
    · rw [hz] at hp ⊢
      omega
    · have h1 : 1 ≤ Nat.factorization 10 p := by omega
      have h2 : d.factorization p < d := Nat.factorization_lt p hd
      have h3 : d * 1 ≤ d * Nat.factorization 10 p :=
        Nat.mul_le_mul_left d h1
      omega

theorem mkRat_pow_shape1 (m : ℤ) (a b : ℕ) :
    ∃ (m' : ℤ) (N : ℕ), mkRat m (powNat 10 a * powNat 10 b) = mkRat m' (10 ^ N) :=
  ⟨m, a + b, by rw [powNat_eq, powNat_eq, ← pow_add]⟩

theorem mkRat_pow_shape2 (m : ℤ) (a : ℕ) :
    ∃ (m' : ℤ) (N : ℕ), mkRat m (powNat 10 a) = mkRat m' (10 ^ N) :=
  ⟨m, a, by rw [powNat_eq]⟩

/-- Every rational produced by `ratOfLit` is a fraction over a power of ten. -/
theorem ratOfLit_shape (s : List Char) :
    ∃ (m : ℤ) (N : ℕ), ratOfLit s = mkRat m (10 ^ N) := by
  simp only [ratOfLit]
  split
  · exact mkRat_pow_shape2 _ _
  · exact mkRat_pow_shape1 _ _ _

/-- The denominator of a number produced by the numeric-literal conversion
divides the corresponding power of ten. -/
theorem ratOfLit_den_dvd (s : List Char) :
    (ratOfLit s).den ∣ 10 ^ (ratOfLit s).den := by
  obtain ⟨m, N, hq⟩ := ratOfLit_shape s
  have h1 : ((mkRat m (10 ^ N)).den : ℤ) ∣ (((10 : ℕ) ^ N : ℕ) : ℤ) := by
    rw [Rat.mkRat_eq_divInt]
    exact Rat.den_dvd m ((10 : ℕ) ^ N : ℕ)
  have h2 : (ratOfLit s).den ∣ 10 ^ N := by
    rw [hq]
    exact_mod_cast h1
  exact dvd_ten_pow_self (Rat.den_nz _) h2

theorem mkRat_mul_cancel {n : ℤ} {c d : ℕ} (hc : c ≠ 0) (hd : d ≠ 0) :
    mkRat (n * (c : ℤ)) (c * d) = mkRat n d := by
  rw [Rat.mkRat_eq_div, Rat.mkRat_eq_div]
  push_cast
  rw [mul_comm (c : ℚ) (d : ℚ)]
  exact mul_div_mul_right _ _ (Nat.cast_ne_zero.mpr hc)

/-- The serialized mantissa over the serialized power of ten denotes the
original rational, provided its denominator divides that power of ten. -/
theorem mkRat_serialized (q : ℚ) (hd : q.den ∣ 10 ^ q.den) :
    mkRat (q.num * ((10 ^ q.den / q.den : ℕ) : ℤ)) (10 ^ q.den) = q := by
  have hdpos : q.den ≠ 0 := Rat.den_nz q
  have hc : (10 ^ q.den / q.den : ℕ) ≠ 0 := by
    have hle : q.den ≤ 10 ^ q.den := Nat.le_of_dvd (by positivity) hd
    have := Nat.div_pos hle (Nat.pos_of_ne_zero hdpos)
    omega
  have h10 : (10 : ℕ) ^ q.den = (10 ^ q.den / q.den) * q.den :=
    (Nat.div_mul_cancel hd).symm
  calc mkRat (q.num * ((10 ^ q.den / q.den : ℕ) : ℤ)) (10 ^ q.den)
      = mkRat (q.num * ((10 ^ q.den / q.den : ℕ) : ℤ)) ((10 ^ q.den / q.den) * q.den) := by
        rw [← h10]
    _ = mkRat q.num q.den := mkRat_mul_cancel hc hdpos
    _ = q := Rat.mkRat_self q

theorem popt_eq (p : Parser α) (i : Input) :
    popt p i = match p i with
      | .ok r v => .ok r (some v)
      | .err => .ok i none
      | .fail => .fail
      | .panic => .panic := rfl

theorem pbind_eq (p : Parser α) (f : α → Parser β) (i : Input) :
    pbind p f i = match p i with
      | .ok r v => f v r
      | .err => .err
      | .fail => .fail
      | .panic => .panic := rfl

theorem pcut_eq (p : Parser α) (i : Input) :
    pcut p i = match p i with
      | .ok r v => .ok r v
      | .err => .fail
      | .fail => .fail
      | .panic => .panic := rfl

theorem pmap_eq_match (p : Parser α) (f : α → β) (i : Input) :
    pmap p f i = match p i with
      | .ok r v => .ok r (f v)
      | .err => .err
      | .fail => .fail
      | .panic => .panic := rfl

/-- `takeWhile`/`dropWhile` split an append exactly at a satisfying prefix
followed by a violating (or empty) remainder. -/
theorem takeWhile_append_boundary (p : Char → Bool) :
    ∀ (ds rest : List Char), (∀ c ∈ ds, p c = true) →
      (∀ c t, rest = c :: t → p c = false) →
      (ds ++ rest).takeWhile p = ds ∧ (ds ++ rest).dropWhile p = rest := by
  intro ds
  induction ds with
  | nil =>
    intro rest _ hrest
    cases rest with
    | nil => exact ⟨rfl, rfl⟩
    | cons c t =>
      simp [List.takeWhile_cons, List.dropWhile_cons, hrest c t rfl]
  | cons d ds ih =>
    intro rest hds hrest
    have hd : p d = true := hds d (List.mem_cons_self d ds)
    have hih := ih rest (fun c hc => hds c (List.mem_cons_of_mem d hc)) hrest
    simp [List.takeWhile_cons, List.dropWhile_cons, hd, hih.1, hih.2]

theorem takeWhile_cons_boundary (p : Char → Bool) {d : Char} {ds rest : List Char}
    (hd : p d = true) (hds : ∀ c ∈ ds, p c = true)
    (hrest : ∀ c t, rest = c :: t → p c = false) :
    (d :: (ds ++ rest)).takeWhile p = d :: ds ∧
      (d :: (ds ++ rest)).dropWhile p = rest := by
  have h := takeWhile_append_boundary p (d :: ds) rest
    (by
      intro c hc
      rcases List.mem_cons.mp hc with rfl | hc
      · exact hd
      · exact hds c hc) hrest
  simpa using h

theorem takeWhile_all {p : Char → Bool} {ds : List Char} (h : ∀ c ∈ ds, p c = true) :
    ds.takeWhile p = ds := by
  have hh := takeWhile_append_boundary p ds [] h (by intro c t ht; exact absurd ht (by simp))
  simpa using hh.1

/-- `digit1` consumes exactly a nonempty all-digit prefix when the remainder
does not begin with a digit. -/
theorem digit1_append {ds rest : List Char} (hne : ds ≠ [])
    (hds : ∀ c ∈ ds, c.isDigit = true)
    (hrest : ∀ c t, rest = c :: t → c.isDigit = false) :
    digit1 (ds ++ rest) = .ok rest ds := by
  cases ds with
  | nil => exact absurd rfl hne
  | cons d dt =>
    have hd : d.isDigit = true := hds d (List.mem_cons_self d dt)
    have hb := takeWhile_cons_boundary Char.isDigit hd
      (fun c hc => hds c (List.mem_cons_of_mem d hc)) hrest
    rw [List.cons_append]
    rw [show digit1 (d :: (dt ++ rest)) =
      if d.isDigit then
        .ok ((d :: (dt ++ rest)).dropWhile Char.isDigit)
          ((d :: (dt ++ rest)).takeWhile Char.isDigit)
      else .err from rfl]
    rw [if_pos hd, hb.1, hb.2]

/-- A decimal digit is none of the parser's structural characters. -/
theorem isDigit_ne {c : Char} (h : c.isDigit = true) :
    c ≠ '+' ∧ c ≠ '-' ∧ c ≠ '.' ∧ c ≠ 'e' ∧ c ≠ 'E' ∧ c ≠ '"' ∧ c ≠ ',' ∧
      c ≠ ':' ∧ c ≠ '[' ∧ c ≠ ']' ∧ c ≠ '\x7b' ∧ c ≠ '\x7d' ∧ c ≠ 'n' ∧
      c ≠ 't' ∧ c ≠ 'f' ∧ isWhitespaceChar c = false := by
  have hne : ∀ d : Char, d.isDigit = false → c ≠ d := by
    intro d hd heq
    subst heq
    rw [h] at hd
    exact Bool.noConfusion hd
  refine ⟨hne '+' (by decide), hne '-' (by decide), hne '.' (by decide),
    hne 'e' (by decide), hne 'E' (by decide), hne '"' (by decide),
    hne ',' (by decide), hne ':' (by decide), hne '[' (by decide),
    hne ']' (by decide), hne '\x7b' (by decide), hne '\x7d' (by decide),
    hne 'n' (by decide), hne 't' (by decide), hne 'f' (by decide), ?_⟩
  simp [isWhitespaceChar, hne ' ' (by decide), hne '\t' (by decide),
    hne '\n' (by decide), hne '\r' (by decide)]

/-- A decimal digit character is one of the ten digits. -/
theorem isDigit_cases {c : Char} (h : c.isDigit = true) :
    c = '0' ∨ c = '1' ∨ c = '2' ∨ c = '3' ∨ c = '4' ∨ c = '5' ∨ c = '6' ∨
      c = '7' ∨ c = '8' ∨ c = '9' := by
  have hb : 48 ≤ c.val.toNat ∧ c.val.toNat ≤ 57 := by
    simp only [Char.isDigit, Bool.and_eq_true, decide_eq_true_eq, ge_iff_le,
      UInt32.le_def] at h
    exact ⟨h.1, h.2⟩
  have heq : ∀ (m : Nat) (d : Char), c.val.toNat = m → d.val.toNat = m → c = d := by
    intro m d h1 h2
    exact Char.ext (UInt32.toNat.inj (h1.trans h2.symm))
  have hcase : c.val.toNat = 48 ∨ c.val.toNat = 49 ∨ c.val.toNat = 50 ∨
      c.val.toNat = 51 ∨ c.val.toNat = 52 ∨ c.val.toNat = 53 ∨ c.val.toNat = 54 ∨
      c.val.toNat = 55 ∨ c.val.toNat = 56 ∨ c.val.toNat = 57 := by omega
  rcases hcase with h1 | h1 | h1 | h1 | h1 | h1 | h1 | h1 | h1 | h1
  · exact Or.inl (heq _ '0' h1 (by decide))
  · exact Or.inr (Or.inl (heq _ '1' h1 (by decide)))
  · exact Or.inr (Or.inr (Or.inl (heq _ '2' h1 (by decide))))
  · exact Or.inr (Or.inr (Or.inr (Or.inl (heq _ '3' h1 (by decide)))))
  · exact Or.inr (Or.inr (Or.inr (Or.inr (Or.inl (heq _ '4' h1 (by decide))))))
  · exact Or.inr (Or.inr (Or.inr (Or.inr (Or.inr (Or.inl (heq _ '5' h1 (by decide)))))))
  · exact Or.inr (Or.inr (Or.inr (Or.inr (Or.inr (Or.inr (Or.inl
      (heq _ '6' h1 (by decide))))))))
  · exact Or.inr (Or.inr (Or.inr (Or.inr (Or.inr (Or.inr (Or.inr (Or.inl
      (heq _ '7' h1 (by decide)))))))))
  · exact Or.inr (Or.inr (Or.inr (Or.inr (Or.inr (Or.inr (Or.inr (Or.inr (Or.inl
      (heq _ '8' h1 (by decide))))))))))
  · exact Or.inr (Or.inr (Or.inr (Or.inr (Or.inr (Or.inr (Or.inr (Or.inr (Or.inr
      (heq _ '9' h1 (by decide))))))))))

theorem sign_alt_none {c : Char} (h1 : c ≠ '+') (h2 : c ≠ '-') (t : Input) :
    popt (altList [charP '+', charP '-']) (c :: t) = .ok (c :: t) none := by
  have ha : charP '+' (c :: t) = .err := by
    rw [show charP '+' (c :: t) = if c = '+' then .ok t c else .err from rfl,
      if_neg h1]
  have hb : charP '-' (c :: t) = .err := by
    rw [show charP '-' (c :: t) = if c = '-' then .ok t c else .err from rfl,
      if_neg h2]
  rw [popt_eq, altList_cons, ha]
  dsimp only
  rw [altList_cons, hb]
  dsimp only
  rw [altList_nil]

/-- The exponent part of a serialized number: `e`, `-`, then the digit block. -/
theorem expPart_ser {dd rest : List Char} (hdd : dd ≠ [])
    (hddd : ∀ c ∈ dd, c.isDigit = true)
    (hrest : ∀ c t, rest = c :: t → c.isDigit = false) :
    popt (pbind (altList [charP 'e', charP 'E']) (fun _ =>
      pbind (popt (altList [charP '+', charP '-'])) (fun _ =>
      pcut digit1))) ('e' :: '-' :: (dd ++ rest)) = .ok rest (some dd) := by
  have h1 : altList [charP 'e', charP 'E'] ('e' :: '-' :: (dd ++ rest)) =
      .ok ('-' :: (dd ++ rest)) 'e' := rfl
  have h2 : popt (altList [charP '+', charP '-']) ('-' :: (dd ++ rest)) =
      .ok (dd ++ rest) (some '-') := rfl
  have h3 : digit1 (dd ++ rest) = .ok rest dd := digit1_append hdd hddd hrest
  rw [popt_eq, pbind_eq, h1]
  dsimp only
  rw [pbind_eq, h2]
  dsimp only
  rw [pcut_eq, h3]

/-- `floatSyntax` consumes exactly a serialized numeric literal
(optional minus, digit block, `e`, `-`, digit block). -/
theorem floatSyntax_ser {pre md dd rest : List Char}
    (hpre : pre = md ∨ pre = '-' :: md)
    (hmd : md ≠ []) (hmdd : ∀ c ∈ md, c.isDigit = true)
    (hdd : dd ≠ []) (hddd : ∀ c ∈ dd, c.isDigit = true)
    (hrest : ∀ c t, rest = c :: t → c.isDigit = false) :
    floatSyntax (pre ++ 'e' :: '-' :: (dd ++ rest)) = .ok rest () := by
  obtain ⟨m0, mt, rfl⟩ : ∃ c t, md = c :: t := by
    cases md with
    | nil => exact absurd rfl hmd
    | cons a b => exact ⟨a, b, rfl⟩
  have hm0 : m0.isDigit = true := hmdd m0 (List.mem_cons_self m0 mt)
  obtain ⟨hp, hm, _⟩ := isDigit_ne hm0
  have hdig : digit1 ((m0 :: mt) ++ ('e' :: '-' :: (dd ++ rest))) =
      .ok ('e' :: '-' :: (dd ++ rest)) (m0 :: mt) :=
    digit1_append (by simp) hmdd
      (by intro c t ht; injection ht with hh _; rw [← hh]; decide)
  have hdot : popt (pbind (charP '.') (fun _ => popt digit1))
      ('e' :: '-' :: (dd ++ rest)) = .ok ('e' :: '-' :: (dd ++ rest)) none := rfl
  have hbr : altList
      [pmap (pbind digit1 (fun _ =>
          popt (pbind (charP '.') (fun _ => popt digit1)))) (fun _ => ()),
       pmap (pbind (charP '.') (fun _ => digit1)) (fun _ => ())]
      ((m0 :: mt) ++ ('e' :: '-' :: (dd ++ rest))) =
      .ok ('e' :: '-' :: (dd ++ rest)) () := by
    rw [altList_cons, pmap_eq_match, pbind_eq, hdig]
    dsimp only
    rw [hdot]
  have hexp := expPart_ser hdd hddd hrest
  rcases hpre with rfl | rfl
  · have hsgn : popt (altList [charP '+', charP '-'])
        ((m0 :: mt) ++ ('e' :: '-' :: (dd ++ rest))) =
        .ok ((m0 :: mt) ++ ('e' :: '-' :: (dd ++ rest))) none := by
      rw [List.cons_append]
      exact sign_alt_none hp hm _
    unfold floatSyntax
    rw [pbind_eq, hsgn]
    dsimp only
    rw [pbind_eq, hbr]
    dsimp only
    rw [pmap_eq_match, hexp]
  · have hsgn : popt (altList [charP '+', charP '-'])
        (('-' :: (m0 :: mt)) ++ ('e' :: '-' :: (dd ++ rest))) =
        .ok ((m0 :: mt) ++ ('e' :: '-' :: (dd ++ rest))) (some '-') := by
      rw [List.cons_append]
      rfl
    unfold floatSyntax
    rw [pbind_eq, hsgn]
    dsimp only
    rw [pbind_eq, hbr]
    dsimp only
    rw [pmap_eq_match, hexp]

/-- `recognize_float` returns exactly the serialized literal as the consumed
slice. -/
theorem recognize_float_ser {ser rest : List Char}
    (hfs : floatSyntax (ser ++ rest) = .ok rest ()) :
    recognize_float (ser ++ rest) = .ok rest ser := by
  unfold recognize_float recognize
  rw [hfs]
  dsimp only
  have hlen : (ser ++ rest).length - rest.length = ser.length := by
    rw [List.length_append]
    omega
  rw [hlen, List.take_left]

theorem ratOfLit_step2_neg (t : List Char) :
    ratOfLit ('-' :: t) =
      ratOfLitStep2 (-1) (t.takeWhile Char.isDigit) (t.dropWhile Char.isDigit) := rfl

theorem ratOfLit_step2_digit {c : Char} (hc : c.isDigit = true) (t : List Char) :
    ratOfLit (c :: t) =
      ratOfLitStep2 1 ((c :: t).takeWhile Char.isDigit)
        ((c :: t).dropWhile Char.isDigit) := by
  rcases isDigit_cases hc with rfl | rfl | rfl | rfl | rfl | rfl | rfl | rfl | rfl | rfl <;>
    rfl

theorem ratOfLit_step2_to_step3 (sg : ℤ) (ip dd : List Char) :
    ratOfLitStep2 sg ip ('e' :: '-' :: dd) =
      ratOfLitStep3 sg ip (-(digitsVal (dd.takeWhile Char.isDigit) : ℤ)) := rfl

/-- `ratOfLit` on a serialized literal `[-]md e -dd` evaluates to the exact
fraction `sign * md / 10 ^ dd`. -/
theorem ratOfLit_ser {pre md dd : List Char} {sg : ℤ}
    (hpre : (pre = md ∧ sg = 1) ∨ (pre = '-' :: md ∧ sg = -1))
    (hmd : md ≠ []) (hmdd : ∀ c ∈ md, c.isDigit = true)
    (hddd : ∀ c ∈ dd, c.isDigit = true) (hD : 1 ≤ digitsVal dd) :
    ratOfLit (pre ++ 'e' :: '-' :: dd) =
      mkRat (sg * (digitsVal md : ℤ)) (10 ^ digitsVal dd) := by
  obtain ⟨m0, mt, rfl⟩ : ∃ c t, md = c :: t := by
    cases md with
    | nil => exact absurd rfl hmd
    | cons a b => exact ⟨a, b, rfl⟩
  have hm0 : m0.isDigit = true := hmdd m0 (List.mem_cons_self m0 mt)
  have hbd : (m0 :: (mt ++ 'e' :: '-' :: dd)).takeWhile Char.isDigit = m0 :: mt ∧
      (m0 :: (mt ++ 'e' :: '-' :: dd)).dropWhile Char.isDigit = 'e' :: '-' :: dd :=
    takeWhile_cons_boundary Char.isDigit hm0
      (fun c hc => hmdd c (List.mem_cons_of_mem m0 hc))
      (by intro c t ht; injection ht with hh _; rw [← hh]; decide)
  have htd : dd.takeWhile Char.isDigit = dd := takeWhile_all hddd
  have hns : -((digitsVal dd : ℕ) : ℤ) = Int.negSucc (digitsVal dd - 1) := by
    rw [Int.negSucc_eq]
    have hc : ((digitsVal dd - 1 : ℕ) : ℤ) = (digitsVal dd : ℤ) - 1 := by omega
    rw [hc]
    ring
  have hclean : ∀ s : ℤ, ratOfLitStep3 s (m0 :: mt) (Int.negSucc (digitsVal dd - 1)) =
      mkRat (s * (digitsVal (m0 :: mt) : ℤ)) (10 ^ digitsVal dd) := by
    intro s
    rw [show ratOfLitStep3 s (m0 :: mt) (Int.negSucc (digitsVal dd - 1)) =
      mkRat (s * (digitsVal (m0 :: mt) * powNat 10 0 + digitsVal []))
        (powNat 10 0 * powNat 10 (digitsVal dd - 1 + 1)) from rfl]
    rw [show digitsVal dd - 1 + 1 = digitsVal dd from by omega]
    rw [show powNat 10 0 = 1 from rfl, powNat_eq]
    rw [show digitsVal ([] : List Char) = 0 from rfl]
    rw [one_mul]
    norm_num
  rcases hpre with ⟨rfl, rfl⟩ | ⟨rfl, rfl⟩
  · rw [List.cons_append, ratOfLit_step2_digit hm0, hbd.1, hbd.2,
      ratOfLit_step2_to_step3, htd, hns, hclean]
  · rw [List.cons_append, List.cons_append, ratOfLit_step2_neg, hbd.1, hbd.2,
      ratOfLit_step2_to_step3, htd, hns, hclean]

theorem serializeNumber_eq (q : ℚ) :
    serializeNumber q =
      (if q.num * ((10 ^ q.den / q.den : ℕ) : ℤ) < 0 then
        '-' :: natDigits (q.num * ((10 ^ q.den / q.den : ℕ) : ℤ)).natAbs
      else natDigits (q.num * ((10 ^ q.den / q.den : ℕ) : ℤ)).natAbs) ++
        'e' :: '-' :: natDigits q.den := by
  simp only [serializeNumber, powNat_eq]

/-- A serialized number begins with a minus sign or a digit. -/
theorem serializeNumber_head (q : ℚ) :
    ∃ c t, serializeNumber q = c :: t ∧ (c = '-' ∨ c.isDigit = true) := by
  rw [serializeNumber_eq]
  obtain ⟨hval, hne, hdig⟩ := natDigits_spec (q.num * ((10 ^ q.den / q.den : ℕ) : ℤ)).natAbs
  by_cases hM : q.num * ((10 ^ q.den / q.den : ℕ) : ℤ) < 0
  · rw [if_pos hM, List.cons_append]
    exact ⟨'-', _, rfl, Or.inl rfl⟩
  · rw [if_neg hM]
    obtain ⟨c, t, hct⟩ : ∃ c t,
        natDigits (q.num * ((10 ^ q.den / q.den : ℕ) : ℤ)).natAbs = c :: t := by
      cases h : natDigits (q.num * ((10 ^ q.den / q.den : ℕ) : ℤ)).natAbs with
      | nil => exact absurd h hne
      | cons a b => exact ⟨a, b, rfl⟩
    rw [hct, List.cons_append]
    exact ⟨c, _, rfl, Or.inr (hdig c (hct ▸ List.mem_cons_self c t))⟩

/-- The Number rule consumes exactly a serialized number (plus trailing
whitespace) and reproduces the original rational payload. -/
theorem parse_number_ser {q : ℚ} (hdvd : q.den ∣ 10 ^ q.den)
    (hfin : isFiniteDouble q = true) (rest : Input) (hrest : numBoundary rest) :
    parse_number (serializeNumber q ++ rest) = .ok (dropWS rest) (Value.number q) := by
  obtain ⟨hmdval, hmdne, hmdd⟩ :=
    natDigits_spec (q.num * ((10 ^ q.den / q.den : ℕ) : ℤ)).natAbs
  obtain ⟨hddval, hddne, hddd⟩ := natDigits_spec q.den
  have hD1 : 1 ≤ digitsVal (natDigits q.den) := by
    rw [hddval]
    exact Nat.pos_of_ne_zero (Rat.den_nz q)
  have hrest' : ∀ c t, rest = c :: t → c.isDigit = false := by
    intro c t h
    subst h
    exact hrest
  have hpre : (if q.num * ((10 ^ q.den / q.den : ℕ) : ℤ) < 0 then
        '-' :: natDigits (q.num * ((10 ^ q.den / q.den : ℕ) : ℤ)).natAbs
      else natDigits (q.num * ((10 ^ q.den / q.den : ℕ) : ℤ)).natAbs) =
        natDigits (q.num * ((10 ^ q.den / q.den : ℕ) : ℤ)).natAbs ∨
      (if q.num * ((10 ^ q.den / q.den : ℕ) : ℤ) < 0 then
        '-' :: natDigits (q.num * ((10 ^ q.den / q.den : ℕ) : ℤ)).natAbs
      else natDigits (q.num * ((10 ^ q.den / q.den : ℕ) : ℤ)).natAbs) =
        '-' :: natDigits (q.num * ((10 ^ q.den / q.den : ℕ) : ℤ)).natAbs := by
    by_cases hM : q.num * ((10 ^ q.den / q.den : ℕ) : ℤ) < 0
    · exact Or.inr (if_pos hM)
    · exact Or.inl (if_neg hM)
  have hassoc : serializeNumber q ++ rest =
      (if q.num * ((10 ^ q.den / q.den : ℕ) : ℤ) < 0 then
        '-' :: natDigits (q.num * ((10 ^ q.den / q.den : ℕ) : ℤ)).natAbs
      else natDigits (q.num * ((10 ^ q.den / q.den : ℕ) : ℤ)).natAbs) ++
        ('e' :: '-' :: (natDigits q.den ++ rest)) := by
    rw [serializeNumber_eq, List.append_assoc]
    rfl
  have hfs : floatSyntax (serializeNumber q ++ rest) = .ok rest () := by
    rw [hassoc]
    exact floatSyntax_ser hpre hmdne hmdd hddne hddd hrest'
  have hrf : recognize_float (serializeNumber q ++ rest) = .ok rest (serializeNumber q) :=
    recognize_float_ser hfs
  have hval : ratOfLit (serializeNumber q) = q := by
    rw [serializeNumber_eq]
    by_cases hM : q.num * ((10 ^ q.den / q.den : ℕ) : ℤ) < 0
    · rw [if_pos hM]
      rw [ratOfLit_ser (Or.inr ⟨rfl, rfl⟩) hmdne hmdd hddd hD1, hddval, hmdval]
      rw [show (-1 : ℤ) * ((q.num * ((10 ^ q.den / q.den : ℕ) : ℤ)).natAbs : ℤ) =
        q.num * ((10 ^ q.den / q.den : ℕ) : ℤ) from by omega]
      exact mkRat_serialized q hdvd
    · rw [if_neg hM]
      rw [ratOfLit_ser (Or.inl ⟨rfl, rfl⟩) hmdne hmdd hddd hD1, hddval, hmdval]
      rw [show (1 : ℤ) * ((q.num * ((10 ^ q.den / q.den : ℕ) : ℤ)).natAbs : ℤ) =
        q.num * ((10 ^ q.den / q.den : ℕ) : ℤ) from by omega]
      exact mkRat_serialized q hdvd
  obtain ⟨c0, t0, hser0, hc0⟩ := serializeNumber_head q
  have hc0ws : isWhitespaceChar c0 = false := by
    rcases hc0 with rfl | hdig0
    · decide
    · exact (isDigit_ne hdig0).2.2.2.2.2.2.2.2.2.2.2.2.2.2.2
  have hws1 : dropWS (serializeNumber q ++ rest) = serializeNumber q ++ rest := by
    rw [hser0, List.cons_append]
    exact dropWS_cons_of_not_ws hc0ws _
  have hdel : delimited multispace0 recognize_float multispace0
      (serializeNumber q ++ rest) = .ok (dropWS rest) (serializeNumber q) := by
    rw [delimited_ws_eq, hws1, hrf]
  unfold parse_number
  rw [hdel]
  dsimp only
  rw [hval, if_pos hfin]

theorem escBody_cons (c : Char) (s : List Char) :
    escBody (c :: s) = escapeChar c ++ escBody s := rfl

theorem stringBodyChar_quote_err (r : Input) : stringBodyChar ('"' :: r) = .err := rfl

theorem stringBodyChar_esc_quote (r : Input) :
    stringBodyChar ('\\' :: '"' :: r) = .ok r '"' := rfl

theorem stringBodyChar_esc_backslash (r : Input) :
    stringBodyChar ('\\' :: '\\' :: r) = .ok r '\\' := rfl

theorem stringBodyChar_plain {c : Char} (h1 : c ≠ '"') (h2 : c ≠ '\\') (r : Input) :
    stringBodyChar (c :: r) = .ok r c := by
  have he : parse_escaped_char (c :: r) = .err := by
    unfold parse_escaped_char
    rw [show charP '\\' (c :: r) = if c = '\\' then .ok r c else .err from rfl,
      if_neg h2]
  have hn : none_of ['"', '\\'] (c :: r) = .ok r c := by
    rw [show none_of ['"', '\\'] (c :: r) =
      if c ∈ ['"', '\\'] then .err else .ok r c from rfl,
      if_neg (by simp [h1, h2])]
  unfold stringBodyChar
  rw [altList_cons, pmap_eq_match, he]
  dsimp only
  rw [altList_cons, hn]

/-- The string-body loop consumes exactly an escaped body, stopping at the
closing quote. -/
theorem many0F_escBody : ∀ (s : List Char) (fuel : Nat) (rest : Input),
    (escBody s).length < fuel →
    many0F stringBodyChar fuel (escBody s ++ '"' :: rest) = .ok ('"' :: rest) s := by
  intro s
  induction s with
  | nil =>
    intro fuel rest hf
    cases fuel with
    | zero => omega
    | succ f =>
      rw [show escBody [] ++ '"' :: rest = '"' :: rest from rfl]
      rw [many0F_succ, stringBodyChar_quote_err]
  | cons c s ih =>
    intro fuel rest hf
    have hlenE : (escBody (c :: s)).length = (escapeChar c).length + (escBody s).length := by
      rw [escBody_cons, List.length_append]
    by_cases h1 : c = '"'
    · subst h1
      have hlen1 : (escapeChar '"').length = 2 := rfl
      cases fuel with
      | zero => omega
      | succ f =>
        have hstep : escBody ('"' :: s) ++ '"' :: rest =
            '\\' :: '"' :: (escBody s ++ '"' :: rest) := by
          rw [escBody_cons]
          rfl
        rw [hstep, many0F_succ, stringBodyChar_esc_quote]
        dsimp only
        rw [if_neg (by simp only [List.length_append, List.length_cons]; omega)]
        rw [ih f rest (by omega)]
    · by_cases h2 : c = '\\'
      · subst h2
        have hlen1 : (escapeChar '\\').length = 2 := rfl
        cases fuel with
        | zero => omega
        | succ f =>
          have hstep : escBody ('\\' :: s) ++ '"' :: rest =
              '\\' :: '\\' :: (escBody s ++ '"' :: rest) := by
            rw [escBody_cons]
            rfl
          rw [hstep, many0F_succ, stringBodyChar_esc_backslash]
          dsimp only
          rw [if_neg (by simp only [List.length_append, List.length_cons]; omega)]
          rw [ih f rest (by omega)]
      · have hlen1 : (escapeChar c).length = 1 := by
          rw [show escapeChar c = [c] from by simp [escapeChar, h1, h2]]
          rfl
        cases fuel with
        | zero => omega
        | succ f =>
          have hstep : escBody (c :: s) ++ '"' :: rest =
              c :: (escBody s ++ '"' :: rest) := by
            rw [escBody_cons, show escapeChar c = [c] from by simp [escapeChar, h1, h2]]
            rfl
          rw [hstep, many0F_succ, stringBodyChar_plain h1 h2]
          dsimp only
          rw [if_neg (by simp only [List.length_append, List.length_cons]; omega)]
          rw [ih f rest (by omega)]

/-- The String rule consumes exactly a serialized string literal and decodes
it back to the original character sequence. -/
theorem parse_string_ser (s : List Char) (rest : Input) :
    parse_string (serializeString s ++ rest) = .ok rest (Value.string s) := by
  have hshape : serializeString s ++ rest = '"' :: (escBody s ++ '"' :: rest) := by
    rw [show serializeString s = '"' :: (escBody s ++ ['"']) from rfl]
    rw [List.cons_append, List.append_assoc]
    rfl
  have h1 : charP '"' ('"' :: (escBody s ++ '"' :: rest)) =
      .ok (escBody s ++ '"' :: rest) '"' := rfl
  have hm : many0 stringBodyChar (escBody s ++ '"' :: rest) = .ok ('"' :: rest) s := by
    unfold many0
    refine many0F_escBody s _ rest ?_
    rw [List.length_append]
    omega
  have h2 : charP '"' ('"' :: rest) = .ok rest '"' := rfl
  unfold parse_string delimited
  rw [hshape, pbind_eq, h1]
  dsimp only
  rw [pbind_eq, pmap_eq_match, hm]
  dsimp only
  rw [pmap_eq_match, h2]

/-- Inversion for the alternation: a success comes from one of the
alternatives at the same input. -/
theorem altList_ok_inv : ∀ {ps : List (Parser α)} {i r : Input} {v : α},
    altList ps i = .ok r v → ∃ p ∈ ps, p i = .ok r v := by
  intro ps
  induction ps with
  | nil =>
    intro i r v h
    rw [altList_nil] at h
    exact PResult.noConfusion h
  | cons p ps ih =>
    intro i r v h
    rw [altList_cons] at h
    cases hp : p i with
    | ok r0 v0 =>
      simp only [hp] at h
      injection h with h1 h2
      subst h1
      subst h2
      exact ⟨p, List.mem_cons_self p ps, hp⟩
    | err =>
      simp only [hp] at h
      obtain ⟨p', hmem, hp'⟩ := ih h
      exact ⟨p', List.mem_cons_of_mem p hmem, hp'⟩
    | fail => simp only [hp] at h; exact PResult.noConfusion h
    | panic => simp only [hp] at h; exact PResult.noConfusion h

/-- A successful Number parse yields a finite decimal-literal value. -/
theorem parse_number_ok_inv {i r : Input} {v : Value}
    (h : parse_number i = .ok r v) :
    ∃ s, v = Value.number (ratOfLit s) ∧ isFiniteDouble (ratOfLit s) = true := by
  unfold parse_number at h
  cases hd : delimited multispace0 recognize_float multispace0 i with
  | ok r0 s =>
    simp only [hd] at h
    by_cases hf : isFiniteDouble (ratOfLit s) = true
    · rw [if_pos hf] at h
      injection h with h1 h2
      exact ⟨s, h2.symm, hf⟩
    · rw [if_neg hf] at h
      exact PResult.noConfusion h
  | err => simp only [hd] at h; exact PResult.noConfusion h
  | fail => simp only [hd] at h; exact PResult.noConfusion h
  | panic => simp only [hd] at h; exact PResult.noConfusion h

/-- A successful String parse yields a String value. -/
theorem parse_string_ok_inv {i r : Input} {v : Value}
    (h : parse_string i = .ok r v) : ∃ cs, v = Value.string cs := by
  unfold parse_string at h
  obtain ⟨i1, x, hA, i2, hB, y, hC⟩ := delimited_ok_inv h
  obtain ⟨cs, hS, hv⟩ := pmap_ok_inv hB
  exact ⟨cs, hv⟩

/-- The second component of a parsed pair comes from the second parser. -/
theorem separated_pair_snd_inv {a : Parser α} {s : Parser γ} {b : Parser β}
    {i r : Input} {p : α × β} (h : separated_pair a s b i = .ok r p) :
    ∃ j j', b j = .ok j' p.2 := by
  unfold separated_pair at h
  cases ha : a i with
  | ok i1 x =>
    rw [pbind_eq, ha] at h
    dsimp only at h
    cases hs : s i1 with
    | ok i2 y =>
      rw [pbind_eq, hs] at h
      dsimp only at h
      obtain ⟨w, hw, hv⟩ := pmap_ok_inv h
      exact ⟨i2, r, by rw [hw, hv]⟩
    | err => rw [pbind_eq, hs] at h; exact PResult.noConfusion h
    | fail => rw [pbind_eq, hs] at h; exact PResult.noConfusion h
    | panic => rw [pbind_eq, hs] at h; exact PResult.noConfusion h
  | err => rw [pbind_eq, ha] at h; exact PResult.noConfusion h
  | fail => rw [pbind_eq, ha] at h; exact PResult.noConfusion h
  | panic => rw [pbind_eq, ha] at h; exact PResult.noConfusion h

/-- A successful run of the object rule builds its value from parsed pairs
whose second components come from the value parser. -/
theorem objectRule_sound (elem : Parser Value) (i r : Input) (v : Value)
    (h : objectRule elem i = .ok r v) :
    ∃ pairs, v = buildObjectMap pairs ∧
      ∀ kv ∈ pairs, ∃ j j', elem j = .ok j' kv.2 := by
  unfold objectRule at h
  obtain ⟨i1, x, hA, i2, hB, y, hC⟩ := delimited_ok_inv h
  obtain ⟨pairs, hS, hv⟩ := pmap_ok_inv hB
  refine ⟨pairs, hv, ?_⟩
  intro kv hkv
  obtain ⟨j, j', hpair⟩ := separated_list0_sound _ _ _ _ _ hS kv hkv
  exact separated_pair_snd_inv hpair

/-- Membership in an updated association list. -/
theorem insertEntry_mem {m : List (List Char × Value)} {k : List Char} {v : Value}
    {pr : List Char × Value} (h : pr ∈ insertEntry m k v) :
    pr = (k, v) ∨ pr ∈ m := by
  induction m with
  | nil =>
    rw [show insertEntry [] k v = [(k, v)] from rfl] at h
    exact Or.inl (List.mem_singleton.mp h)
  | cons e m ih =>
    rw [show insertEntry (e :: m) k v =
      if e.1 = k then (k, v) :: m else e :: insertEntry m k v from by
        cases e
        rfl] at h
    by_cases he : e.1 = k
    · rw [if_pos he] at h
      rcases List.mem_cons.mp h with h | h
      · exact Or.inl h
      · exact Or.inr (List.mem_cons_of_mem e h)
    · rw [if_neg he] at h
      rcases List.mem_cons.mp h with h | h
      · exact Or.inr (h ▸ List.mem_cons_self e m)
      · rcases ih h with h | h
        · exact Or.inl h
        · exact Or.inr (List.mem_cons_of_mem e h)

/-- The keys of an updated association list. -/
theorem insertEntry_keys (m : List (List Char × Value)) (k : List Char) (v : Value) :
    (insertEntry m k v).map Prod.fst =
      if k ∈ m.map Prod.fst then m.map Prod.fst else m.map Prod.fst ++ [k] := by
  induction m with
  | nil => simp [insertEntry]
  | cons e m ih =>
    rw [show insertEntry (e :: m) k v =
      if e.1 = k then (k, v) :: m else e :: insertEntry m k v from by
        cases e
        rfl]
    by_cases he : e.1 = k
    · rw [if_pos he]
      have hmem : k ∈ (e :: m).map Prod.fst := by
        rw [List.map_cons, ← he]
        exact List.mem_cons_self _ _
      rw [if_pos hmem, List.map_cons, List.map_cons, he]
    · rw [if_neg he, List.map_cons, ih]
      by_cases hk : k ∈ m.map Prod.fst
      · rw [if_pos hk]
        have hmem : k ∈ (e :: m).map Prod.fst := by
          rw [List.map_cons]
          exact List.mem_cons_of_mem _ hk
        rw [if_pos hmem, List.map_cons]
      · rw [if_neg hk]
        have hmem : ¬ k ∈ (e :: m).map Prod.fst := by
          rw [List.map_cons]
          intro hcon
          rcases List.mem_cons.mp hcon with h1 | h1
          · exact he h1.symm
          · exact hk h1
        rw [if_neg hmem, List.map_cons, List.cons_append]

/-- Updating an association list preserves key distinctness. -/
theorem insertEntry_keys_nodup {m : List (List Char × Value)} {k : List Char}
    {v : Value} (h : (m.map Prod.fst).Nodup) :
    ((insertEntry m k v).map Prod.fst).Nodup := by
  rw [insertEntry_keys]
  by_cases hk : k ∈ m.map Prod.fst
  · rw [if_pos hk]
    exact h
  · rw [if_neg hk]
    rw [List.nodup_append]
    exact ⟨h, List.nodup_singleton k, by
      intro a ha hb
      rw [List.mem_singleton.mp hb] at ha
      exact hk ha⟩

/-- The object fold only ever carries association lists with distinct keys. -/
theorem objectEntriesFold_nodup_aux :
    ∀ (pairs : List (Value × Value)) (acc : List (List Char × Value)),
      (acc.map Prod.fst).Nodup →
      ((pairs.foldl
        (fun m kv =>
          match kv with
          | (Value.string k, v) => insertEntry m k v
          | _ => m) acc).map Prod.fst).Nodup := by
  intro pairs
  induction pairs with
  | nil => intro acc h; exact h
  | cons kv pairs ih =>
    intro acc h
    rw [List.foldl_cons]
    apply ih
    rcases kv with ⟨key, val⟩
    cases key with
    | string k => exact insertEntry_keys_nodup h
    | null => exact h
    | bool b => exact h
    | number q => exact h
    | array vs => exact h
    | object es => exact h

/-- The entries built by the object fold have pairwise distinct keys. -/
theorem objectEntriesFold_nodup (pairs : List (Value × Value)) :
    ((objectEntriesFold pairs).map Prod.fst).Nodup :=
  objectEntriesFold_nodup_aux pairs [] List.nodup_nil

/-- Every value in the built object comes from one of the parsed pairs. -/
theorem objectEntriesFold_values_aux :
    ∀ (pairs : List (Value × Value)) (acc : List (List Char × Value))
      (pr : List Char × Value),
      pr ∈ pairs.foldl
        (fun m kv =>
          match kv with
          | (Value.string k, v) => insertEntry m k v
          | _ => m) acc →
      pr ∈ acc ∨ ∃ kv ∈ pairs, pr.2 = kv.2 := by
  intro pairs
  induction pairs with
  | nil => intro acc pr h; exact Or.inl h
  | cons kv pairs ih =>
    intro acc pr h
    rw [List.foldl_cons] at h
    rcases ih _ pr h with hacc | ⟨kv', hkv', hval⟩
    · rcases kv with ⟨key, val⟩
      cases key with
      | string k =>
        rcases insertEntry_mem hacc with heq | hm
        · exact Or.inr ⟨(Value.string k, val), List.mem_cons_self _ _, by rw [heq]⟩
        · exact Or.inl hm
      | null => exact Or.inl hacc
      | bool b => exact Or.inl hacc
      | number q => exact Or.inl hacc
      | array vs => exact Or.inl hacc
      | object es => exact Or.inl hacc
    · exact Or.inr ⟨kv', List.mem_cons_of_mem kv hkv', hval⟩

theorem objectEntriesFold_values {pairs : List (Value × Value)}
    {pr : List Char × Value} (h : pr ∈ objectEntriesFold pairs) :
    ∃ kv ∈ pairs, pr.2 = kv.2 := by
  rcases objectEntriesFold_values_aux pairs [] pr h with hacc | hh
  · exact absurd hacc (by simp)
  · exact hh

/-- Soundness of the parse tree: every successful parse satisfies the
`Good` invariant (finite decimal numbers, distinct object keys). -/
theorem parsePrimaryF_good : ∀ (n : Nat) (i r : Input) (v : Value),
    parsePrimaryF n i = .ok r v → Good v := by
  intro n
  induction n with
  | zero =>
    intro i r v h
    exact PResult.noConfusion ((rfl : parsePrimaryF 0 i = PResult.err) ▸ h)
  | succ n ih =>
    intro i r v h
    rw [parsePrimaryF_succ, delimited_ws_eq] at h
    cases halt : altList
        [parse_null, parse_bool, parse_number, parse_string,
         arrayRule (fun k => parsePrimaryF n k),
         objectRule (fun k => parsePrimaryF n k)] (dropWS i) with
    | ok r0 v0 =>
      simp only [halt] at h
      injection h with h1 h2
      subst h2
      obtain ⟨p, hmem, hp⟩ := altList_ok_inv halt
      simp only [List.mem_cons, List.not_mem_nil, or_false] at hmem
      rcases hmem with rfl | rfl | rfl | rfl | rfl | rfl
      · rw [((parse_null_iff _ _ _).mp hp).1]
        exact Good.null
      · rcases (parse_bool_iff _ _ _).mp hp with ⟨hv, _⟩ | ⟨hv, _⟩
        · rw [hv]; exact Good.bool true
        · rw [hv]; exact Good.bool false
      · obtain ⟨s, hv, hfin⟩ := parse_number_ok_inv hp
        rw [hv]
        exact Good.number _ (ratOfLit_den_dvd s) hfin
      · obtain ⟨cs, hv⟩ := parse_string_ok_inv hp
        rw [hv]
        exact Good.string cs
      · obtain ⟨vs, hv, hel⟩ := arrayRule_sound _ _ _ _ hp
        rw [hv]
        refine Good.array vs ?_
        intro w hw
        obtain ⟨j, j', hj⟩ := hel w hw
        exact ih j j' w hj
      · obtain ⟨pairs, hv, hel⟩ := objectRule_sound _ _ _ _ hp
        rw [hv]
        unfold buildObjectMap
        refine Good.object _ ?_ (objectEntriesFold_nodup pairs)
        intro pr hpr
        obtain ⟨kv, hkv, hval⟩ := objectEntriesFold_values hpr
        obtain ⟨j, j', hj⟩ := hel kv hkv
        rw [hval]
        exact ih j j' kv.2 hj
    | err => simp only [halt] at h; exact PResult.noConfusion h
    | fail => simp only [halt] at h; exact PResult.noConfusion h
    | panic => simp only [halt] at h; exact PResult.noConfusion h

theorem serialize_null_eq : serialize Value.null = ['n', 'u', 'l', 'l'] := by
  simp [serialize]

theorem serialize_true_eq : serialize (Value.bool true) = ['t', 'r', 'u', 'e'] := by
  simp [serialize]

theorem serialize_false_eq : serialize (Value.bool false) = ['f', 'a', 'l', 's', 'e'] := by
  simp [serialize]

theorem serialize_number_val (q : ℚ) : serialize (Value.number q) = serializeNumber q := by
  simp [serialize]

theorem serialize_string_val (s : List Char) :
    serialize (Value.string s) = serializeString s := by
  simp [serialize]

theorem serialize_array_val (vs : List Value) :
    serialize (Value.array vs) = '[' :: (serializeElems vs ++ [']']) := by
  simp [serialize]

theorem serialize_object_val (ps : List (List Char × Value)) :
    serialize (Value.object ps) = '\x7b' :: (serializeEntries ps ++ ['\x7d']) := by
  simp [serialize]

theorem serializeElems_eq_join : ∀ vs, serializeElems vs = joinSer serialize vs := by
  intro vs
  induction vs with
  | nil => simp [serializeElems, joinSer]
  | cons v vs ih =>
    cases vs with
    | nil => simp [serializeElems, joinSer]
    | cons w ws =>
      rw [show joinSer serialize (v :: w :: ws) =
        serialize v ++ ',' :: joinSer serialize (w :: ws) from rfl]
      rw [← ih]
      simp [serializeElems]

theorem serializeParsedEntry_eq (k : List Char) (v : Value) :
    serializeParsedEntry (Value.string k, v) = serializeString k ++ ':' :: serialize v := rfl

theorem joinSer_map_entries : ∀ ps : List (List Char × Value),
    joinSer serializeParsedEntry (ps.map (fun p => (Value.string p.1, p.2))) =
      serializeEntries ps := by
  intro ps
  induction ps with
  | nil => simp [serializeEntries, joinSer]
  | cons p ps ih =>
    cases ps with
    | nil =>
      rcases p with ⟨k, v⟩
      rw [show (([(k, v)] : List (List Char × Value)).map
        (fun p => (Value.string p.1, p.2))) = [(Value.string k, v)] from rfl]
      rw [show joinSer serializeParsedEntry [(Value.string k, v)] =
        serializeParsedEntry (Value.string k, v) from rfl]
      rw [serializeParsedEntry_eq]
      simp [serializeEntries]
    | cons p' ps' =>
      rcases p with ⟨k, v⟩
      rw [show (((k, v) :: p' :: ps').map (fun p => (Value.string p.1, p.2))) =
        (Value.string k, v) :: (p' :: ps').map (fun p => (Value.string p.1, p.2)) from rfl]
      have hne : (p' :: ps').map (fun p => (Value.string p.1, p.2)) =
          (Value.string p'.1, p'.2) :: ps'.map (fun p => (Value.string p.1, p.2)) := rfl
      rw [hne]
      rw [show joinSer serializeParsedEntry ((Value.string k, v) ::
          (Value.string p'.1, p'.2) :: ps'.map (fun p => (Value.string p.1, p.2))) =
        serializeParsedEntry (Value.string k, v) ++ ',' ::
          joinSer serializeParsedEntry ((Value.string p'.1, p'.2) ::
            ps'.map (fun p => (Value.string p.1, p.2))) from rfl]
      rw [← hne, ih, serializeParsedEntry_eq]
      rcases p' with ⟨k', v'⟩
      simp [serializeEntries]

/-- Every serialized value begins with a non-whitespace character. -/
theorem serialize_head_notws (v : Value) :
    ∃ c t, serialize v = c :: t ∧ isWhitespaceChar c = false := by
  cases v with
  | null => exact ⟨'n', _, serialize_null_eq, by decide⟩
  | bool b =>
    cases b with
    | true => exact ⟨'t', _, serialize_true_eq, by decide⟩
    | false => exact ⟨'f', _, serialize_false_eq, by decide⟩
  | number q =>
    obtain ⟨c, t, hct, hc⟩ := serializeNumber_head q
    refine ⟨c, t, by rw [serialize_number_val, hct], ?_⟩
    rcases hc with rfl | hdig
    · decide
    · exact (isDigit_ne hdig).2.2.2.2.2.2.2.2.2.2.2.2.2.2.2
  | string s =>
    exact ⟨'"', _, by
      rw [serialize_string_val, show serializeString s = '"' :: (escBody s ++ ['"'])
        from rfl], by decide⟩
  | array vs => exact ⟨'[', _, serialize_array_val vs, by decide⟩
  | object ps => exact ⟨'\x7b', _, serialize_object_val ps, by decide⟩

theorem joinSer_cons_append (serE : α → List Char) (close : Char) (x : α)
    (l : List α) (rest : Input) :
    joinSer serE (x :: l) ++ close :: rest = serE x ++ loopInG serE close l rest := by
  cases l with
  | nil =>
    rw [show joinSer serE [x] = serE x from rfl,
      show loopInG serE close [] rest = close :: rest from rfl]
  | cons y l' =>
    rw [show joinSer serE (x :: y :: l') = serE x ++ ',' :: joinSer serE (y :: l')
      from rfl]
    rw [show loopInG serE close (y :: l') rest =
      ',' :: (joinSer serE (y :: l') ++ close :: rest) from rfl]
    rw [List.append_assoc]
    rfl

theorem commaWs_close {close : Char} (hws : isWhitespaceChar close = false)
    (hcc : close ≠ ',') (rest : Input) :
    delimited multispace0 (charP ',') multispace0 (close :: rest) = .err := by
  rw [delimited_ws_eq, dropWS_cons_of_not_ws hws]
  rw [show charP ',' (close :: rest) =
    if close = ',' then PResult.ok rest close else PResult.err from rfl, if_neg hcc]

theorem commaWs_consume (X : Input) :
    delimited multispace0 (charP ',') multispace0 (',' :: X) =
      .ok (dropWS X) ',' := by
  rw [delimited_ws_eq, dropWS_cons_of_not_ws (by decide)]
  rw [show charP ',' (',' :: X) = PResult.ok X ',' from rfl]

/-- The separator loop of `separated_list0` consumes the remaining serialized
elements of `l` (comma-separated), stopping exactly at the closing
character. -/
theorem sepLoopF_join (elemP : Parser α) (serE : α → List Char) (close : Char)
    (L : Nat) (hcws : isWhitespaceChar close = false) (hcd : close.isDigit = false)
    (hcc : close ≠ ',') :
    ∀ (l : List α) (rest : Input) (fuel : Nat),
      (∀ x ∈ l, ∃ c t, serE x = c :: t ∧ isWhitespaceChar c = false) →
      (∀ x ∈ l, ∀ tail, numBoundary tail → (serE x ++ tail).length ≤ L →
        elemP (serE x ++ tail) = .ok (dropWS tail) x) →
      (loopInG serE close l rest).length < fuel →
      (loopInG serE close l rest).length ≤ L + 1 →
      sepLoopF (delimited multispace0 (charP ',') multispace0) elemP fuel
        (loopInG serE close l rest) = .ok (close :: rest) l := by
  intro l
  induction l with
  | nil =>
    intro rest fuel _ _ hf _
    rw [show loopInG serE close [] rest = close :: rest from rfl] at hf ⊢
    cases fuel with
    | zero => exact absurd hf (by omega)
    | succ f =>
      rw [sepLoopF_succ, commaWs_close hcws hcc rest]
  | cons x l ih =>
    intro rest fuel hser helem hf hL
    have hloopIn : loopInG serE close (x :: l) rest =
        ',' :: (serE x ++ loopInG serE close l rest) := by
      rw [show loopInG serE close (x :: l) rest =
        ',' :: (joinSer serE (x :: l) ++ close :: rest) from rfl,
        joinSer_cons_append]
    obtain ⟨c, t, hce, hcw⟩ := hser x (List.mem_cons_self x l)
    have hlser : (serE x).length = t.length + 1 := by
      rw [hce]
      rfl
    have hnb : numBoundary (loopInG serE close l rest) := by
      cases l with
      | nil =>
        rw [show loopInG serE close [] rest = close :: rest from rfl]
        exact hcd
      | cons y l' =>
        rw [show loopInG serE close (y :: l') rest =
          ',' :: (joinSer serE (y :: l') ++ close :: rest) from rfl]
        show (',' : Char).isDigit = false
        decide
    have hdws : dropWS (loopInG serE close l rest) = loopInG serE close l rest := by
      cases l with
      | nil =>
        rw [show loopInG serE close [] rest = close :: rest from rfl]
        exact dropWS_cons_of_not_ws hcws _
      | cons y l' =>
        rw [show loopInG serE close (y :: l') rest =
          ',' :: (joinSer serE (y :: l') ++ close :: rest) from rfl]
        exact dropWS_cons_of_not_ws (by decide) _
    rw [hloopIn] at hf hL ⊢
    have hlen1 : (',' :: (serE x ++ loopInG serE close l rest)).length =
        (serE x).length + (loopInG serE close l rest).length + 1 := by
      rw [List.length_cons, List.length_append]
    cases fuel with
    | zero => exact absurd hf (by omega)
    | succ f =>
      rw [sepLoopF_succ, commaWs_consume]
      have hdrop2 : dropWS (serE x ++ loopInG serE close l rest) =
          serE x ++ loopInG serE close l rest := by
        rw [hce, List.cons_append]
        exact dropWS_cons_of_not_ws hcw _
      rw [hdrop2]
      dsimp only
      rw [if_neg (by
        rw [List.length_cons]
        omega)]
      rw [helem x (List.mem_cons_self x l) (loopInG serE close l rest) hnb
        (by rw [hlen1] at hL; rw [List.length_append]; omega)]
      dsimp only
      rw [hdws]
      rw [ih rest f
        (fun y hy => hser y (List.mem_cons_of_mem x hy))
        (fun y hy => helem y (List.mem_cons_of_mem x hy))
        (by rw [hlen1] at hf; omega) (by rw [hlen1] at hL; omega)]

/-- `separated_list0` consumes exactly the comma-joined serializations of `l`,
stopping at the closing character. -/
theorem separated_list0_join (elemP : Parser α) (serE : α → List Char)
    (close : Char) (L : Nat) (hcws : isWhitespaceChar close = false)
    (hcd : close.isDigit = false) (hcc : close ≠ ',')
    (l : List α) (rest : Input)
    (hser : ∀ x ∈ l, ∃ c t, serE x = c :: t ∧ isWhitespaceChar c = false)
    (helem : ∀ x ∈ l, ∀ tail, numBoundary tail → (serE x ++ tail).length ≤ L →
      elemP (serE x ++ tail) = .ok (dropWS tail) x)
    (hstop : ∀ t, elemP (close :: t) = .err)
    (hL : (joinSer serE l ++ close :: rest).length ≤ L) :
    separated_list0 (delimited multispace0 (charP ',') multispace0) elemP
      (joinSer serE l ++ close :: rest) = .ok (close :: rest) l := by
  cases l with
  | nil =>
    rw [show joinSer serE [] ++ close :: rest = close :: rest from rfl]
    unfold separated_list0
    rw [hstop rest]
  | cons x l =>
    rw [joinSer_cons_append] at hL ⊢
    have hnb : numBoundary (loopInG serE close l rest) := by
      cases l with
      | nil =>
        rw [show loopInG serE close [] rest = close :: rest from rfl]
        exact hcd
      | cons y l' =>
        rw [show loopInG serE close (y :: l') rest =
          ',' :: (joinSer serE (y :: l') ++ close :: rest) from rfl]
        show (',' : Char).isDigit = false
        decide
    have hdws : dropWS (loopInG serE close l rest) = loopInG serE close l rest := by
      cases l with
      | nil =>
        rw [show loopInG serE close [] rest = close :: rest from rfl]
        exact dropWS_cons_of_not_ws hcws _
      | cons y l' =>
        rw [show loopInG serE close (y :: l') rest =
          ',' :: (joinSer serE (y :: l') ++ close :: rest) from rfl]
        exact dropWS_cons_of_not_ws (by decide) _
    unfold separated_list0
    rw [helem x (List.mem_cons_self x l) (loopInG serE close l rest) hnb hL]
    dsimp only
    rw [hdws]
    rw [sepLoopF_join elemP serE close L hcws hcd hcc l rest
      ((loopInG serE close l rest).length + 1)
      (fun y hy => hser y (List.mem_cons_of_mem x hy))
      (fun y hy => helem y (List.mem_cons_of_mem x hy))
      (by omega)
      (by rw [List.length_append] at hL; omega)]

theorem keywordRule_err_head {c : Char} {t : Input} (hws : isWhitespaceChar c = false)
    {k0 : Char} (kt : List Char) (hne : c ≠ k0) :
    delimited multispace0 (tag (k0 :: kt)) multispace0 (c :: t) = .err := by
  rw [delimited_ws_eq, dropWS_cons_of_not_ws hws]
  rw [show tag (k0 :: kt) (c :: t) =
    (match strip (k0 :: kt) (c :: t) with
      | some r => PResult.ok r (k0 :: kt)
      | none => PResult.err) from rfl]
  rw [show strip (k0 :: kt) (c :: t) = if c = k0 then strip kt t else none from rfl,
    if_neg hne]

theorem parse_null_err_head {c : Char} {t : Input} (hws : isWhitespaceChar c = false)
    (hne : c ≠ 'n') : parse_null (c :: t) = .err := by
  unfold parse_null pvalue
  rw [pmap_eq_match]
  rw [show ("null".toList) = 'n' :: ['u', 'l', 'l'] from rfl]
  rw [keywordRule_err_head hws ['u', 'l', 'l'] hne]

theorem parse_bool_err_head {c : Char} {t : Input} (hws : isWhitespaceChar c = false)
    (hnt : c ≠ 't') (hnf : c ≠ 'f') : parse_bool (c :: t) = .err := by
  have h1 : pvalue (Value.bool true)
      (delimited multispace0 (tag ("true".toList)) multispace0) (c :: t) = .err := by
    unfold pvalue
    rw [pmap_eq_match]
    rw [show ("true".toList) = 't' :: ['r', 'u', 'e'] from rfl]
    rw [keywordRule_err_head hws ['r', 'u', 'e'] hnt]
  have h2 : pvalue (Value.bool false)
      (delimited multispace0 (tag ("false".toList)) multispace0) (c :: t) = .err := by
    unfold pvalue
    rw [pmap_eq_match]
    rw [show ("false".toList) = 'f' :: ['a', 'l', 's', 'e'] from rfl]
    rw [keywordRule_err_head hws ['a', 'l', 's', 'e'] hnf]
  unfold parse_bool
  rw [altList_cons, h1]
  dsimp only
  rw [altList_cons, h2]
  dsimp only
  rw [altList_nil]

theorem parsePrimaryF_err_rbracket : ∀ (n : Nat) (t : Input),
    parsePrimaryF n (']' :: t) = .err := by
  intro n t
  cases n with
  | zero => rfl
  | succ m => rfl

theorem parsePrimaryF_err_rbrace : ∀ (n : Nat) (t : Input),
    parsePrimaryF n ('\x7d' :: t) = .err := by
  intro n t
  cases n with
  | zero => rfl
  | succ m => rfl

theorem pairRule_err_rbrace (elemP : Parser Value) (t : Input) :
    separated_pair (delimited multispace0 parse_string multispace0)
      (charP ':') elemP ('\x7d' :: t) = .err := rfl

/-- A serialized object entry parses to the original key/value pair. -/
theorem separated_pair_ser {elemP : Parser Value} {k : List Char} {v : Value}
    {tail : Input}
    (helem : elemP (serialize v ++ tail) = .ok (dropWS tail) v) :
    separated_pair (delimited multispace0 parse_string multispace0)
      (charP ':') elemP
      (serializeString k ++ ':' :: (serialize v ++ tail)) =
      .ok (dropWS tail) (Value.string k, v) := by
  have hA : delimited multispace0 parse_string multispace0
      (serializeString k ++ ':' :: (serialize v ++ tail)) =
      .ok (':' :: (serialize v ++ tail)) (Value.string k) := by
    rw [delimited_ws_eq]
    have hd : dropWS (serializeString k ++ ':' :: (serialize v ++ tail)) =
        serializeString k ++ ':' :: (serialize v ++ tail) := by
      rw [show serializeString k = '"' :: (escBody k ++ ['"']) from rfl,
        List.cons_append]
      exact dropWS_cons_of_not_ws (by decide) _
    rw [hd, parse_string_ser]
    dsimp only
    rw [dropWS_cons_of_not_ws (by decide)]
  unfold separated_pair
  rw [pbind_eq, hA]
  dsimp only
  rw [pbind_eq,
    show charP ':' (':' :: (serialize v ++ tail)) =
      PResult.ok (serialize v ++ tail) ':' from rfl]
  dsimp only
  rw [pmap_eq_match, helem]

theorem insertEntry_append_fresh {m : List (List Char × Value)} {k : List Char}
    {v : Value} (h : ¬ k ∈ m.map Prod.fst) : insertEntry m k v = m ++ [(k, v)] := by
  induction m with
  | nil => rfl
  | cons e m ih =>
    rw [show insertEntry (e :: m) k v =
      if e.1 = k then (k, v) :: m else e :: insertEntry m k v from by
        cases e
        rfl]
    have he : e.1 ≠ k := by
      intro hh
      exact h (by rw [List.map_cons, ← hh]; exact List.mem_cons_self _ _)
    rw [if_neg he, ih (by
      intro hh
      exact h (by rw [List.map_cons]; exact List.mem_cons_of_mem _ hh))]
    rfl

/-- Folding distinct-keyed parsed entries into the object map reproduces the
entry list. -/
theorem objectEntriesFold_roundtrip_aux :
    ∀ (ps : List (List Char × Value)) (acc : List (List Char × Value)),
      (∀ k ∈ ps.map Prod.fst, ¬ k ∈ acc.map Prod.fst) →
      (ps.map Prod.fst).Nodup →
      (ps.map (fun p => (Value.string p.1, p.2))).foldl
        (fun m kv =>
          match kv with
          | (Value.string k, v) => insertEntry m k v
          | _ => m) acc = acc ++ ps := by
  intro ps
  induction ps with
  | nil =>
    intro acc _ _
    simp
  | cons p ps ih =>
    intro acc hfresh hnodup
    rcases p with ⟨k, v⟩
    rw [show ((k, v) :: ps).map (fun p => (Value.string p.1, p.2)) =
      (Value.string k, v) :: ps.map (fun p => (Value.string p.1, p.2)) from rfl]
    rw [List.foldl_cons]
    have hk : ¬ k ∈ acc.map Prod.fst :=
      hfresh k (by rw [List.map_cons]; exact List.mem_cons_self _ _)
    dsimp only
    rw [insertEntry_append_fresh hk]
    rw [List.map_cons] at hnodup
    have hnd := List.nodup_cons.mp hnodup
    rw [ih (acc ++ [(k, v)]) (by
      intro k' hk'
      rw [List.map_append]
      intro hmem
      rcases List.mem_append.mp hmem with hm | hm
      · exact hfresh k' (by rw [List.map_cons]; exact List.mem_cons_of_mem _ hk') hm
      · have : k' = k := by simpa using hm
        exact hnd.1 (this ▸ hk')) hnd.2]
    rw [List.append_assoc]
    rfl

theorem objectEntriesFold_roundtrip {ps : List (List Char × Value)}
    (hk : (ps.map Prod.fst).Nodup) :
    objectEntriesFold (ps.map (fun p => (Value.string p.1, p.2))) = ps := by
  unfold objectEntriesFold
  rw [objectEntriesFold_roundtrip_aux ps [] (by intro k _ hx; simp at hx) hk]
  rfl

theorem delimited_eq (a : Parser α) (b : Parser β) (c : Parser γ) (i : Input) :
    delimited a b c i =
      match a i with
      | .ok i1 _ =>
        (match b i1 with
         | .ok i2 v =>
           (match c i2 with
            | .ok r _ => .ok r v
            | .err => .err
            | .fail => .fail
            | .panic => .panic)
         | .err => .err
         | .fail => .fail
         | .panic => .panic)
      | .err => .err
      | .fail => .fail
      | .panic => .panic := by
  unfold delimited pbind pmap
  cases a i with
  | ok i1 x =>
    cases b i1 with
    | ok i2 v => cases c i2 <;> rfl
    | err => rfl
    | fail => rfl
    | panic => rfl
  | err => rfl
  | fail => rfl
  | panic => rfl

/-- Completeness of the round trip: parsing the serialization of a `Good`
value, followed by any remainder that cannot extend a numeric literal,
succeeds, consumes exactly the serialization (plus leading remainder
whitespace), and reproduces the value. -/
theorem serialize_reparse : ∀ (N : Nat) (v : Value), sizeOf v ≤ N → Good v →
    ∀ (n : Nat) (rest : Input), (serialize v ++ rest).length < n →
      numBoundary rest →
      parsePrimaryF n (serialize v ++ rest) = .ok (dropWS rest) v := by
  intro N
  induction N using Nat.strong_induction_on with
  | _ N IH =>
  intro v hsz hg n rest hlen hnb
  cases n with
  | zero => exact absurd hlen (by omega)
  | succ m =>
  rw [parsePrimaryF_succ, delimited_ws_eq]
  obtain ⟨c0, t0, hser0, hws0⟩ := serialize_head_notws v
  have hdws0 : dropWS (serialize v ++ rest) = serialize v ++ rest := by
    rw [hser0, List.cons_append]
    exact dropWS_cons_of_not_ws hws0 _
  rw [hdws0]
  cases hg with
  | null =>
    rw [serialize_null_eq]
    rw [show (['n', 'u', 'l', 'l'] : List Char) ++ rest =
      'n' :: 'u' :: 'l' :: 'l' :: rest from rfl]
    rw [altList_cons, show parse_null ('n' :: 'u' :: 'l' :: 'l' :: rest) =
      PResult.ok (dropWS rest) Value.null from rfl]
    dsimp only
    rw [dropWS_idem]
  | bool b =>
    cases b with
    | true =>
      rw [serialize_true_eq]
      rw [show (['t', 'r', 'u', 'e'] : List Char) ++ rest =
        't' :: 'r' :: 'u' :: 'e' :: rest from rfl]
      rw [altList_cons, show parse_null ('t' :: 'r' :: 'u' :: 'e' :: rest) =
        PResult.err from rfl]
      dsimp only
      rw [altList_cons, show parse_bool ('t' :: 'r' :: 'u' :: 'e' :: rest) =
        PResult.ok (dropWS rest) (Value.bool true) from rfl]
      dsimp only
      rw [dropWS_idem]
    | false =>
      rw [serialize_false_eq]
      rw [show (['f', 'a', 'l', 's', 'e'] : List Char) ++ rest =
        'f' :: 'a' :: 'l' :: 's' :: 'e' :: rest from rfl]
      rw [altList_cons, show parse_null ('f' :: 'a' :: 'l' :: 's' :: 'e' :: rest) =
        PResult.err from rfl]
      dsimp only
      rw [altList_cons, show parse_bool ('f' :: 'a' :: 'l' :: 's' :: 'e' :: rest) =
        PResult.ok (dropWS rest) (Value.bool false) from rfl]
      dsimp only
      rw [dropWS_idem]
  | number q hden hfin =>
    rw [serialize_number_val]
    obtain ⟨c, t, hct, hc⟩ := serializeNumber_head q
    have hfacts : isWhitespaceChar c = false ∧ c ≠ 'n' ∧ c ≠ 't' ∧ c ≠ 'f' := by
      rcases hc with rfl | hdig
      · exact ⟨by decide, by decide, by decide, by decide⟩
      · obtain ⟨_, _, _, _, _, _, _, _, _, _, _, _, hn, ht', hf', hws⟩ :=
          isDigit_ne hdig
        exact ⟨hws, hn, ht', hf'⟩
    have h0 : parse_null (serializeNumber q ++ rest) = .err := by
      rw [hct, List.cons_append]
      exact parse_null_err_head hfacts.1 hfacts.2.1
    have h1 : parse_bool (serializeNumber q ++ rest) = .err := by
      rw [hct, List.cons_append]
      exact parse_bool_err_head hfacts.1 hfacts.2.2.1 hfacts.2.2.2
    rw [altList_cons, h0]
    dsimp only
    rw [altList_cons, h1]
    dsimp only
    rw [altList_cons, parse_number_ser hden hfin rest hnb]
    dsimp only
    rw [dropWS_idem]
  | string s =>
    rw [serialize_string_val]
    have hshape : serializeString s ++ rest = '"' :: ((escBody s ++ ['"']) ++ rest) := by
      rw [show serializeString s = '"' :: (escBody s ++ ['"']) from rfl,
        List.cons_append]
    have h3 : parse_string (serializeString s ++ rest) = .ok rest (Value.string s) :=
      parse_string_ser s rest
    rw [hshape] at h3 ⊢
    rw [altList_cons, show parse_null ('"' :: ((escBody s ++ ['"']) ++ rest)) =
      PResult.err from rfl]
    dsimp only
    rw [altList_cons, show parse_bool ('"' :: ((escBody s ++ ['"']) ++ rest)) =
      PResult.err from rfl]
    dsimp only
    rw [altList_cons, show parse_number ('"' :: ((escBody s ++ ['"']) ++ rest)) =
      PResult.err from rfl]
    dsimp only
    rw [altList_cons, h3]
  | array vs hvs =>
    rw [serialize_array_val] at hlen ⊢
    have hlen2 : (serializeElems vs).length + rest.length + 2 < m + 1 := by
      rw [List.cons_append, List.length_cons, List.length_append,
        List.length_append] at hlen
      simp only [List.length_cons, List.length_nil] at hlen
      omega
    have hshape : ('[' :: (serializeElems vs ++ [']'])) ++ rest =
        '[' :: (serializeElems vs ++ (']' :: rest)) := by
      rw [List.cons_append, List.append_assoc]
      rfl
    rw [hshape]
    rw [altList_cons, show parse_null ('[' :: (serializeElems vs ++ (']' :: rest))) =
      PResult.err from rfl]
    dsimp only
    rw [altList_cons, show parse_bool ('[' :: (serializeElems vs ++ (']' :: rest))) =
      PResult.err from rfl]
    dsimp only
    rw [altList_cons, show parse_number ('[' :: (serializeElems vs ++ (']' :: rest))) =
      PResult.err from rfl]
    dsimp only
    rw [altList_cons, show parse_string ('[' :: (serializeElems vs ++ (']' :: rest))) =
      PResult.err from rfl]
    dsimp only
    have hXd : dropWS (serializeElems vs ++ (']' :: rest)) =
        serializeElems vs ++ (']' :: rest) := by
      cases vs with
      | nil =>
        rw [show serializeElems ([] : List Value) = [] from by simp [serializeElems],
          List.nil_append]
        exact dropWS_cons_of_not_ws (by decide) _
      | cons w l =>
        obtain ⟨Y, hY⟩ : ∃ Y, serializeElems (w :: l) = serialize w ++ Y := by
          cases l with
          | nil => exact ⟨[], by simp [serializeElems]⟩
          | cons w' l' => exact ⟨',' :: serializeElems (w' :: l'), by simp [serializeElems]⟩
        obtain ⟨c1, t1, hc1, hw1⟩ := serialize_head_notws w
        rw [hY, hc1, List.cons_append, List.cons_append]
        exact dropWS_cons_of_not_ws hw1 _
    have hA : delimited multispace0 (charP '[') multispace0
        ('[' :: (serializeElems vs ++ (']' :: rest))) =
        .ok (serializeElems vs ++ (']' :: rest)) '[' := by
      rw [delimited_ws_eq, dropWS_cons_of_not_ws (by decide),
        show charP '[' ('[' :: (serializeElems vs ++ (']' :: rest))) =
          PResult.ok (serializeElems vs ++ (']' :: rest)) '[' from rfl]
      dsimp only
      rw [hXd]
    have hB : separated_list0 (delimited multispace0 (charP ',') multispace0)
        (fun k => parsePrimaryF m k) (serializeElems vs ++ (']' :: rest)) =
        .ok (']' :: rest) vs := by
      rw [serializeElems_eq_join]
      refine separated_list0_join _ serialize ']' (m - 1) (by decide) (by decide)
        (by decide) vs rest (fun x _ => serialize_head_notws x) ?_
        (fun t => parsePrimaryF_err_rbracket m t) ?_
      · intro x hx tail hnb' hlen'
        refine IH (sizeOf x) ?_ x (le_refl _) (hvs x hx) m tail ?_ hnb'
        · have h1 : sizeOf x < sizeOf vs := List.sizeOf_lt_of_mem hx
          have h2 : sizeOf (Value.array vs) = 1 + sizeOf vs := by
            simp [Value.array.sizeOf_spec]
          omega
        · omega
      · rw [← serializeElems_eq_join, List.length_append, List.length_cons]
        omega
    have hC : delimited multispace0 (charP ']') multispace0 (']' :: rest) =
        .ok (dropWS rest) ']' := by
      rw [delimited_ws_eq, dropWS_cons_of_not_ws (by decide),
        show charP ']' (']' :: rest) = PResult.ok rest ']' from rfl]
    have hmain : arrayRule (fun k => parsePrimaryF m k)
        ('[' :: (serializeElems vs ++ (']' :: rest))) =
        .ok (dropWS rest) (Value.array vs) := by
      unfold arrayRule
      rw [delimited_eq, hA]
      dsimp only
      rw [pmap_eq_match, hB]
      dsimp only
      rw [hC]
    rw [altList_cons, hmain]
    dsimp only
    rw [dropWS_idem]
  | object ps hv hk =>
    rw [serialize_object_val] at hlen ⊢
    have hlen2 : (serializeEntries ps).length + rest.length + 2 < m + 1 := by
      rw [List.cons_append, List.length_cons, List.length_append,
        List.length_append] at hlen
      simp only [List.length_cons, List.length_nil] at hlen
      omega
    have hshape : ('\x7b' :: (serializeEntries ps ++ ['\x7d'])) ++ rest =
        '\x7b' :: (serializeEntries ps ++ ('\x7d' :: rest)) := by
      rw [List.cons_append, List.append_assoc]
      rfl
    rw [hshape]
    rw [altList_cons, show parse_null ('\x7b' :: (serializeEntries ps ++ ('\x7d' :: rest))) =
      PResult.err from rfl]
    dsimp only
    rw [altList_cons, show parse_bool ('\x7b' :: (serializeEntries ps ++ ('\x7d' :: rest))) =
      PResult.err from rfl]
    dsimp only
    rw [altList_cons, show parse_number ('\x7b' :: (serializeEntries ps ++ ('\x7d' :: rest))) =
      PResult.err from rfl]
    dsimp only
    rw [altList_cons, show parse_string ('\x7b' :: (serializeEntries ps ++ ('\x7d' :: rest))) =
      PResult.err from rfl]
    dsimp only
    rw [altList_cons, show arrayRule (fun k => parsePrimaryF m k)
      ('\x7b' :: (serializeEntries ps ++ ('\x7d' :: rest))) = PResult.err from rfl]
    dsimp only
    have hXd : dropWS (serializeEntries ps ++ ('\x7d' :: rest)) =
        serializeEntries ps ++ ('\x7d' :: rest) := by
      cases ps with
      | nil =>
        rw [show serializeEntries ([] : List (List Char × Value)) = [] from by
          simp [serializeEntries], List.nil_append]
        exact dropWS_cons_of_not_ws (by decide) _
      | cons p l =>
        obtain ⟨Y, hY⟩ : ∃ Y, serializeEntries (p :: l) =
            '"' :: (escBody p.1 ++ ['"'] ++ Y) := by
          rcases p with ⟨k0, v0⟩
          cases l with
          | nil =>
            refine ⟨':' :: serialize v0, ?_⟩
            rw [show serializeEntries [(k0, v0)] =
              serializeString k0 ++ ':' :: serialize v0 from by simp [serializeEntries]]
            rw [show serializeString k0 = '"' :: (escBody k0 ++ ['"']) from rfl]
            rw [List.cons_append, List.append_assoc]
          | cons p' l' =>
            refine ⟨':' :: (serialize v0 ++ ',' :: serializeEntries (p' :: l')), ?_⟩
            rw [show serializeEntries ((k0, v0) :: p' :: l') =
              serializeString k0 ++ ':' :: serialize v0 ++ ',' ::
                serializeEntries (p' :: l') from by simp [serializeEntries]]
            rw [show serializeString k0 = '"' :: (escBody k0 ++ ['"']) from rfl]
            simp [List.cons_append, List.append_assoc]
        rw [hY, List.cons_append]
        exact dropWS_cons_of_not_ws (by decide) _
    have hA : delimited multispace0 (charP '\x7b') multispace0
        ('\x7b' :: (serializeEntries ps ++ ('\x7d' :: rest))) =
        .ok (serializeEntries ps ++ ('\x7d' :: rest)) '\x7b' := by
      rw [delimited_ws_eq, dropWS_cons_of_not_ws (by decide),
        show charP '\x7b' ('\x7b' :: (serializeEntries ps ++ ('\x7d' :: rest))) =
          PResult.ok (serializeEntries ps ++ ('\x7d' :: rest)) '\x7b' from rfl]
      dsimp only
      rw [hXd]
    have hB : separated_list0 (delimited multispace0 (charP ',') multispace0)
        (separated_pair (delimited multispace0 parse_string multispace0)
          (charP ':') (fun k => parsePrimaryF m k))
        (serializeEntries ps ++ ('\x7d' :: rest)) =
        .ok ('\x7d' :: rest) (ps.map (fun p => (Value.string p.1, p.2))) := by
      rw [← joinSer_map_entries]
      refine separated_list0_join _ serializeParsedEntry '\x7d' (m - 1) (by decide)
        (by decide) (by decide) (ps.map (fun p => (Value.string p.1, p.2))) rest
        ?_ ?_ (fun t => pairRule_err_rbrace _ t) ?_
      · intro x hx
        obtain ⟨p, hp, rfl⟩ := List.mem_map.mp hx
        refine ⟨'"', escBody p.1 ++ ['"'] ++ (':' :: serialize p.2), ?_, by decide⟩
        rw [serializeParsedEntry_eq,
          show serializeString p.1 = '"' :: (escBody p.1 ++ ['"']) from rfl,
          List.cons_append, List.append_assoc]
      · intro x hx tail hnb' hlen'
        obtain ⟨p, hp, rfl⟩ := List.mem_map.mp hx
        have hassoc : serializeParsedEntry (Value.string p.1, p.2) ++ tail =
            serializeString p.1 ++ ':' :: (serialize p.2 ++ tail) := by
          rw [serializeParsedEntry_eq, List.append_assoc]
          rfl
        rw [hassoc]
        have hsslen : (serializeString p.1).length = (escBody p.1 ++ ['"']).length + 1 := by
          rw [show serializeString p.1 = '"' :: (escBody p.1 ++ ['"']) from rfl,
            List.length_cons]
        have hlens : (serializeParsedEntry (Value.string p.1, p.2) ++ tail).length =
            (serializeString p.1).length + 1 + (serialize p.2).length + tail.length := by
          rw [serializeParsedEntry_eq]
          rw [List.length_append, List.length_append, List.length_cons]
          omega
        have helemIH : parsePrimaryF m (serialize p.2 ++ tail) =
            .ok (dropWS tail) p.2 := by
          refine IH (sizeOf p.2) ?_ p.2 (le_refl _) (hv p hp) m tail ?_ hnb'
          · have h1 : sizeOf p < sizeOf ps := List.sizeOf_lt_of_mem hp
            have h2 : sizeOf (Value.object ps) = 1 + sizeOf ps := by
              simp [Value.object.sizeOf_spec]
            have h3 : sizeOf p.2 < sizeOf p := by
              rcases p with ⟨k0, v0⟩
              simp [Prod.mk.sizeOf_spec]
            omega
          · rw [hlens] at hlen'
            rw [List.length_append]
            omega
        exact separated_pair_ser helemIH
      · rw [joinSer_map_entries, List.length_append, List.length_cons]
        omega
    have hC : delimited multispace0 (charP '\x7d') multispace0 ('\x7d' :: rest) =
        .ok (dropWS rest) '\x7d' := by
      rw [delimited_ws_eq, dropWS_cons_of_not_ws (by decide),
        show charP '\x7d' ('\x7d' :: rest) = PResult.ok rest '\x7d' from rfl]
    have hmain : objectRule (fun k => parsePrimaryF m k)
        ('\x7b' :: (serializeEntries ps ++ ('\x7d' :: rest))) =
        .ok (dropWS rest) (Value.object ps) := by
      unfold objectRule
      rw [delimited_eq, hA]
      dsimp only
      rw [pmap_eq_match, hB]
      dsimp only
      rw [show buildObjectMap (ps.map (fun p => (Value.string p.1, p.2))) =
        Value.object ps from by
          unfold buildObjectMap
          rw [objectEntriesFold_roundtrip hk]]
      rw [hC]
    rw [altList_cons, hmain]
    dsimp only
    rw [dropWS_idem]

/-- C7: round-trip — for every document accepted by the parser, serializing
the resulting value tree back to text and parsing that text again succeeds,
consumes the whole serialization, and yields a structurally equal tree. -/
theorem C7_round_trip :
    ∀ (i r : Input) (v : Value), parse_primary i = .ok r v →
      parse_primary (serialize v) = .ok [] v := by
  intro i r v h
  have hg : Good v := parsePrimaryF_good (i.length + 1) i r v h
  have h2 := serialize_reparse (sizeOf v) v (le_refl _) hg
    ((serialize v).length + 1) [] (by rw [List.append_nil]; omega) trivial
  rw [List.append_nil] at h2
  exact h2

/-- Witness: a concrete parse whose result re-serializes and re-parses to the
same tree. -/
theorem C7_round_trip_witness :
    parse_primary (serialize (Value.array [Value.number 1, Value.null])) =
      .ok [] (Value.array [Value.number 1, Value.null]) :=
  C7_round_trip ("[1, null]".toList) []
    (Value.array [Value.number 1, Value.null]) rfl
